import Mathlib

/-!
# Verification of the dynamic loose octree (`src/ts/shapes/nuke.ts`, octree portion)

This file gives a shallow embedding of the dynamic loose bounding-box octree
(`Octree` / `OctreeNode`) and proves/refutes the frozen claims about it.

Modelling conventions:
* JavaScript numbers are modelled by `ℚ` (all arithmetic used by the octree is
  exact rational arithmetic: halving, doubling, additions, comparisons).  The
  only irrational quantity, `rayOrigin.distanceTo(point)` in `raycast`, is kept
  as the squared distance (a rational); taking the square root is strictly
  monotone, so all comparisons made by the code are represented faithfully and
  theorems about the real distance use `Real.sqrt` of that field.
* Object identity (JavaScript reference identity, used by the `Set` of objects
  and the `WeakMap`) is modelled by a numeric id `oid`.  Node identity is
  modelled by a numeric id `nid`, allocated from a counter `nextId` in the
  octree state; this mirrors reference semantics across re-rooting (`grow`,
  `shrink`), which keep node references stable.
* `octants: OctreeNode[] | null` is modelled as a `List ONode` where the empty
  list plays the role of `null` (the source never stores an empty array: the
  array is always created with exactly 8 elements).
* `Set<OctreeObject>` is modelled as a duplicate-free `List Obj` in insertion
  order; `WeakMap<OctreeObject, OctreeNode>` as an association list keyed by
  `oid` with values `nid`.
* The mutually recursive `insert`/`split` pair creates fresh nodes while
  recursing, so it is not structurally recursive; a fuel argument bounds the
  `split` nesting.  The fuel used by the public entry point exceeds the depth
  budget `MAX_DEPTH - MIN_DEPTH` enforced by the source's own depth guards, so
  it never alters the semantics on well-formed trees.
-/

set_option maxHeartbeats 1000000

namespace Octo

/-- 3D vector (`THREE.Vector3`) with exact rational coordinates. -/
structure Vec3 where
  x : ℚ
  y : ℚ
  z : ℚ
deriving DecidableEq, Repr

/-- Axis-aligned box (`THREE.Box3`). -/
structure Box3 where
  min : Vec3
  max : Vec3
deriving DecidableEq, Repr

/-- An indexable object (`OctreeObject`): identity plus bounding box.  The ray
intersection capability is supplied externally (see `RayEnv`). -/
structure Obj where
  oid : ℕ
  box : Box3
deriving DecidableEq, Repr

def DEFAULT_ROOT_NODE_SIZE : ℚ := 1
def MIN_DEPTH : ℤ := -32
def MAX_DEPTH : ℤ := 8

/-- `OctreeNode`.  `octants = []` models `octants === null`. -/
inductive ONode : Type where
  | mk (nid : ℕ) (min : Vec3) (size : ℚ) (depth : ℤ)
       (objects : List Obj) (count : ℤ) (octants : List ONode) : ONode

namespace ONode

def nid : ONode → ℕ
  | .mk i _ _ _ _ _ _ => i

def min : ONode → Vec3
  | .mk _ m _ _ _ _ _ => m

def size : ONode → ℚ
  | .mk _ _ s _ _ _ _ => s

def depth : ONode → ℤ
  | .mk _ _ _ d _ _ _ => d

def objects : ONode → List Obj
  | .mk _ _ _ _ o _ _ => o

def count : ONode → ℤ
  | .mk _ _ _ _ _ c _ => c

def octants : ONode → List ONode
  | .mk _ _ _ _ _ _ l => l

@[simp] theorem nid_mk (i m s d o c l) : nid (mk i m s d o c l) = i := rfl
@[simp] theorem min_mk (i m s d o c l) : min (mk i m s d o c l) = m := rfl
@[simp] theorem size_mk (i m s d o c l) : size (mk i m s d o c l) = s := rfl
@[simp] theorem depth_mk (i m s d o c l) : depth (mk i m s d o c l) = d := rfl
@[simp] theorem objects_mk (i m s d o c l) : objects (mk i m s d o c l) = o := rfl
@[simp] theorem count_mk (i m s d o c l) : count (mk i m s d o c l) = c := rfl
@[simp] theorem octants_mk (i m s d o c l) : octants (mk i m s d o c l) = l := rfl

theorem sizeOf_mem_octants {c n : ONode} (h : c ∈ n.octants) : sizeOf c < sizeOf n := by
  cases n with
  | mk i m s d o cn l =>
    simp only [octants_mk] at h
    have := List.sizeOf_lt_of_mem h
    simp only [mk.sizeOf_spec]
    omega

/-- `OctreeNode.largerThan`: the node cube strictly exceeds the object's box
extent on all three axes. -/
def largerThan (n : ONode) (o : Obj) : Bool :=
  decide (o.box.max.x - o.box.min.x < n.size) &&
  decide (o.box.max.y - o.box.min.y < n.size) &&
  decide (o.box.max.z - o.box.min.z < n.size)

/-- `OctreeNode.containsPoint`: half-open interval test `[min, min+size)` per axis. -/
def containsPoint (n : ONode) (p : Vec3) : Bool :=
  decide (n.min.x ≤ p.x ∧ p.x < n.min.x + n.size ∧
          n.min.y ≤ p.y ∧ p.y < n.min.y + n.size ∧
          n.min.z ≤ p.z ∧ p.z < n.min.z + n.size)

end ONode

/-- Center of a bounding box (as computed inline by `containsCenter`). -/
def boxCenter (b : Box3) : Vec3 :=
  ⟨b.min.x + (b.max.x - b.min.x) / 2,
   b.min.y + (b.max.y - b.min.y) / 2,
   b.min.z + (b.max.z - b.min.z) / 2⟩

/-- `OctreeNode.containsCenter`: the node region contains the object's box
center (same half-open test as `containsPoint`). -/
def ONode.containsCenter (n : ONode) (o : Obj) : Bool :=
  n.containsPoint (boxCenter o.box)

/-- The min corner of octant cell `i` of a node with min corner `pmin` and
half-size `h` (bit 0 = X half, bit 1 = Y half, bit 2 = Z half). -/
def cellMin (pmin : Vec3) (h : ℚ) (i : ℕ) : Vec3 :=
  ⟨pmin.x + h * ((i &&& 1) : ℕ),
   pmin.y + h * (((i &&& 2) >>> 1) : ℕ),
   pmin.z + h * (((i &&& 4) >>> 2) : ℕ)⟩

/-- One fresh octant cell, as built by `OctreeNode.createOctants`. -/
def octantCell (pmin : Vec3) (psize : ℚ) (pdepth : ℤ) (cnid : ℕ) (i : ℕ) : ONode :=
  .mk cnid (cellMin pmin (psize / 2) i) (psize / 2) (pdepth + 1) [] 0 []

/-- `OctreeNode.createOctants`: the list of 8 fresh child cells; fresh node ids
are `firstId, firstId+1, …, firstId+7`. -/
def ONode.createOctants (n : ONode) (firstId : ℕ) : List ONode :=
  (List.range 8).map (fun i => octantCell n.min n.size n.depth (firstId + i) i)

/-! ## The object→node map (`WeakMap<OctreeObject, OctreeNode>`) -/

abbrev OMap := List (ℕ × ℕ)

def mapGet (m : OMap) (k : ℕ) : Option ℕ :=
  (m.find? (fun p => p.1 = k)).map (·.2)

def mapSet (m : OMap) (k v : ℕ) : OMap :=
  (k, v) :: m.filter (fun p => ¬ p.1 = k)

def mapDel (m : OMap) (k : ℕ) : OMap :=
  m.filter (fun p => ¬ p.1 = k)

/-- `Set.add` on the object list: appends unless an object with this identity
is already present. -/
def addObj (l : List Obj) (o : Obj) : List Obj :=
  if l.any (fun p => p.oid = o.oid) then l else l ++ [o]

/-- `Set.delete` by object identity. -/
def eraseObj (l : List Obj) (k : ℕ) : List Obj :=
  l.filter (fun p => ¬ p.oid = k)

/-- Mutable controller state threaded through node operations: the node id
allocator and the reverse `objectToNode` map. -/
structure St where
  nextId : ℕ
  otn : OMap
deriving Repr


end Octo

namespace Octo

/-! ## `OctreeNode.insert` / `OctreeNode.split`

The pair is mutually recursive and `split` creates fresh nodes, so a fuel
argument bounds the `split` nesting (one unit per tree level, exactly like the
source's own `depth === MAX_DEPTH` guard).  `insert`'s descent into existing
children is structural and consumes no fuel. -/

mutual

/-- `OctreeNode.insert`. -/
def nodeIns (fuel : ℕ) (n : ONode) (o : Obj) (st : St) : ONode × St :=
  match n with
  | .mk i m s d objs c [] =>
      -- no octants: store the object here, record the reverse-map entry, try splitting
      nodeSplit fuel (.mk i m s d (addObj objs o) (c + 1) [])
        ⟨st.nextId, mapSet st.otn o.oid i⟩
  | .mk i m s d objs c (c0 :: cs) =>
      if c0.largerThan o then
        match insChild fuel (c0 :: cs) o st with
        | some r => (.mk i m s d objs (c + 1) r.1, r.2)
        | none =>
            (.mk i m s d (addObj objs o) (c + 1) (c0 :: cs),
             ⟨st.nextId, mapSet st.otn o.oid i⟩)
      else
        (.mk i m s d (addObj objs o) (c + 1) (c0 :: cs),
         ⟨st.nextId, mapSet st.otn o.oid i⟩)
termination_by (fuel, 2, sizeOf n)
decreasing_by
  · exact Prod.Lex.right _ (Prod.Lex.left _ _ (by omega))
  · apply Prod.Lex.right _ (Prod.Lex.right _ (by simp [ONode.mk.sizeOf_spec] <;> omega))

/-- The `for i in 0..7 … if containsCenter … insert; return` loop of
`OctreeNode.insert`: recurse into the first octant containing the center,
`none` if no octant matches. -/
def insChild (fuel : ℕ) (octs : List ONode) (o : Obj) (st : St) :
    Option (List ONode × St) :=
  match octs with
  | [] => none
  | c :: rest =>
      if c.containsCenter o then
        let r := nodeIns fuel c o st
        some (r.1 :: rest, r.2)
      else
        match insChild fuel rest o st with
        | some r => some (c :: r.1, r.2)
        | none => none
termination_by (fuel, 2, sizeOf octs)
decreasing_by
  · apply Prod.Lex.right _ (Prod.Lex.right _ (by simp <;> omega))
  · apply Prod.Lex.right _ (Prod.Lex.right _ (by simp <;> omega))

/-- `OctreeNode.split`. -/
def nodeSplit (fuel : ℕ) (n : ONode) (st : St) : ONode × St :=
  match fuel with
  | 0 => (n, st)
  | f + 1 =>
    match n with
    | .mk i m s d objs c octs =>
      if objs.length ≤ 8 ∨ d = MAX_DEPTH then (.mk i m s d objs c octs, st)
      else
        let cells := ONode.createOctants (.mk i m s d objs c octs) st.nextId
        let r := distrib f objs cells objs ⟨st.nextId + 8, st.otn⟩
        let r2 := splitAll f r.1 r.2.2
        (.mk i m s d r.2.1 c r2.1, r2.2)
termination_by (fuel, 1, 0)
decreasing_by
  · exact Prod.Lex.left _ _ (by omega)
  · exact Prod.Lex.left _ _ (by omega)

/-- The redistribution loop of `split`: iterate over the snapshot of the
object set, moving each object that fits into the octant(s) containing its
center. -/
def distrib (fuel : ℕ) (snapshot : List Obj) (cells : List ONode)
    (objs : List Obj) (st : St) : List ONode × List Obj × St :=
  match snapshot with
  | [] => (cells, objs, st)
  | o :: rest =>
      if (match cells.head? with | some c0 => c0.largerThan o | none => false) then
        let r := distribJ fuel o cells 0 objs st
        distrib fuel rest r.1 r.2.1 r.2.2
      else
        distrib fuel rest cells objs st
termination_by (fuel, 4, snapshot.length)
decreasing_by
  · exact Prod.Lex.right _ (Prod.Lex.left _ _ (by omega))
  · exact Prod.Lex.right _ (Prod.Lex.right _ (by simp))
  · exact Prod.Lex.right _ (Prod.Lex.right _ (by simp))

/-- The inner `for j in 0..7` loop of `split`'s redistribution (the source has
no `break`: every matching octant receives the object; geometrically at most
one matches). -/
def distribJ (fuel : ℕ) (o : Obj) (cells : List ONode) (j : ℕ)
    (objs : List Obj) (st : St) : List ONode × List Obj × St :=
  if h : j < cells.length then
    let cj := cells.get ⟨j, h⟩
    if cj.containsCenter o then
      let r := nodeIns fuel cj o st
      distribJ fuel o (cells.set j r.1) (j + 1) (eraseObj objs o.oid) r.2
    else
      distribJ fuel o cells (j + 1) objs st
  else (cells, objs, st)
termination_by (fuel, 3, cells.length - j)
decreasing_by
  · exact Prod.Lex.right _ (Prod.Lex.left _ _ (by omega))
  · exact Prod.Lex.right _ (Prod.Lex.right _ (by simp <;> omega))
  · exact Prod.Lex.right _ (Prod.Lex.right _ (by omega))

/-- The final loop of `split`: recursively try splitting every octant. -/
def splitAll (fuel : ℕ) (cells : List ONode) (st : St) : List ONode × St :=
  match cells with
  | [] => ([], st)
  | c :: rest =>
      let r := nodeSplit fuel c st
      let r2 := splitAll fuel rest r.2
      (r.1 :: r2.1, r2.2)
termination_by (fuel, 5, cells.length)
decreasing_by
  · exact Prod.Lex.right _ (Prod.Lex.left _ _ (by omega))
  · exact Prod.Lex.right _ (Prod.Lex.right _ (by simp))

end


end Octo

namespace Octo

/-! ## `OctreeNode.merge` and `OctreeNode.remove` -/

/-- `OctreeNode.merge`: when the subtree count is at most 8 and octants exist,
pull every object stored directly in an octant back into this node, re-point
the reverse map, and discard the octants. -/
def mergeNode (n : ONode) (m : OMap) : ONode × OMap :=
  match n with
  | .mk i mn s d objs c octs =>
    if 8 < c ∨ octs.isEmpty then (.mk i mn s d objs c octs, m)
    else
      let r := octs.foldl
        (fun (acc : List Obj × OMap) oct =>
          oct.objects.foldl
            (fun (acc2 : List Obj × OMap) o =>
              (addObj acc2.1 o, mapSet acc2.2 o.oid i)) acc)
        (objs, m)
      (.mk i mn s d r.1 c [], r.2)

/-- Does the subtree contain a node with the given node id?  (Stands in for
following the object→node reference: the map stores node ids.) -/
def hasNid : ONode → ℕ → Bool
  | .mk i _ _ _ _ _ octs, t =>
      i = t || octs.attach.any (fun c => hasNid c.1 t)
termination_by n _ => sizeOf n
decreasing_by
  have := List.sizeOf_lt_of_mem c.2
  simp [ONode.mk.sizeOf_spec]
  omega

mutual

/-- `OctreeNode.remove` together with the ancestor clean-up walk: the code
deletes the object at the owning node (found via the reverse map), decrements
and merges there, then decrements and merges every ancestor bottom-up.  The
recursion reconstructs exactly the root-to-owner path from the owner's node
id.  (The source operates on the owner by direct reference; a map entry
pointing outside the tree cannot arise on well-formed states.) -/
def removeObjFrom (n : ONode) (tnid : ℕ) (k : ℕ) (m : OMap) : ONode × OMap :=
  match n with
  | .mk i mn s d objs c octs =>
    if i = tnid then
      mergeNode (.mk i mn s d (eraseObj objs k) (c - 1) octs) m
    else if octs.any (fun ch => hasNid ch tnid) then
      let r := removeInChildren octs tnid k m
      mergeNode (.mk i mn s d objs (c - 1) r.1) r.2
    else (.mk i mn s d objs c octs, m)
termination_by sizeOf n
decreasing_by simp [ONode.mk.sizeOf_spec] <;> omega

/-- Descend into the (unique) child subtree containing the owner node. -/
def removeInChildren (octs : List ONode) (tnid k : ℕ) (m : OMap) :
    List ONode × OMap :=
  match octs with
  | [] => ([], m)
  | ch :: rest =>
    if hasNid ch tnid then
      let r := removeObjFrom ch tnid k m
      (r.1 :: rest, r.2)
    else
      let r := removeInChildren rest tnid k m
      (ch :: r.1, r.2)
termination_by sizeOf octs
decreasing_by all_goals (simp <;> omega)

end

/-! ## The `Octree` controller -/

structure Octree where
  root : ONode
  objectToNode : OMap
  nextId : ℕ

/-- The `Octree` constructor: a 1×1×1 root cube at the origin, depth 0. -/
def Octree.init : Octree :=
  ⟨.mk 0 ⟨0, 0, 0⟩ DEFAULT_ROOT_NODE_SIZE 0 [] 0 [], [], 1⟩

/-- Corner `i` of a bounding box as enumerated by `Octree.grow`
(`(i & bit) ? min : max` per axis). -/
def growCorner (b : Box3) (i : ℕ) : Vec3 :=
  ⟨if i &&& 1 ≠ 0 then b.min.x else b.max.x,
   if i &&& 2 ≠ 0 then b.min.y else b.max.y,
   if i &&& 4 ≠ 0 then b.min.z else b.max.z⟩

/-- The average of the bounding-box corners lying outside the root, as
computed by `Octree.grow`.  (When no corner is outside the code divides by
zero; `grow` is only invoked when the root does not fit the object, which
forces at least one outside corner.  ℚ division by zero yields 0 here.) -/
def growAverage (root : ONode) (b : Box3) : Vec3 :=
  let pts := ((List.range 8).map (growCorner b)).filter
    (fun v => ¬ root.containsPoint v)
  let cnt : ℚ := pts.length
  let sum := pts.foldl (fun (a : Vec3) v => ⟨a.x + v.x, a.y + v.y, a.z + v.z⟩)
    ⟨0, 0, 0⟩
  ⟨sum.x * (1 / cnt), sum.y * (1 / cnt), sum.z * (1 / cnt)⟩

def rootCenter (root : ONode) : Vec3 :=
  ⟨root.min.x + root.size / 2, root.min.y + root.size / 2,
   root.min.z + root.size / 2⟩

/-- The "direction of growth" of `Octree.grow`. -/
def growDirection (root : ONode) (b : Box3) : Vec3 :=
  let a := growAverage root b
  let c := rootCenter root
  ⟨a.x - c.x, a.y - c.y, a.z - c.z⟩

/-- The new root's min corner: shifted down by the old size on every axis with
negative growth direction. -/
def growNewMin (root : ONode) (dir : Vec3) : Vec3 :=
  ⟨if dir.x < 0 then root.min.x - root.size else root.min.x,
   if dir.y < 0 then root.min.y - root.size else root.min.y,
   if dir.z < 0 then root.min.z - root.size else root.min.z⟩

/-- The octant slot of the new root that the old root occupies. -/
def growOctantIndex (dir : Vec3) : ℕ :=
  (if dir.x < 0 then 1 else 0) + (if dir.y < 0 then 2 else 0) +
  (if dir.z < 0 then 4 else 0)

/-- `Octree.grow`: double the root towards the object.  A non-empty old root
becomes one octant of the new root (followed by a merge attempt); an empty old
root is simply replaced. -/
def Octree.grow (t : Octree) (towards : Obj) : Octree :=
  let dir := growDirection t.root towards.box
  let nmin := growNewMin t.root dir
  if 0 < t.root.count then
    let idx := growOctantIndex dir
    let newRootBase : ONode :=
      .mk t.nextId nmin (t.root.size * 2) (t.root.depth - 1) [] 0 []
    let cells := newRootBase.createOctants (t.nextId + 1)
    let r := mergeNode
      (.mk t.nextId nmin (t.root.size * 2) (t.root.depth - 1) []
        t.root.count (cells.set idx t.root))
      t.objectToNode
    ⟨r.1, r.2, t.nextId + 9⟩
  else
    ⟨.mk t.nextId nmin (t.root.size * 2) (t.root.depth - 1) [] 0 [],
     t.objectToNode, t.nextId + 1⟩

/-- The `while (!larger || !contains)` loop at the head of `Octree.insert`:
keep growing until the root fits the object, abandoning (second component
`false`) when the root is already at `MIN_DEPTH`.  Each `grow` decrements the
root depth by one, so `(depth - MIN_DEPTH).toNat` fuel makes the fuel guard
unreachable. -/
def growToFit (fuel : ℕ) (t : Octree) (o : Obj) : Octree × Bool :=
  if t.root.largerThan o && t.root.containsCenter o then (t, true)
  else if t.root.depth = MIN_DEPTH then (t, false)
  else
    match fuel with
    | 0 => (t, false)
    | f + 1 => growToFit f (t.grow o) o

/-- The scan of `Octree.shrink` over the 8 octants: `some (some c)` when
exactly one octant is non-empty, `some none` when all are empty, `none` when a
second non-empty octant aborts the scan. -/
def findLoneOctant (octs : List ONode) (acc : Option ONode) :
    Option (Option ONode) :=
  match octs with
  | [] => some acc
  | c :: rest =>
    if 0 < c.count then
      match acc with
      | some _ => none
      | none => findLoneOctant rest (some c)
    else findLoneOctant rest acc

theorem findLoneOctant_mem {octs : List ONode} {acc : Option ONode} {c : ONode}
    (h : findLoneOctant octs acc = some (some c)) : c ∈ octs ∨ acc = some c := by
  induction octs generalizing acc with
  | nil =>
    unfold findLoneOctant at h
    exact Or.inr (Option.some_inj.mp h)
  | cons hd tl ih =>
    unfold findLoneOctant at h
    by_cases hc : 0 < hd.count
    · rw [if_pos hc] at h
      cases acc with
      | some a => simp at h
      | none =>
        rcases ih h with h1 | h2
        · exact Or.inl (List.mem_cons_of_mem _ h1)
        · have he : hd = c := Option.some_inj.mp h2
          exact Or.inl (he ▸ List.mem_cons_self _ _)
    · rw [if_neg hc] at h
      rcases ih h with h1 | h2
      · exact Or.inl (List.mem_cons_of_mem _ h1)
      · exact Or.inr h2

/-- `Octree.shrink`. -/
def Octree.shrink (t : Octree) : Octree :=
  if t.root.size < DEFAULT_ROOT_NODE_SIZE ∨ ¬ t.root.objects = [] then t
  else if t.root.count = 0 then
    -- reset to the default empty octree (min, size and depth only)
    ⟨.mk t.root.nid ⟨0, 0, 0⟩ DEFAULT_ROOT_NODE_SIZE 0 t.root.objects
      t.root.count t.root.octants, t.objectToNode, t.nextId⟩
  else if t.root.octants.isEmpty then t
  else
    match hf : findLoneOctant t.root.octants none with
    | some (some c) => Octree.shrink ⟨c, t.objectToNode, t.nextId⟩
    | some none => t  -- no non-empty octant: impossible when counts are consistent
    | none => t       -- more than one non-empty octant
termination_by sizeOf t.root
decreasing_by
  have hm : c ∈ t.root.octants := by
    rcases findLoneOctant_mem hf with h | h
    · exact h
    · cases h
  exact ONode.sizeOf_mem_octants hm

/-- The split-nesting fuel used by `Octree.insert`: strictly more than the
depth budget `MAX_DEPTH - MIN_DEPTH` that the source's own depth guards
enforce, so the fuel guard is never reached on well-formed trees. -/
def splitFuel : ℕ := 41

/-- `Octree.insert`. -/
def Octree.insert (t : Octree) (o : Obj) : Octree :=
  if (mapGet t.objectToNode o.oid).isSome then t
  else
    let g := growToFit (t.root.depth - MIN_DEPTH).toNat t o
    if g.2 then
      let r := nodeIns splitFuel g.1.root o ⟨g.1.nextId, g.1.objectToNode⟩
      let t2 : Octree := ⟨r.1, r.2.otn, r.2.nextId⟩
      if g.1.root.count = 0 then t2.shrink else t2
    else g.1

/-- `Octree.remove`. -/
def Octree.remove (t : Octree) (o : Obj) : Octree :=
  match mapGet t.objectToNode o.oid with
  | none => t
  | some v =>
      let r := removeObjFrom t.root v o.oid t.objectToNode
      Octree.shrink ⟨r.1, mapDel r.2 o.oid, t.nextId⟩

/-- `Octree.update`: remove followed by insert. -/
def Octree.update (t : Octree) (o : Obj) : Octree :=
  (t.remove o).insert o

/-- The states reachable from the freshly constructed octree through the
public mutating operations. -/
inductive Reachable : Octree → Prop where
  | init : Reachable Octree.init
  | insert {t} (o : Obj) : Reachable t → Reachable (t.insert o)
  | remove {t} (o : Obj) : Reachable t → Reachable (t.remove o)
  | update {t} (o : Obj) : Reachable t → Reachable (t.update o)


end Octo

namespace Octo

/-! ## Ray queries

`Util.rayIntersectsBox` lives in the repository's `util.ts`, which is not part
of the sources here, and the object-side `isIntersectedByRay` belongs to the
external object capability; the spec describes both only behaviourally ("test
the incoming query shape against this loose box", "a ray-intersection test
producing an optional hit point").  Both are therefore abstract parameters of
the query model; the claims proved about `raycast` hold for every choice. -/

/-- External geometry oracles for ray queries.  `boxHit` models
`Util.rayIntersectsBox`; `objHit` models `object.isIntersectedByRay`,
returning the written-out intersection point on success. -/
structure RayEnv where
  boxHit : Vec3 → Vec3 → Box3 → Bool
  objHit : ℕ → Vec3 → Vec3 → Option Vec3

/-- The loose bounding box of a node: twice the tight cube, same center. -/
def looseBox (n : ONode) : Box3 :=
  ⟨⟨n.min.x - n.size / 2, n.min.y - n.size / 2, n.min.z - n.size / 2⟩,
   ⟨n.min.x + n.size * 3 / 2, n.min.y + n.size * 3 / 2, n.min.z + n.size * 3 / 2⟩⟩

/-- Squared Euclidean distance.  `raycast` stores
`rayOrigin.distanceTo(point)`; we keep its square (the square root is strictly
monotone on non-negative rationals, so every comparison is preserved; theorems
about the real distance take `Real.sqrt`). -/
def dist2 (a b : Vec3) : ℚ :=
  (b.x - a.x) ^ 2 + (b.y - a.y) ^ 2 + (b.z - a.z) ^ 2

/-- An `OctreeIntersection`: object, hit point, (squared) distance. -/
structure Hit where
  oid : ℕ
  point : Vec3
  distSq : ℚ
deriving DecidableEq, Repr

/-- `OctreeNode.raycast`: prune by the loose box, test the direct objects,
then recurse into all octants, appending in traversal order. -/
def nodeRaycast (env : RayEnv) (ro rd : Vec3) (n : ONode) : List Hit :=
  if env.boxHit ro rd (looseBox n) then
    (n.objects.filterMap (fun o =>
      (env.objHit o.oid ro rd).map (fun p => ⟨o.oid, p, dist2 ro p⟩)))
    ++ (n.octants.attach.map (fun c => nodeRaycast env ro rd c.1)).flatten
  else []
termination_by sizeOf n
decreasing_by exact ONode.sizeOf_mem_octants c.2


end Octo

namespace Octo

/-- Ascending-distance order on hits (`(a, b) => a.distance - b.distance`);
comparing squared distances is equivalent since both are non-negative. -/
def hitLE (a b : Hit) : Prop := a.distSq ≤ b.distSq

instance : DecidableRel hitLE := fun a b => inferInstanceAs (Decidable (a.distSq ≤ b.distSq))

instance : IsTotal Hit hitLE := ⟨fun a b => le_total a.distSq b.distSq⟩

instance : IsTrans Hit hitLE := ⟨fun _ _ _ h1 h2 => le_trans h1 h2⟩

/-- `Octree.raycast`: collect all hits from the root's traversal, then sort
ascending by distance.  (The `beforeOperation` pre-query hook is an external
zero-argument callback with no modelled effect on the tree.)  JavaScript's
`sort` is a stable comparison sort; it is modelled by a stable sort. -/
def Octree.raycast (env : RayEnv) (t : Octree) (ro rd : Vec3) : List Hit :=
  List.insertionSort hitLE (nodeRaycast env ro rd t.root)

/-! ## Well-formedness checkers -/

/-- All object ids stored anywhere in the subtree (direct sets, in traversal
order). -/
def subtreeOids : ONode → List ℕ
  | .mk _ _ _ _ objs _ octs =>
      objs.map (·.oid) ++ (octs.attach.map (fun c => subtreeOids c.1)).flatten
termination_by n => sizeOf n
decreasing_by
  have := List.sizeOf_lt_of_mem c.2
  simp [ONode.mk.sizeOf_spec]
  omega

/-- All nodes of the subtree (preorder). -/
def allNodes : ONode → List ONode
  | .mk i m s d objs cnt octs =>
      .mk i m s d objs cnt octs ::
        (octs.attach.map (fun c => allNodes c.1)).flatten
termination_by n => sizeOf n
decreasing_by
  have := List.sizeOf_lt_of_mem c.2
  simp [ONode.mk.sizeOf_spec]
  omega

def allNids (n : ONode) : List ℕ := (allNodes n).map ONode.nid

/-- Geometry of an octant list against its parent: child `i` has the
`createOctants` min corner, half the parent's size, depth one deeper. -/
def octsGeomB (pmin : Vec3) (h : ℚ) (pd : ℤ) : List ONode → ℕ → Bool
  | [], _ => true
  | c :: rest, i =>
      decide (c.min = cellMin pmin h i) && decide (c.size = h) &&
      decide (c.depth = pd + 1) && octsGeomB pmin h pd rest (i + 1)

/-- Structural well-formedness of a node:
* the stored `count` equals `|objects| + Σ child counts`;
* depth never exceeds `MAX_DEPTH`;
* a node with octants has exactly 8 of them, `count > 8`, and
  `createOctants` geometry; a node without octants holds at most 8 objects
  unless it sits at `MAX_DEPTH` (where `split` is disabled). -/
def nodeWFb : ONode → Bool
  | .mk _ mn s dp objs cnt octs =>
      decide (cnt = (objs.length : ℤ) + (octs.map ONode.count).sum) &&
      decide (dp ≤ MAX_DEPTH) &&
      (if octs.isEmpty then decide (objs.length ≤ 8 ∨ dp = MAX_DEPTH)
       else decide (octs.length = 8) && decide ((8 : ℤ) < cnt) &&
            octsGeomB mn (s / 2) dp octs 0 &&
            octs.attach.all (fun c => nodeWFb c.1))
termination_by n => sizeOf n
decreasing_by
  have := List.sizeOf_lt_of_mem c.2
  simp [ONode.mk.sizeOf_spec]
  omega

/-- Full well-formedness of an octree state. -/
def treeWFb (t : Octree) : Bool :=
  nodeWFb t.root &&
  decide (MIN_DEPTH ≤ t.root.depth) &&
  decide ((subtreeOids t.root).Nodup) &&
  decide ((allNids t.root).Nodup) &&
  (allNids t.root).all (fun i => decide (i < t.nextId)) &&
  decide ((t.objectToNode.map Prod.fst).Nodup) &&
  (allNodes t.root).all (fun nd => nd.objects.all (fun o =>
      decide (mapGet t.objectToNode o.oid = some nd.nid))) &&
  t.objectToNode.all (fun kv => (allNodes t.root).any (fun nd =>
      decide (nd.nid = kv.2) && nd.objects.any (fun o => decide (o.oid = kv.1))))

/-! ## Claim-specific invariant checkers -/

/-- Count consistency (claim C1): at every node of the subtree the stored
`count` equals the size of the direct object set plus the sum of the
children's stored counts. -/
def countsOkB : ONode → Bool
  | .mk _ _ _ _ objs cnt octs =>
      decide (cnt = (objs.length : ℤ) + (octs.map ONode.count).sum) &&
      octs.attach.all (fun c => countsOkB c.1)
termination_by n => sizeOf n
decreasing_by
  have := List.sizeOf_lt_of_mem c.2
  simp [ONode.mk.sizeOf_spec]
  omega

/-- Split/merge threshold symmetry (claim C4): at every node of the subtree, a
node with children has `count > 8`, and a node with `count ≤ 8` has no
children. -/
def thresholdsOkB : ONode → Bool
  | .mk _ _ _ _ _ cnt octs =>
      (octs.isEmpty || decide ((8 : ℤ) < cnt)) &&
      (decide ((8 : ℤ) < cnt) || octs.isEmpty) &&
      octs.attach.all (fun c => thresholdsOkB c.1)
termination_by n => sizeOf n
decreasing_by
  have := List.sizeOf_lt_of_mem c.2
  simp [ONode.mk.sizeOf_spec]
  omega

/-- Single ownership (claim C5): every reverse-map entry resolves to exactly
one node of the tree (reachable from the root, by construction of
`allNodes`), that node's direct set contains the object, the entry's node id
is that node's, and every directly stored object is tracked by the map with
its owner's node id. -/
def syncOkB (t : Octree) : Bool :=
  t.objectToNode.all (fun kv =>
    decide (((allNodes t.root).countP
        (fun nd => nd.objects.any (fun o => o.oid = kv.1))) = 1) &&
    (allNodes t.root).any (fun nd =>
      decide (nd.nid = kv.2) && nd.objects.any (fun o => decide (o.oid = kv.1)))) &&
  (allNodes t.root).all (fun nd => nd.objects.all (fun o =>
    decide (mapGet t.objectToNode o.oid = some nd.nid)))


end Octo

namespace Octo

/-! ## Basic lemmas: attach, maps, object sets -/

theorem all_attach (l : List ONode) (f : ONode → Bool) :
    (l.attach.all (fun c => f c.1)) = l.all f := by
  rw [Bool.eq_iff_iff]
  simp [List.all_eq_true, Subtype.forall]

theorem map_attach (l : List ONode) (f : ONode → α) :
    (l.attach.map (fun c => f c.1)) = l.map f := by
  simp [List.attach, List.attachWith, List.map_pmap]

/-- Strong induction over the nested node structure. -/
theorem oNodeInd (P : ONode → Prop)
    (ih : ∀ n : ONode, (∀ c ∈ n.octants, P c) → P n) : ∀ n, P n := by
  have H : ∀ k : ℕ, ∀ n : ONode, sizeOf n ≤ k → P n := by
    intro k
    induction k with
    | zero =>
      intro n hn
      exact ih n (fun c hc =>
        absurd (Nat.lt_of_lt_of_le (ONode.sizeOf_mem_octants hc) hn)
          (Nat.not_lt_zero _))
    | succ k ihk =>
      intro n hn
      exact ih n (fun c hc => ihk c (by
        have := ONode.sizeOf_mem_octants hc; omega))
  exact fun n => H (sizeOf n) n le_rfl

@[simp] theorem mapGet_nil (k : ℕ) : mapGet [] k = none := rfl

theorem mapGet_cons (p : ℕ × ℕ) (m : OMap) (k : ℕ) :
    mapGet (p :: m) k = if p.1 = k then some p.2 else mapGet m k := by
  by_cases h : p.1 = k <;> simp [mapGet, List.find?, h]

theorem mapGet_filterKey_ne (m : OMap) (k k' : ℕ) (h : k' ≠ k) :
    mapGet (m.filter (fun p => ¬ p.1 = k)) k' = mapGet m k' := by
  induction m with
  | nil => rfl
  | cons p rest ih =>
    rw [List.filter_cons]
    by_cases hp : p.1 = k
    · rw [if_neg (by simp [hp])]
      rw [mapGet_cons, if_neg (by rw [hp]; exact fun he => h he.symm)]
      exact ih
    · rw [if_pos (by simp [hp])]
      rw [mapGet_cons, mapGet_cons]
      by_cases hpk : p.1 = k'
      · simp [hpk]
      · rw [if_neg hpk, if_neg hpk]
        exact ih

theorem mapGet_mapSet_self (m : OMap) (k v : ℕ) :
    mapGet (mapSet m k v) k = some v := by
  simp [mapSet, mapGet_cons]

theorem mapGet_mapSet_ne (m : OMap) (k v k' : ℕ) (h : k' ≠ k) :
    mapGet (mapSet m k v) k' = mapGet m k' := by
  rw [mapSet, mapGet_cons, if_neg (by exact fun he => h he.symm)]
  exact mapGet_filterKey_ne m k k' h

theorem mapGet_filterKey_self (m : OMap) (k : ℕ) :
    mapGet (m.filter (fun p => ¬ p.1 = k)) k = none := by
  induction m with
  | nil => rfl
  | cons p rest ih =>
    rw [List.filter_cons]
    by_cases hp : p.1 = k
    · rw [if_neg (by simp [hp])]; exact ih
    · rw [if_pos (by simp [hp]), mapGet_cons, if_neg hp]; exact ih

theorem mapGet_mapDel_self (m : OMap) (k : ℕ) : mapGet (mapDel m k) k = none :=
  mapGet_filterKey_self m k

theorem mapGet_mapDel_ne (m : OMap) (k k' : ℕ) (h : k' ≠ k) :
    mapGet (mapDel m k) k' = mapGet m k' :=
  mapGet_filterKey_ne m k k' h

theorem mapSet_keys_nodup {m : OMap} (h : (m.map Prod.fst).Nodup) (k v : ℕ) :
    ((mapSet m k v).map Prod.fst).Nodup := by
  simp only [mapSet, List.map_cons, List.nodup_cons]
  refine ⟨?_, List.Nodup.sublist (List.Sublist.map Prod.fst (List.filter_sublist m)) h⟩
  intro hk
  simp only [List.mem_map, List.mem_filter] at hk
  obtain ⟨p, ⟨_, hp2⟩, hp3⟩ := hk
  simp [hp3] at hp2

theorem mapDel_keys_nodup {m : OMap} (h : (m.map Prod.fst).Nodup) (k : ℕ) :
    ((mapDel m k).map Prod.fst).Nodup :=
  List.Nodup.sublist (List.Sublist.map Prod.fst (List.filter_sublist m)) h

theorem mapGet_isSome_mapSet (m : OMap) (k v k' : ℕ) :
    (mapGet (mapSet m k v) k').isSome ↔ ((mapGet m k').isSome ∨ k' = k) := by
  by_cases h : k' = k
  · subst h; simp [mapGet_mapSet_self]
  · rw [mapGet_mapSet_ne m k v k' h]
    simp [h]

/-- A map entry means membership. -/
theorem mapGet_eq_some_mem {m : OMap} {k v : ℕ} (h : mapGet m k = some v) :
    (k, v) ∈ m := by
  induction m with
  | nil => simp [mapGet] at h
  | cons p rest ih =>
    rw [mapGet_cons] at h
    by_cases hp : p.1 = k
    · rw [if_pos hp] at h
      obtain ⟨p1, p2⟩ := p
      simp only at hp
      simp only [Option.some_inj] at h
      rw [← hp, ← h]
      exact List.mem_cons_self _ _
    · rw [if_neg hp] at h
      exact List.mem_cons_of_mem _ (ih h)

theorem mem_mapGet_eq_some {m : OMap} (hnd : (m.map Prod.fst).Nodup)
    {k v : ℕ} (h : (k, v) ∈ m) : mapGet m k = some v := by
  induction m with
  | nil => simp at h
  | cons p rest ih =>
    simp only [List.map_cons, List.nodup_cons] at hnd
    rw [mapGet_cons]
    rcases List.mem_cons.mp h with h1 | h2
    · subst h1; simp
    · have hne : ¬ p.1 = k := by
        intro he
        exact hnd.1 (he ▸ (List.mem_map.mpr ⟨(k, v), h2, rfl⟩))
      rw [if_neg hne]
      exact ih hnd.2 h2

theorem mapGet_isSome_iff_mem_keys {m : OMap} {k : ℕ} :
    (mapGet m k).isSome ↔ k ∈ m.map Prod.fst := by
  induction m with
  | nil => simp
  | cons p rest ih =>
    rw [mapGet_cons]
    by_cases hp : p.1 = k
    · simp [hp]
    · simp only [if_neg hp, List.map_cons, List.mem_cons]
      rw [ih]
      constructor
      · exact Or.inr
      · rintro (h1 | h2)
        · exact absurd h1.symm hp
        · exact h2


end Octo

namespace Octo

/-! ## Object-set lemmas -/

theorem addObj_of_not_mem {l : List Obj} {o : Obj} (h : o.oid ∉ l.map Obj.oid) :
    addObj l o = l ++ [o] := by
  unfold addObj
  rw [if_neg]
  simp only [List.any_eq_true, decide_eq_true_eq]
  rintro ⟨p, hp, hpe⟩
  exact h (List.mem_map.mpr ⟨p, hp, hpe⟩)

theorem eraseObj_map_oid (l : List Obj) (k : ℕ) :
    (eraseObj l k).map Obj.oid = (l.map Obj.oid).filter (fun x => ¬ x = k) := by
  induction l with
  | nil => rfl
  | cons p rest ih =>
    simp only [eraseObj, List.filter_cons, List.map_cons] at *
    by_cases hp : p.oid = k
    · rw [if_neg (by simp [hp]), if_neg (by simp [hp])]
      exact ih
    · rw [if_pos (by simp [hp]), if_pos (by simp [hp])]
      simp only [List.map_cons]
      rw [ih]

/-! ## Unfolding lemmas for the recursive node functions -/

theorem subtreeOids_mk (i m s d objs c octs) :
    subtreeOids (.mk i m s d objs c octs) =
      objs.map (·.oid) ++ (octs.map subtreeOids).flatten := by
  unfold subtreeOids
  congr 1
  simp [List.attach]

theorem allNodes_mk (i m s d objs c octs) :
    allNodes (.mk i m s d objs c octs) =
      .mk i m s d objs c octs :: (octs.map allNodes).flatten := by
  unfold allNodes
  congr 1
  simp [List.attach]

theorem any_attach (l : List ONode) (f : ONode → Bool) :
    (l.attach.any (fun c => f c.1)) = l.any f := by
  rw [Bool.eq_iff_iff]
  simp [List.any_eq_true, Subtype.exists]

theorem hasNid_mk (i m s d objs c octs t) :
    hasNid (.mk i m s d objs c octs) t =
      (decide (i = t) || octs.any (fun c => hasNid c t)) := by
  conv_lhs => rw [hasNid.eq_def]
  show (decide (i = t) || octs.attach.any fun c => hasNid c.1 t) =
       (decide (i = t) || octs.any fun c => hasNid c t)
  congr 1
  exact any_attach octs (fun c => hasNid c t)

theorem countsOkB_mk (i m s d objs c octs) :
    countsOkB (.mk i m s d objs c octs) =
      (decide (c = (objs.length : ℤ) + (octs.map ONode.count).sum) &&
       octs.all countsOkB) := by
  unfold countsOkB
  congr 1
  exact all_attach octs countsOkB

theorem thresholdsOkB_mk (i m s d objs c octs) :
    thresholdsOkB (.mk i m s d objs c octs) =
      ((octs.isEmpty || decide ((8 : ℤ) < c)) &&
       (decide ((8 : ℤ) < c) || octs.isEmpty) &&
       octs.all thresholdsOkB) := by
  unfold thresholdsOkB
  congr 1
  exact all_attach octs thresholdsOkB

theorem nodeWFb_mk (i mn s dp objs cnt octs) :
    nodeWFb (.mk i mn s dp objs cnt octs) =
      (decide (cnt = (objs.length : ℤ) + (octs.map ONode.count).sum) &&
       decide (dp ≤ MAX_DEPTH) &&
       (if octs.isEmpty then decide (objs.length ≤ 8 ∨ dp = MAX_DEPTH)
        else decide (octs.length = 8) && decide ((8 : ℤ) < cnt) &&
             octsGeomB mn (s / 2) dp octs 0 &&
             octs.all nodeWFb)) := by
  unfold nodeWFb
  congr 2
  cases octs with
  | nil => rfl
  | cons hd tl =>
    congr 1
    exact all_attach (hd :: tl) nodeWFb

/-- Propositional characterization of `nodeWFb`. -/
theorem nodeWFb_mk_iff (i mn s dp objs cnt octs) :
    nodeWFb (.mk i mn s dp objs cnt octs) = true ↔
      (cnt = (objs.length : ℤ) + (octs.map ONode.count).sum ∧
       dp ≤ MAX_DEPTH ∧
       (octs = [] → objs.length ≤ 8 ∨ dp = MAX_DEPTH) ∧
       (octs ≠ [] → octs.length = 8 ∧ (8 : ℤ) < cnt ∧
          octsGeomB mn (s / 2) dp octs 0 = true ∧
          ∀ c ∈ octs, nodeWFb c = true)) := by
  rw [nodeWFb_mk]
  cases octs with
  | nil =>
    simp
    try tauto
  | cons hd tl =>
    simp [List.all_eq_true, -List.length_cons]
    try tauto

theorem countsOkB_mk_iff (i m s d objs c octs) :
    countsOkB (.mk i m s d objs c octs) = true ↔
      (c = (objs.length : ℤ) + (octs.map ONode.count).sum ∧
       ∀ x ∈ octs, countsOkB x = true) := by
  rw [countsOkB_mk]
  simp [List.all_eq_true]

theorem thresholdsOkB_mk_iff (i m s d objs c octs) :
    thresholdsOkB (.mk i m s d objs c octs) = true ↔
      ((octs ≠ [] → (8 : ℤ) < c) ∧ (c ≤ 8 → octs = []) ∧
       ∀ x ∈ octs, thresholdsOkB x = true) := by
  rw [thresholdsOkB_mk]
  cases octs with
  | nil => simp
  | cons hd tl =>
    simp only [Bool.and_eq_true, Bool.or_eq_true, List.isEmpty_cons,
      Bool.false_eq_true, false_or, or_false, decide_eq_true_eq,
      List.all_eq_true, ne_eq, List.cons_ne_nil, not_false_iff,
      not_true_eq_false, false_implies, true_implies, reduceCtorEq]
    constructor
    · rintro ⟨⟨h1, _⟩, h2⟩
      exact ⟨h1, fun hc => absurd h1 (by omega), h2⟩
    · rintro ⟨h1, _, h3⟩
      exact ⟨⟨h1, h1⟩, h3⟩


end Octo

namespace Octo

/-! ## Derived facts about subtrees, counts, and well-formedness -/

theorem subtreeOids_eq (n : ONode) :
    subtreeOids n = n.objects.map (·.oid) ++ (n.octants.map subtreeOids).flatten := by
  cases n
  rw [subtreeOids_mk]
  rfl

theorem allNodes_eq (n : ONode) :
    allNodes n = n :: (n.octants.map allNodes).flatten := by
  cases n
  rw [allNodes_mk]
  rfl

theorem hasNid_eq (n : ONode) (t : ℕ) :
    hasNid n t = (decide (n.nid = t) || n.octants.any (fun c => hasNid c t)) := by
  cases n
  rw [hasNid_mk]
  rfl

theorem countsOkB_eq (n : ONode) :
    countsOkB n = (decide (n.count = (n.objects.length : ℤ) +
      (n.octants.map ONode.count).sum) && n.octants.all countsOkB) := by
  cases n
  rw [countsOkB_mk]
  rfl

theorem mem_allNodes_self (n : ONode) : n ∈ allNodes n := by
  rw [allNodes_eq]
  exact List.mem_cons_self _ _

theorem mem_allNodes_iff (n nd : ONode) :
    nd ∈ allNodes n ↔ nd = n ∨ ∃ c ∈ n.octants, nd ∈ allNodes c := by
  rw [allNodes_eq]
  simp only [List.mem_cons, List.mem_flatten, List.mem_map]
  constructor
  · rintro (h | ⟨l, ⟨c, hc, rfl⟩, hnd⟩)
    · exact Or.inl h
    · exact Or.inr ⟨c, hc, hnd⟩
  · rintro (h | ⟨c, hc, hnd⟩)
    · exact Or.inl h
    · exact Or.inr ⟨allNodes c, ⟨c, hc, rfl⟩, hnd⟩

theorem mem_allNodes_child {n c nd : ONode} (hc : c ∈ n.octants)
    (hnd : nd ∈ allNodes c) : nd ∈ allNodes n :=
  (mem_allNodes_iff n nd).mpr (Or.inr ⟨c, hc, hnd⟩)

theorem mem_subtreeOids_iff (n : ONode) (k : ℕ) :
    k ∈ subtreeOids n ↔ ∃ nd ∈ allNodes n, ∃ a ∈ nd.objects, a.oid = k := by
  induction n using oNodeInd with
  | ih n ihc =>
    rw [subtreeOids_eq]
    simp only [List.mem_append, List.mem_flatten, List.mem_map]
    constructor
    · rintro (⟨a, ha, hk⟩ | ⟨l, ⟨c, hc, rfl⟩, hk⟩)
      · exact ⟨n, mem_allNodes_self n, a, ha, hk⟩
      · obtain ⟨nd, hnd, ha⟩ := (ihc c hc).mp hk
        exact ⟨nd, mem_allNodes_child hc hnd, ha⟩
    · rintro ⟨nd, hnd, a, ha, hk⟩
      rcases (mem_allNodes_iff n nd).mp hnd with rfl | ⟨c, hc, hnd2⟩
      · exact Or.inl ⟨a, ha, hk⟩
      · exact Or.inr ⟨subtreeOids c, ⟨c, hc, rfl⟩,
          (ihc c hc).mpr ⟨nd, hnd2, a, ha, hk⟩⟩

theorem mem_allNids_iff (n : ONode) (x : ℕ) :
    x ∈ allNids n ↔ ∃ nd ∈ allNodes n, nd.nid = x := by
  simp [allNids, List.mem_map]

theorem hasNid_iff (n : ONode) (t : ℕ) :
    hasNid n t = true ↔ ∃ nd ∈ allNodes n, nd.nid = t := by
  induction n using oNodeInd with
  | ih n ihc =>
    rw [hasNid_eq]
    simp only [Bool.or_eq_true, decide_eq_true_eq, List.any_eq_true]
    constructor
    · rintro (h | ⟨c, hc, hh⟩)
      · exact ⟨n, mem_allNodes_self n, h⟩
      · obtain ⟨nd, hnd, he⟩ := (ihc c hc).mp hh
        exact ⟨nd, mem_allNodes_child hc hnd, he⟩
    · rintro ⟨nd, hnd, he⟩
      rcases (mem_allNodes_iff n nd).mp hnd with rfl | ⟨c, hc, hnd2⟩
      · exact Or.inl he
      · exact Or.inr ⟨c, hc, (ihc c hc).mpr ⟨nd, hnd2, he⟩⟩

/-- Count consistency means the stored count is the total number of stored
objects in the subtree. -/
theorem sum_counts_eq {octs : List ONode}
    (h : ∀ c ∈ octs, c.count = ((subtreeOids c).length : ℤ)) :
    (octs.map ONode.count).sum = (((octs.map subtreeOids).flatten).length : ℤ) := by
  induction octs with
  | nil => simp
  | cons hd tl ih =>
    simp only [List.map_cons, List.sum_cons, List.flatten_cons, List.length_append]
    rw [h hd (List.mem_cons_self _ _), ih (fun c hc => h c (List.mem_cons_of_mem _ hc))]
    push_cast
    ring

theorem countsOkB_count_eq {n : ONode} (h : countsOkB n = true) :
    n.count = ((subtreeOids n).length : ℤ) := by
  induction n using oNodeInd with
  | ih n ihc =>
    rw [countsOkB_eq] at h
    simp only [Bool.and_eq_true, decide_eq_true_eq, List.all_eq_true] at h
    rw [subtreeOids_eq]
    simp only [List.length_append, List.length_map]
    rw [h.1, sum_counts_eq (fun c hc => ihc c hc (h.2 c hc))]
    push_cast
    ring

theorem countsOkB_nonneg {n : ONode} (h : countsOkB n = true) : 0 ≤ n.count := by
  rw [countsOkB_count_eq h]
  positivity

theorem countsOkB_zero_empty {n : ONode} (h : countsOkB n = true)
    (h0 : n.count = 0) : subtreeOids n = [] := by
  rw [countsOkB_count_eq h] at h0
  exact List.length_eq_zero.mp (by exact_mod_cast h0)

theorem nodeWFb_children {n : ONode} (h : nodeWFb n = true) :
    ∀ c ∈ n.octants, nodeWFb c = true := by
  cases n with
  | mk i mn s dp objs cnt octs =>
    rw [nodeWFb_mk_iff] at h
    intro c hc
    have : octs ≠ [] := by rintro rfl; simp at hc
    exact (h.2.2.2 this).2.2.2 c hc

theorem nodeWFb_countsOkB {n : ONode} (h : nodeWFb n = true) :
    countsOkB n = true := by
  induction n using oNodeInd with
  | ih n ihc =>
    have hch := nodeWFb_children h
    cases n with
    | mk i mn s dp objs cnt octs =>
      rw [nodeWFb_mk_iff] at h
      rw [countsOkB_mk_iff]
      exact ⟨h.1, fun c hc => ihc c hc (hch c hc)⟩

theorem nodeWFb_thresholdsOkB {n : ONode} (h : nodeWFb n = true) :
    thresholdsOkB n = true := by
  induction n using oNodeInd with
  | ih n ihc =>
    have hch := nodeWFb_children h
    have hcnt := nodeWFb_countsOkB h
    cases n with
    | mk i mn s dp objs cnt octs =>
      rw [nodeWFb_mk_iff] at h
      rw [thresholdsOkB_mk_iff]
      refine ⟨fun hne => (h.2.2.2 hne).2.1, ?_, fun c hc => ihc c hc (hch c hc)⟩
      intro hle
      by_contra hne
      exact absurd (h.2.2.2 hne).2.1 (by omega)


end Octo

namespace Octo

/-! ## Geometry: the 8 octant cells are pairwise disjoint -/

theorem bit_eq_of_overlap {m h px : ℚ} {b1 b2 : ℕ} (hb1 : b1 ≤ 1) (hb2 : b2 ≤ 1)
    (h1 : m + h * b1 ≤ px) (h2 : px < m + h * b1 + h)
    (h3 : m + h * b2 ≤ px) (h4 : px < m + h * b2 + h) : b1 = b2 := by
  interval_cases b1 <;> interval_cases b2 <;>
    first
    | rfl
    | (exfalso; push_cast at h1 h2 h3 h4; linarith)

theorem bits_determine (i j : ℕ) (hi : i < 8) (hj : j < 8)
    (h1 : i &&& 1 = j &&& 1) (h2 : (i &&& 2) >>> 1 = (j &&& 2) >>> 1)
    (h3 : (i &&& 4) >>> 2 = (j &&& 4) >>> 2) : i = j := by
  interval_cases i <;> interval_cases j <;> simp_all

theorem bit_le_one (i : ℕ) (hi : i < 8) :
    i &&& 1 ≤ 1 ∧ (i &&& 2) >>> 1 ≤ 1 ∧ (i &&& 4) >>> 2 ≤ 1 := by
  interval_cases i <;> decide

/-- Two distinct octant cells of the same parent cannot both contain a point
(the half-open interval convention makes the 8 cells pairwise disjoint). -/
theorem containsPoint_cell_inj {pmin : Vec3} {h : ℚ} {i1 i2 : ℕ}
    (hi1 : i1 < 8) (hi2 : i2 < 8)
    {n1 n2 : ONode} (hm1 : n1.min = cellMin pmin h i1) (hs1 : n1.size = h)
    (hm2 : n2.min = cellMin pmin h i2) (hs2 : n2.size = h)
    {p : Vec3} (hc1 : n1.containsPoint p = true) (hc2 : n2.containsPoint p = true) :
    i1 = i2 := by
  unfold ONode.containsPoint at hc1 hc2
  rw [hm1, hs1] at hc1
  rw [hm2, hs2] at hc2
  simp only [cellMin, decide_eq_true_eq] at hc1 hc2
  obtain ⟨x11, x12, y11, y12, z11, z12⟩ := hc1
  obtain ⟨x21, x22, y21, y22, z21, z22⟩ := hc2
  obtain ⟨a1, b1, c1⟩ := bit_le_one i1 hi1
  obtain ⟨a2, b2, c2⟩ := bit_le_one i2 hi2
  exact bits_determine i1 i2 hi1 hi2
    (bit_eq_of_overlap a1 a2 x11 x12 x21 x22)
    (bit_eq_of_overlap b1 b2 y11 y12 y21 y22)
    (bit_eq_of_overlap c1 c2 z11 z12 z21 z22)

/-- `octsGeomB` read off at an index. -/
theorem octsGeomB_get {pmin : Vec3} {h : ℚ} {dp : ℤ} :
    ∀ {octs : List ONode} {j : ℕ}, octsGeomB pmin h dp octs j = true →
    ∀ {idx : ℕ} (hidx : idx < octs.length),
    (octs.get ⟨idx, hidx⟩).min = cellMin pmin h (j + idx) ∧
    (octs.get ⟨idx, hidx⟩).size = h ∧
    (octs.get ⟨idx, hidx⟩).depth = dp + 1 := by
  intro octs
  induction octs with
  | nil => intro j _ idx hidx; simp at hidx
  | cons c rest ih =>
    intro j hg idx hidx
    unfold octsGeomB at hg
    simp only [Bool.and_eq_true, decide_eq_true_eq] at hg
    obtain ⟨⟨⟨hm, hs⟩, hd⟩, hrest⟩ := hg
    cases idx with
    | zero => simpa using ⟨hm, hs, hd⟩
    | succ idx' =>
      have hlt : idx' < rest.length := Nat.lt_of_succ_lt_succ hidx
      have hres := ih hrest hlt
      have harg : j + (idx' + 1) = j + 1 + idx' := by omega
      rw [harg]
      simpa using hres

/-- In a well-formed octant list, at most one octant contains a given
object's center. -/
theorem geom_center_unique {pmin : Vec3} {h : ℚ} {dp : ℤ} {octs : List ONode}
    (hlen : octs.length = 8) (hg : octsGeomB pmin h dp octs 0 = true)
    {i1 i2 : ℕ} (hi1 : i1 < octs.length) (hi2 : i2 < octs.length) {o : Obj}
    (hc1 : (octs.get ⟨i1, hi1⟩).containsCenter o = true)
    (hc2 : (octs.get ⟨i2, hi2⟩).containsCenter o = true) : i1 = i2 := by
  obtain ⟨hm1, hs1, _⟩ := octsGeomB_get hg hi1
  obtain ⟨hm2, hs2, _⟩ := octsGeomB_get hg hi2
  rw [Nat.zero_add] at hm1 hm2
  exact containsPoint_cell_inj (hlen ▸ hi1) (hlen ▸ hi2) hm1 hs1 hm2 hs2 hc1 hc2

/-- `createOctants` satisfies the geometry predicate. -/
theorem octsGeomB_createOctants (n : ONode) (firstId : ℕ) :
    octsGeomB n.min (n.size / 2) n.depth (n.createOctants firstId) 0 = true := by
  unfold ONode.createOctants
  show octsGeomB n.min (n.size / 2) n.depth
    ((List.range 8).map (fun i => octantCell n.min n.size n.depth (firstId + i) i)) 0 = true
  have H : ∀ (k j : ℕ), j + k = 8 →
      octsGeomB n.min (n.size / 2) n.depth
        ((List.range' j k).map (fun i => octantCell n.min n.size n.depth (firstId + i) i)) j = true := by
    intro k
    induction k with
    | zero => intro j _; rfl
    | succ k ihk =>
      intro j hj
      rw [List.range'_succ]
      simp only [List.map_cons]
      unfold octsGeomB
      simp only [octantCell, Bool.and_eq_true, decide_eq_true_eq]
      exact ⟨⟨⟨rfl, rfl⟩, rfl⟩, ihk (j + 1) (by omega)⟩
  have := H 8 0 rfl
  rw [List.range_eq_range']
  exact this


end Octo

namespace Octo

/-! ## Specification bundles for `OctreeNode.insert` / `OctreeNode.split`

`InsIn` collects the preconditions a subtree and the controller state satisfy
when `insert` is invoked on it; `InsOut` what holds of the returned subtree
and state.  `SplitIn`/`SplitOut` likewise for `split` (whose precondition is
weaker: the node may transiently hold 9 objects and, when called on a node
that already has octants, those octants are non-empty only if the direct set
is small). -/

def cellsOids (cells : List ONode) : List ℕ := (cells.map subtreeOids).flatten

def cellsNids (cells : List ONode) : List ℕ := (cells.map allNids).flatten

structure InsIn (n : ONode) (o : Obj) (st : St) : Prop where
  wf : nodeWFb n = true
  onodup : (subtreeOids n).Nodup
  fresh : o.oid ∉ subtreeOids n
  nnodup : (allNids n).Nodup
  nlt : ∀ x ∈ allNids n, x < st.nextId
  sync : ∀ nd ∈ allNodes n, ∀ ob ∈ nd.objects, mapGet st.otn ob.oid = some nd.nid
  knodup : (st.otn.map Prod.fst).Nodup

structure InsOut (n : ONode) (o : Obj) (st : St) (r : ONode × St) : Prop where
  wf : nodeWFb r.1 = true
  fnid : r.1.nid = n.nid
  fmin : r.1.min = n.min
  fsize : r.1.size = n.size
  fdepth : r.1.depth = n.depth
  fcount : r.1.count = n.count + 1
  oids : (subtreeOids r.1).Perm (o.oid :: subtreeOids n)
  nids : ∀ x ∈ allNids r.1, x ∈ allNids n ∨ (st.nextId ≤ x ∧ x < r.2.nextId)
  nnodup : (allNids r.1).Nodup
  nlt : ∀ x ∈ allNids r.1, x < r.2.nextId
  nmono : st.nextId ≤ r.2.nextId
  mframe : ∀ k, k ≠ o.oid → k ∉ subtreeOids n → mapGet r.2.otn k = mapGet st.otn k
  msync : ∀ nd ∈ allNodes r.1, ∀ ob ∈ nd.objects, mapGet r.2.otn ob.oid = some nd.nid
  mkeys : ∀ k, (mapGet r.2.otn k).isSome ↔ ((mapGet st.otn k).isSome ∨ k = o.oid)
  knodup : (r.2.otn.map Prod.fst).Nodup

structure SplitIn (n : ONode) (st : St) : Prop where
  counts : n.count = (n.objects.length : ℤ) + (n.octants.map ONode.count).sum
  dple : n.depth ≤ MAX_DEPTH
  onodup : (subtreeOids n).Nodup
  nnodup : (allNids n).Nodup
  nlt : ∀ x ∈ allNids n, x < st.nextId
  sync : ∀ nd ∈ allNodes n, ∀ ob ∈ nd.objects, mapGet st.otn ob.oid = some nd.nid
  knodup : (st.otn.map Prod.fst).Nodup
  leafBound : n.octants = [] → n.objects.length ≤ 9 ∨ n.depth = MAX_DEPTH
  childWF : ∀ c ∈ n.octants, nodeWFb c = true
  octsShape : n.octants ≠ [] → n.octants.length = 8 ∧ (8 : ℤ) < n.count ∧
      octsGeomB n.min (n.size / 2) n.depth n.octants 0 = true
  bigSafe : 8 < n.objects.length → n.depth ≠ MAX_DEPTH → n.count ≤ 9

structure SplitOut (n : ONode) (st : St) (r : ONode × St) : Prop where
  wf : nodeWFb r.1 = true
  fnid : r.1.nid = n.nid
  fmin : r.1.min = n.min
  fsize : r.1.size = n.size
  fdepth : r.1.depth = n.depth
  fcount : r.1.count = n.count
  oids : (subtreeOids r.1).Perm (subtreeOids n)
  nids : ∀ x ∈ allNids r.1, x ∈ allNids n ∨ (st.nextId ≤ x ∧ x < r.2.nextId)
  nnodup : (allNids r.1).Nodup
  nlt : ∀ x ∈ allNids r.1, x < r.2.nextId
  nmono : st.nextId ≤ r.2.nextId
  mframe : ∀ k, k ∉ subtreeOids n → mapGet r.2.otn k = mapGet st.otn k
  msync : ∀ nd ∈ allNodes r.1, ∀ ob ∈ nd.objects, mapGet r.2.otn ob.oid = some nd.nid
  mkeys : ∀ k, (mapGet r.2.otn k).isSome ↔ (mapGet st.otn k).isSome
  knodup : (r.2.otn.map Prod.fst).Nodup

def InsSpec (fuel : ℕ) : Prop :=
  ∀ n o st, InsIn n o st → MAX_DEPTH - n.depth ≤ (fuel : ℤ) →
    InsOut n o st (nodeIns fuel n o st)

def SplitSpec (fuel : ℕ) : Prop :=
  ∀ n st, SplitIn n st → MAX_DEPTH - n.depth ≤ (fuel : ℤ) →
    SplitOut n st (nodeSplit fuel n st)

/-! Restriction of the preconditions to a child subtree. -/

theorem subtreeOids_child_sublist {n c : ONode} (hc : c ∈ n.octants) :
    (subtreeOids c).Sublist (subtreeOids n) := by
  rw [subtreeOids_eq n]
  refine List.Sublist.trans ?_ (List.sublist_append_right _ _)
  exact List.sublist_flatten_of_mem (List.mem_map.mpr ⟨c, hc, rfl⟩)

theorem allNids_child_sublist {n c : ONode} (hc : c ∈ n.octants) :
    (allNids c).Sublist (allNids n) := by
  unfold allNids
  rw [allNodes_eq n]
  simp only [List.map_cons]
  refine List.Sublist.trans ?_ (List.sublist_cons_self _ _)
  refine List.Sublist.map _ ?_
  exact List.sublist_flatten_of_mem (List.mem_map.mpr ⟨c, hc, rfl⟩)

theorem insIn_child {n c : ONode} {o : Obj} {st : St} (hin : InsIn n o st)
    (hc : c ∈ n.octants) : InsIn c o st where
  wf := nodeWFb_children hin.wf c hc
  onodup := hin.onodup.sublist (subtreeOids_child_sublist hc)
  fresh := fun h => hin.fresh ((subtreeOids_child_sublist hc).mem h)
  nnodup := hin.nnodup.sublist (allNids_child_sublist hc)
  nlt := fun x hx => hin.nlt x ((allNids_child_sublist hc).mem hx)
  sync := fun nd hnd ob hob => hin.sync nd (mem_allNodes_child hc hnd) ob hob
  knodup := hin.knodup


end Octo

namespace Octo

/-! Unfolding lemmas for the mutually recursive insert/split functions. -/

theorem nodeIns_leaf (fuel : ℕ) (i m s d objs c o st) :
    nodeIns fuel (.mk i m s d objs c []) o st =
      nodeSplit fuel (.mk i m s d (addObj objs o) (c + 1) [])
        ⟨st.nextId, mapSet st.otn o.oid i⟩ := by
  unfold nodeIns
  rfl

theorem nodeIns_octs (fuel : ℕ) (i m s d objs c c0 cs o st) :
    nodeIns fuel (.mk i m s d objs c (c0 :: cs)) o st =
      if c0.largerThan o then
        match insChild fuel (c0 :: cs) o st with
        | some r => (.mk i m s d objs (c + 1) r.1, r.2)
        | none =>
            (.mk i m s d (addObj objs o) (c + 1) (c0 :: cs),
             ⟨st.nextId, mapSet st.otn o.oid i⟩)
      else
        (.mk i m s d (addObj objs o) (c + 1) (c0 :: cs),
         ⟨st.nextId, mapSet st.otn o.oid i⟩) := by
  unfold nodeIns
  rfl

theorem nodeSplit_zero (n st) : nodeSplit 0 n st = (n, st) := by
  unfold nodeSplit
  rfl

theorem nodeSplit_succ (f : ℕ) (i m s d objs c octs st) :
    nodeSplit (f + 1) (.mk i m s d objs c octs) st =
      if objs.length ≤ 8 ∨ d = MAX_DEPTH then (.mk i m s d objs c octs, st)
      else
        let cells := ONode.createOctants (.mk i m s d objs c octs) st.nextId
        let r := distrib f objs cells objs ⟨st.nextId + 8, st.otn⟩
        let r2 := splitAll f r.1 r.2.2
        (.mk i m s d r.2.1 c r2.1, r2.2) := by
  conv_lhs => rw [nodeSplit.eq_def]

theorem insChild_nil (fuel o st) : insChild fuel [] o st = none := by
  unfold insChild
  rfl

theorem insChild_cons (fuel c rest o st) :
    insChild fuel (c :: rest) o st =
      if c.containsCenter o then
        some ((nodeIns fuel c o st).1 :: rest, (nodeIns fuel c o st).2)
      else
        match insChild fuel rest o st with
        | some r => some (c :: r.1, r.2)
        | none => none := by
  conv_lhs => rw [insChild.eq_def]

theorem distrib_nil (fuel cells objs st) :
    distrib fuel [] cells objs st = (cells, objs, st) := by
  unfold distrib
  rfl

theorem distrib_cons (fuel o rest cells objs st) :
    distrib fuel (o :: rest) cells objs st =
      if (match cells.head? with | some c0 => c0.largerThan o | none => false) then
        let r := distribJ fuel o cells 0 objs st
        distrib fuel rest r.1 r.2.1 r.2.2
      else
        distrib fuel rest cells objs st := by
  conv_lhs => rw [distrib.eq_def]

theorem distribJ_eq (fuel o cells j objs st) :
    distribJ fuel o cells j objs st =
      if h : j < cells.length then
        if (cells.get ⟨j, h⟩).containsCenter o then
          distribJ fuel o (cells.set j (nodeIns fuel (cells.get ⟨j, h⟩) o st).1)
            (j + 1) (eraseObj objs o.oid) (nodeIns fuel (cells.get ⟨j, h⟩) o st).2
        else
          distribJ fuel o cells (j + 1) objs st
      else (cells, objs, st) := by
  conv_lhs => rw [distribJ.eq_def]

theorem splitAll_nil (fuel st) : splitAll fuel [] st = ([], st) := by
  unfold splitAll
  rfl

theorem splitAll_cons (fuel c rest st) :
    splitAll fuel (c :: rest) st =
      ((nodeSplit fuel c st).1 :: (splitAll fuel rest (nodeSplit fuel c st).2).1,
       (splitAll fuel rest (nodeSplit fuel c st).2).2) := by
  conv_lhs => rw [splitAll.eq_def]

/-- `octsGeomB` only looks at `min`, `size` and `depth` of the cells. -/
theorem octsGeomB_congr {pmin : Vec3} {h : ℚ} {dp : ℤ} :
    ∀ {octs octs' : List ONode} {j : ℕ},
    octs.length = octs'.length →
    (∀ i (h1 : i < octs.length) (h2 : i < octs'.length),
      (octs.get ⟨i, h1⟩).min = (octs'.get ⟨i, h2⟩).min ∧
      (octs.get ⟨i, h1⟩).size = (octs'.get ⟨i, h2⟩).size ∧
      (octs.get ⟨i, h1⟩).depth = (octs'.get ⟨i, h2⟩).depth) →
    octsGeomB pmin h dp octs j = octsGeomB pmin h dp octs' j := by
  intro octs
  induction octs with
  | nil =>
    intro octs' j hlen _
    cases octs' with
    | nil => rfl
    | cons _ _ => simp at hlen
  | cons c rest ih =>
    intro octs' j hlen hfr
    cases octs' with
    | nil => simp at hlen
    | cons c' rest' =>
      unfold octsGeomB
      obtain ⟨e1, e2, e3⟩ := hfr 0 (by simp) (by simp)
      simp only [List.get] at e1 e2 e3
      rw [e1, e2, e3]
      congr 1
      refine ih (by simpa using hlen) ?_
      intro i h1 h2
      exact hfr (i + 1) (by simpa using Nat.succ_lt_succ h1)
        (by simpa using Nat.succ_lt_succ h2)

/-- When the `split` guard fires, the node comes back unchanged and
well-formed. -/
theorem splitOut_noop {n : ONode} {st : St} (hin : SplitIn n st)
    (hguard : n.objects.length ≤ 8 ∨ n.depth = MAX_DEPTH) :
    SplitOut n st (n, st) where
  wf := by
    cases n with
    | mk i mn s dp objs cnt octs =>
      rw [nodeWFb_mk_iff]
      refine ⟨hin.counts, hin.dple, fun _ => by simpa using hguard, fun hne => ?_⟩
      obtain ⟨h1, h2, h3⟩ := hin.octsShape (by simpa using hne)
      exact ⟨h1, h2, h3, fun c hc => hin.childWF c hc⟩
  fnid := rfl
  fmin := rfl
  fsize := rfl
  fdepth := rfl
  fcount := rfl
  oids := List.Perm.refl _
  nids := fun x hx => Or.inl hx
  nnodup := hin.nnodup
  nlt := hin.nlt
  nmono := le_rfl
  mframe := fun _ _ => rfl
  msync := hin.sync
  mkeys := fun _ => Iff.rfl
  knodup := hin.knodup

theorem split_spec_zero : SplitSpec 0 := by
  intro n st hin hfuel
  rw [nodeSplit_zero]
  refine splitOut_noop hin (Or.inr ?_)
  have := hin.dple
  simp only [Nat.cast_zero] at hfuel
  omega


end Octo

namespace Octo

@[simp] theorem cellsOids_nil : cellsOids [] = [] := rfl

theorem cellsOids_cons (c : ONode) (rest : List ONode) :
    cellsOids (c :: rest) = subtreeOids c ++ cellsOids rest := by
  simp [cellsOids]

@[simp] theorem cellsNids_nil : cellsNids [] = [] := rfl

theorem cellsNids_cons (c : ONode) (rest : List ONode) :
    cellsNids (c :: rest) = allNids c ++ cellsNids rest := by
  simp [cellsNids]

theorem sync_preserved_of_frame {c : ONode} {m m' : OMap}
    (hsync : ∀ nd ∈ allNodes c, ∀ ob ∈ nd.objects, mapGet m ob.oid = some nd.nid)
    (hframe : ∀ k, k ∈ subtreeOids c → mapGet m' k = mapGet m k) :
    ∀ nd ∈ allNodes c, ∀ ob ∈ nd.objects, mapGet m' ob.oid = some nd.nid := by
  intro nd hnd ob hob
  rw [hframe ob.oid ((mem_subtreeOids_iff c ob.oid).mpr ⟨nd, hnd, ob, hob, rfl⟩)]
  exact hsync nd hnd ob hob

/-- Preconditions for inserting `o` somewhere into a list of sibling cells. -/
structure CellsIn (octs : List ONode) (o : Obj) (st : St) : Prop where
  wfs : ∀ c ∈ octs, nodeWFb c = true
  onodup : (cellsOids octs).Nodup
  fresh : o.oid ∉ cellsOids octs
  nnodup : (cellsNids octs).Nodup
  nlt : ∀ x ∈ cellsNids octs, x < st.nextId
  sync : ∀ c ∈ octs, ∀ nd ∈ allNodes c, ∀ ob ∈ nd.objects,
    mapGet st.otn ob.oid = some nd.nid
  knodup : (st.otn.map Prod.fst).Nodup

/-- Postcondition of a successful `insChild` (`o` entered exactly one cell). -/
structure ChildOut (octs : List ONode) (o : Obj) (st : St)
    (r : List ONode × St) : Prop where
  len : r.1.length = octs.length
  frame : ∀ i (h1 : i < r.1.length) (h2 : i < octs.length),
    (r.1.get ⟨i, h1⟩).nid = (octs.get ⟨i, h2⟩).nid ∧
    (r.1.get ⟨i, h1⟩).min = (octs.get ⟨i, h2⟩).min ∧
    (r.1.get ⟨i, h1⟩).size = (octs.get ⟨i, h2⟩).size ∧
    (r.1.get ⟨i, h1⟩).depth = (octs.get ⟨i, h2⟩).depth
  wfs : ∀ c ∈ r.1, nodeWFb c = true
  csum : ((r.1.map ONode.count).sum) = (octs.map ONode.count).sum + 1
  oids : (cellsOids r.1).Perm (o.oid :: cellsOids octs)
  nids : ∀ x ∈ cellsNids r.1, x ∈ cellsNids octs ∨ (st.nextId ≤ x ∧ x < r.2.nextId)
  nnodup : (cellsNids r.1).Nodup
  nlt : ∀ x ∈ cellsNids r.1, x < r.2.nextId
  nmono : st.nextId ≤ r.2.nextId
  mframe : ∀ k, k ≠ o.oid → k ∉ cellsOids octs → mapGet r.2.otn k = mapGet st.otn k
  msync : ∀ c ∈ r.1, ∀ nd ∈ allNodes c, ∀ ob ∈ nd.objects,
    mapGet r.2.otn ob.oid = some nd.nid
  mkeys : ∀ k, (mapGet r.2.otn k).isSome ↔ ((mapGet st.otn k).isSome ∨ k = o.oid)
  knodup : (r.2.otn.map Prod.fst).Nodup

theorem insChild_spec (fuel : ℕ) {o : Obj} :
    ∀ (octs : List ONode) (st : St),
    (∀ c ∈ octs, ∀ st₀ : St, InsIn c o st₀ → MAX_DEPTH - c.depth ≤ (fuel : ℤ) →
      InsOut c o st₀ (nodeIns fuel c o st₀)) →
    (∀ c ∈ octs, MAX_DEPTH - c.depth ≤ (fuel : ℤ)) →
    CellsIn octs o st →
    (match insChild fuel octs o st with
     | none => True
     | some r => ChildOut octs o st r) := by
  intro octs
  induction octs with
  | nil =>
    intro st _ _ _
    rw [insChild_nil]
    trivial
  | cons c rest ih =>
    intro st hspec hfuel hin
    have hinC : InsIn c o st :=
      { wf := hin.wfs c (List.mem_cons_self _ _)
        onodup := (List.nodup_append.mp (by
          rw [← cellsOids_cons]; exact hin.onodup)).1
        fresh := fun h => hin.fresh (by rw [cellsOids_cons]; exact List.mem_append_left _ h)
        nnodup := (List.nodup_append.mp (by
          rw [← cellsNids_cons]; exact hin.nnodup)).1
        nlt := fun x hx => hin.nlt x (by rw [cellsNids_cons]; exact List.mem_append_left _ hx)
        sync := hin.sync c (List.mem_cons_self _ _)
        knodup := hin.knodup }
    have hdisjO : (subtreeOids c).Disjoint (cellsOids rest) :=
      (List.nodup_append.mp (by rw [← cellsOids_cons]; exact hin.onodup)).2.2
    have hdisjN : (allNids c).Disjoint (cellsNids rest) :=
      (List.nodup_append.mp (by rw [← cellsNids_cons]; exact hin.nnodup)).2.2
    have hrestNodupO : (cellsOids rest).Nodup :=
      (List.nodup_append.mp (by rw [← cellsOids_cons]; exact hin.onodup)).2.1
    have hrestNodupN : (cellsNids rest).Nodup :=
      (List.nodup_append.mp (by rw [← cellsNids_cons]; exact hin.nnodup)).2.1
    rw [insChild_cons]
    by_cases hcc : c.containsCenter o = true
    · rw [if_pos hcc]
      have hout := hspec c (List.mem_cons_self _ _) st hinC
        (hfuel c (List.mem_cons_self _ _))
      set r := nodeIns fuel c o st with hr
      refine
        { len := by simp
          frame := ?_
          wfs := ?_
          csum := ?_
          oids := ?_
          nids := ?_
          nnodup := ?_
          nlt := ?_
          nmono := hout.nmono
          mframe := ?_
          msync := ?_
          mkeys := hout.mkeys
          knodup := hout.knodup }
      · intro i h1 h2
        cases i with
        | zero => exact ⟨hout.fnid, hout.fmin, hout.fsize, hout.fdepth⟩
        | succ i' => simp
      · intro x hx
        rcases List.mem_cons.mp hx with rfl | hx2
        · exact hout.wf
        · exact hin.wfs x (List.mem_cons_of_mem _ hx2)
      · simp only [List.map_cons, List.sum_cons, hout.fcount]
        ring
      · rw [cellsOids_cons, cellsOids_cons]
        exact hout.oids.append_right (cellsOids rest)
      · intro x hx
        rw [cellsNids_cons] at hx
        rcases List.mem_append.mp hx with hx1 | hx2
        · rcases hout.nids x hx1 with h1 | h2
          · exact Or.inl (by rw [cellsNids_cons]; exact List.mem_append_left _ h1)
          · exact Or.inr h2
        · exact Or.inl (by rw [cellsNids_cons]; exact List.mem_append_right _ hx2)
      · rw [cellsNids_cons, List.nodup_append]
        refine ⟨hout.nnodup, hrestNodupN, ?_⟩
        intro x hx1 hx2
        rcases hout.nids x hx1 with h1 | h2
        · exact hdisjN h1 hx2
        · have := hin.nlt x (by rw [cellsNids_cons]; exact List.mem_append_right _ hx2)
          omega
      · intro x hx
        rw [cellsNids_cons] at hx
        rcases List.mem_append.mp hx with hx1 | hx2
        · exact hout.nlt x hx1
        · have := hin.nlt x (by rw [cellsNids_cons]; exact List.mem_append_right _ hx2)
          have := hout.nmono
          show x < r.2.nextId
          omega
      · intro k hk1 hk2
        rw [cellsOids_cons] at hk2
        exact hout.mframe k hk1 (fun h => hk2 (List.mem_append_left _ h))
      · intro x hx
        rcases List.mem_cons.mp hx with rfl | hx2
        · exact hout.msync
        · refine sync_preserved_of_frame (hin.sync x (List.mem_cons_of_mem _ hx2)) ?_
          intro k hk
          have hkrest : k ∈ cellsOids rest := by
            rw [cellsOids]
            exact List.mem_flatten.mpr ⟨subtreeOids x, List.mem_map.mpr ⟨x, hx2, rfl⟩, hk⟩
          refine hout.mframe k (fun he => hin.fresh (he ▸ by
            rw [cellsOids_cons]; exact List.mem_append_right _ hkrest)) ?_
          exact fun h => hdisjO h hkrest
    · rw [if_neg hcc]
      have hinRest : CellsIn rest o st :=
        { wfs := fun x hx => hin.wfs x (List.mem_cons_of_mem _ hx)
          onodup := hrestNodupO
          fresh := fun h => hin.fresh (by rw [cellsOids_cons]; exact List.mem_append_right _ h)
          nnodup := hrestNodupN
          nlt := fun x hx => hin.nlt x (by rw [cellsNids_cons]; exact List.mem_append_right _ hx)
          sync := fun x hx => hin.sync x (List.mem_cons_of_mem _ hx)
          knodup := hin.knodup }
      have hrec := ih st (fun x hx => hspec x (List.mem_cons_of_mem _ hx))
        (fun x hx => hfuel x (List.mem_cons_of_mem _ hx)) hinRest
      cases heq : insChild fuel rest o st with
      | none => trivial
      | some r =>
        rw [heq] at hrec
        refine
          { len := by simpa using hrec.len
            frame := ?_
            wfs := ?_
            csum := ?_
            oids := ?_
            nids := ?_
            nnodup := ?_
            nlt := ?_
            nmono := hrec.nmono
            mframe := ?_
            msync := ?_
            mkeys := hrec.mkeys
            knodup := hrec.knodup }
        · intro i h1 h2
          cases i with
          | zero => simp
          | succ i' =>
            exact hrec.frame i' (by simpa using Nat.lt_of_succ_lt_succ h1)
              (by simpa using Nat.lt_of_succ_lt_succ h2)
        · intro x hx
          rcases List.mem_cons.mp hx with rfl | hx2
          · exact hin.wfs x (List.mem_cons_self _ _)
          · exact hrec.wfs x hx2
        · simp only [List.map_cons, List.sum_cons, hrec.csum]
          ring
        · rw [cellsOids_cons, cellsOids_cons]
          exact (List.Perm.append_left _ hrec.oids).trans List.perm_middle
        · intro x hx
          rw [cellsNids_cons] at hx
          rcases List.mem_append.mp hx with hx1 | hx2
          · exact Or.inl (by rw [cellsNids_cons]; exact List.mem_append_left _ hx1)
          · rcases hrec.nids x hx2 with h1 | h2
            · exact Or.inl (by rw [cellsNids_cons]; exact List.mem_append_right _ h1)
            · exact Or.inr h2
        · rw [cellsNids_cons, List.nodup_append]
          refine ⟨(List.nodup_append.mp (by
            rw [← cellsNids_cons]; exact hin.nnodup)).1, hrec.nnodup, ?_⟩
          intro x hx1 hx2
          rcases hrec.nids x hx2 with h1 | h2
          · exact hdisjN hx1 h1
          · have := hin.nlt x (by rw [cellsNids_cons]; exact List.mem_append_left _ hx1)
            omega
        · intro x hx
          rw [cellsNids_cons] at hx
          rcases List.mem_append.mp hx with hx1 | hx2
          · have := hin.nlt x (by rw [cellsNids_cons]; exact List.mem_append_left _ hx1)
            have := hrec.nmono
            show x < r.2.nextId
            omega
          · exact hrec.nlt x hx2
        · intro k hk1 hk2
          rw [cellsOids_cons] at hk2
          exact hrec.mframe k hk1 (fun h => hk2 (List.mem_append_right _ h))
        · intro x hx
          rcases List.mem_cons.mp hx with rfl | hx2
          · refine sync_preserved_of_frame (hin.sync x (List.mem_cons_self _ _)) ?_
            intro k hk
            refine hrec.mframe k (fun he => hin.fresh (he ▸ by
              rw [cellsOids_cons]; exact List.mem_append_left _ hk)) ?_
            exact fun h => hdisjO hk h
          · exact hrec.msync x hx2


end Octo

namespace Octo

theorem allNids_mk (i m s d objs c octs) :
    allNids (.mk i m s d objs c octs) = i :: cellsNids octs := by
  unfold allNids cellsNids
  rw [allNodes_mk]
  simp only [List.map_cons, ONode.nid_mk, List.map_flatten, List.map_map]
  rfl

theorem subtreeOids_mk' (i m s d objs c octs) :
    subtreeOids (.mk i m s d objs c octs) =
      objs.map (·.oid) ++ cellsOids octs := by
  rw [subtreeOids_mk]
  rfl

theorem octsGeomB_depth_mem {pmin : Vec3} {h : ℚ} {dp : ℤ} {octs : List ONode}
    (hg : octsGeomB pmin h dp octs 0 = true) {c : ONode} (hc : c ∈ octs) :
    c.depth = dp + 1 := by
  obtain ⟨idx, rfl⟩ := List.mem_iff_get.mp hc
  exact (octsGeomB_get hg idx.2).2.2

theorem octsGeomB_size_mem {pmin : Vec3} {h : ℚ} {dp : ℤ} {octs : List ONode}
    (hg : octsGeomB pmin h dp octs 0 = true) {c : ONode} (hc : c ∈ octs) :
    c.size = h := by
  obtain ⟨idx, rfl⟩ := List.mem_iff_get.mp hc
  exact (octsGeomB_get hg idx.2).2.1

/-- The "store directly here" outcome of `OctreeNode.insert` on a node that
has octants. -/
theorem store_octs_insOut {i : ℕ} {m : Vec3} {s : ℚ} {d : ℤ}
    {objs : List Obj} {c : ℤ} {octs : List ONode} {o : Obj} {st : St}
    (hin : InsIn (.mk i m s d objs c octs) o st) (hne : octs ≠ []) :
    InsOut (.mk i m s d objs c octs) o st
      (.mk i m s d (addObj objs o) (c + 1) octs,
       ⟨st.nextId, mapSet st.otn o.oid i⟩) := by
  have hfreshObjs : o.oid ∉ objs.map Obj.oid := by
    intro h
    exact hin.fresh (by rw [subtreeOids_mk']; exact List.mem_append_left _ h)
  have hadd : addObj objs o = objs ++ [o] := addObj_of_not_mem hfreshObjs
  have hwf := (nodeWFb_mk_iff i m s d objs c octs).mp hin.wf
  refine
    { wf := ?_
      fnid := rfl
      fmin := rfl
      fsize := rfl
      fdepth := rfl
      fcount := rfl
      oids := ?_
      nids := ?_
      nnodup := ?_
      nlt := ?_
      nmono := le_rfl
      mframe := ?_
      msync := ?_
      mkeys := ?_
      knodup := mapSet_keys_nodup hin.knodup o.oid i }
  · rw [nodeWFb_mk_iff]
    obtain ⟨h8, hcnt, hgeom, hch⟩ := hwf.2.2.2 hne
    refine ⟨?_, hwf.2.1, fun habs => absurd habs hne, fun _ => ⟨h8, by omega, hgeom, hch⟩⟩
    rw [hadd]
    simp only [List.length_append, List.length_cons, List.length_nil]
    push_cast
    rw [hwf.1]
    ring
  · rw [subtreeOids_mk', subtreeOids_mk', hadd]
    simp only [List.map_append, List.map_cons, List.map_nil]
    rw [List.append_assoc]
    exact List.perm_middle.trans (by rfl)
  · intro x hx
    rw [allNids_mk] at hx ⊢
    exact Or.inl hx
  · rw [allNids_mk]
    have := hin.nnodup
    rwa [allNids_mk] at this
  · intro x hx
    rw [allNids_mk] at hx
    have := hin.nlt x (by rwa [allNids_mk])
    simpa using this
  · intro k hk1 _
    exact mapGet_mapSet_ne st.otn o.oid i k hk1
  · intro nd hnd ob hob
    rcases (mem_allNodes_iff _ nd).mp hnd with rfl | ⟨ch, hch, hnd2⟩
    · simp only [ONode.objects_mk] at hob
      rw [hadd] at hob
      rcases List.mem_append.mp hob with h1 | h2
      · have hne2 : ob.oid ≠ o.oid := by
          intro he
          exact hfreshObjs (he ▸ List.mem_map.mpr ⟨ob, h1, rfl⟩)
        rw [mapGet_mapSet_ne st.otn o.oid i ob.oid hne2]
        have := hin.sync _ (mem_allNodes_self _) ob (by simpa using h1)
        simpa using this
      · simp only [List.mem_cons, List.not_mem_nil, or_false] at h2
        subst h2
        simpa using mapGet_mapSet_self st.otn ob.oid i
    · simp only [ONode.octants_mk] at hch
      have hsub : ob.oid ∈ subtreeOids (ONode.mk i m s d objs c octs) := by
        rw [mem_subtreeOids_iff]
        exact ⟨nd, mem_allNodes_child (by simpa using hch) hnd2, ob, hob, rfl⟩
      have hne2 : ob.oid ≠ o.oid := fun he => hin.fresh (he ▸ hsub)
      rw [mapGet_mapSet_ne st.otn o.oid i ob.oid hne2]
      exact hin.sync nd (mem_allNodes_child (by simpa using hch) hnd2) ob hob
  · intro k
    exact mapGet_isSome_mapSet st.otn o.oid i k


end Octo

namespace Octo

/-- The leaf branch of `OctreeNode.insert`: store, record the map entry, then
try to split. -/
theorem store_leaf_insOut {fuel : ℕ} {i : ℕ} {m : Vec3} {s : ℚ} {d : ℤ}
    {objs : List Obj} {c : ℤ} {o : Obj} {st : St}
    (hsplit : SplitSpec fuel)
    (hin : InsIn (.mk i m s d objs c []) o st)
    (hfuel : MAX_DEPTH - d ≤ (fuel : ℤ)) :
    InsOut (.mk i m s d objs c []) o st
      (nodeIns fuel (.mk i m s d objs c []) o st) := by
  have hfreshObjs : o.oid ∉ objs.map Obj.oid := by
    intro h
    exact hin.fresh (by rw [subtreeOids_mk']; exact List.mem_append_left _ h)
  have hadd : addObj objs o = objs ++ [o] := addObj_of_not_mem hfreshObjs
  have hwf := (nodeWFb_mk_iff i m s d objs c []).mp hin.wf
  have hleaf : objs.length ≤ 8 ∨ d = MAX_DEPTH := hwf.2.2.1 rfl
  rw [nodeIns_leaf]
  set n' : ONode := .mk i m s d (addObj objs o) (c + 1) [] with hn'
  set st' : St := ⟨st.nextId, mapSet st.otn o.oid i⟩ with hst'
  have hoidsPerm : (subtreeOids n').Perm (o.oid :: subtreeOids (ONode.mk i m s d objs c [])) := by
    rw [hn', subtreeOids_mk', subtreeOids_mk', hadd]
    simp only [cellsOids_nil, List.append_nil, List.map_append, List.map_cons,
      List.map_nil]
    exact List.perm_append_singleton _ _
  have hsync' : ∀ nd ∈ allNodes n', ∀ ob ∈ nd.objects,
      mapGet st'.otn ob.oid = some nd.nid := by
    intro nd hnd ob hob
    rcases (mem_allNodes_iff _ nd).mp hnd with rfl | ⟨ch, hch, _⟩
    · simp only [hn', ONode.objects_mk] at hob
      rw [hadd] at hob
      rcases List.mem_append.mp hob with h1 | h2
      · have hne2 : ob.oid ≠ o.oid := by
          intro he
          exact hfreshObjs (he ▸ List.mem_map.mpr ⟨ob, h1, rfl⟩)
        rw [hst']
        show mapGet (mapSet st.otn o.oid i) ob.oid = _
        rw [mapGet_mapSet_ne st.otn o.oid i ob.oid hne2]
        have := hin.sync _ (mem_allNodes_self _) ob (by simpa using h1)
        simpa [hn'] using this
      · simp only [List.mem_cons, List.not_mem_nil, or_false] at h2
        subst h2
        show mapGet (mapSet st.otn ob.oid i) ob.oid = _
        simpa [hn'] using mapGet_mapSet_self st.otn ob.oid i
    · simp only [hn', ONode.octants_mk] at hch
      simp at hch
  have hsin : SplitIn n' st' :=
    { counts := by
        rw [hn', hadd]
        simp only [ONode.count_mk, ONode.objects_mk, ONode.octants_mk,
          List.length_append, List.length_cons, List.length_nil, List.map_nil,
          List.sum_nil]
        push_cast
        rw [hwf.1]
        simp
      dple := hwf.2.1
      onodup := hoidsPerm.nodup_iff.mpr (List.nodup_cons.mpr ⟨hin.fresh, hin.onodup⟩)
      nnodup := by
        rw [hn', allNids_mk]
        have := hin.nnodup
        rwa [allNids_mk] at this
      nlt := by
        intro x hx
        rw [hn', allNids_mk] at hx
        have := hin.nlt x (by rwa [allNids_mk])
        simpa [hst'] using this
      sync := hsync'
      knodup := mapSet_keys_nodup hin.knodup o.oid i
      leafBound := by
        intro _
        rw [hn', hadd]
        simp only [ONode.objects_mk, ONode.depth_mk, List.length_append,
          List.length_cons, List.length_nil]
        omega
      childWF := by
        intro ch hch
        rw [hn'] at hch
        simp at hch
      octsShape := by
        intro habs
        rw [hn'] at habs
        simp at habs
      bigSafe := by
        intro hbig hdep
        rw [hn', hadd] at hbig hdep ⊢
        simp only [ONode.objects_mk, List.length_append, List.length_cons,
          List.length_nil] at hbig
        simp only [ONode.depth_mk] at hdep
        simp only [ONode.count_mk]
        have : objs.length ≤ 8 := by
          rcases hleaf with h | h
          · exact h
          · exact absurd h hdep
        have hc : c = (objs.length : ℤ) := by
          have := hwf.1
          simpa using this
        omega }
  have hsout := hsplit n' st' hsin (by rw [hn']; simpa using hfuel)
  refine
    { wf := hsout.wf
      fnid := by simpa [hn'] using hsout.fnid
      fmin := by simpa [hn'] using hsout.fmin
      fsize := by simpa [hn'] using hsout.fsize
      fdepth := by simpa [hn'] using hsout.fdepth
      fcount := by simpa [hn'] using hsout.fcount
      oids := hsout.oids.trans hoidsPerm
      nids := ?_
      nnodup := hsout.nnodup
      nlt := hsout.nlt
      nmono := hsout.nmono
      mframe := ?_
      msync := hsout.msync
      mkeys := ?_
      knodup := hsout.knodup }
  · intro x hx
    rcases hsout.nids x hx with h1 | h2
    · rw [hn', allNids_mk] at h1
      exact Or.inl (by rwa [allNids_mk])
    · exact Or.inr (by simpa [hst'] using h2)
  · intro k hk1 hk2
    have hk3 : k ∉ subtreeOids n' := by
      rw [hoidsPerm.mem_iff]
      simp only [List.mem_cons]
      rintro (rfl | h)
      · exact hk1 rfl
      · exact hk2 h
    rw [hsout.mframe k hk3]
    exact mapGet_mapSet_ne st.otn o.oid i k hk1
  · intro k
    rw [hsout.mkeys k]
    exact mapGet_isSome_mapSet st.otn o.oid i k


end Octo

namespace Octo

theorem ins_spec_of_split_spec {fuel : ℕ} (hsplit : SplitSpec fuel) :
    InsSpec fuel := by
  intro n
  induction n using oNodeInd with
  | ih n ihc =>
    intro o st hin hfuel
    cases n with
    | mk i m s d objs c octs =>
      cases octs with
      | nil => exact store_leaf_insOut hsplit hin (by simpa using hfuel)
      | cons c0 cs =>
        have hwf := (nodeWFb_mk_iff i m s d objs c (c0 :: cs)).mp hin.wf
        obtain ⟨hlen8, hc8, hgeom, hchwf⟩ := hwf.2.2.2 (by simp)
        have honodup := hin.onodup
        rw [subtreeOids_mk'] at honodup
        have hnnodup := hin.nnodup
        rw [allNids_mk] at hnnodup
        rw [nodeIns_octs]
        by_cases hlarger : c0.largerThan o = true
        · rw [if_pos hlarger]
          have hcells : CellsIn (c0 :: cs) o st :=
            { wfs := hchwf
              onodup := (List.nodup_append.mp honodup).2.1
              fresh := fun h => hin.fresh (by
                rw [subtreeOids_mk']; exact List.mem_append_right _ h)
              nnodup := (List.nodup_cons.mp hnnodup).2
              nlt := fun x hx => hin.nlt x (by
                rw [allNids_mk]; exact List.mem_cons_of_mem _ hx)
              sync := fun ch hch nd hnd ob hob =>
                hin.sync nd (mem_allNodes_child (by simpa using hch) hnd) ob hob
              knodup := hin.knodup }
          have hfuelc : ∀ x ∈ (c0 :: cs), MAX_DEPTH - x.depth ≤ (fuel : ℤ) := by
            intro x hx
            have hd := octsGeomB_depth_mem hgeom hx
            simp only [ONode.depth_mk] at hd
            simp only [ONode.depth_mk] at hfuel
            omega
          have hspec : ∀ x ∈ (c0 :: cs), ∀ st₀ : St, InsIn x o st₀ →
              MAX_DEPTH - x.depth ≤ (fuel : ℤ) →
              InsOut x o st₀ (nodeIns fuel x o st₀) :=
            fun x hx st₀ hin₀ hf₀ => ihc x (by simpa using hx) o st₀ hin₀ hf₀
          have h := insChild_spec fuel (c0 :: cs) st hspec hfuelc hcells
          cases heq : insChild fuel (c0 :: cs) o st with
          | none =>
            exact store_octs_insOut hin (by simp)
          | some r =>
            rw [heq] at h
            refine
              { wf := ?_
                fnid := rfl
                fmin := rfl
                fsize := rfl
                fdepth := rfl
                fcount := rfl
                oids := ?_
                nids := ?_
                nnodup := ?_
                nlt := ?_
                nmono := h.nmono
                mframe := ?_
                msync := ?_
                mkeys := h.mkeys
                knodup := h.knodup }
            · rw [nodeWFb_mk_iff]
              have hrne : r.1 ≠ [] := by
                intro habs
                have hl := h.len
                rw [habs] at hl
                simp at hl
              refine ⟨?_, hwf.2.1, fun habs => absurd habs hrne, fun _ => ?_⟩
              · have h1 := hwf.1
                have h2 := h.csum
                simp only [ONode.objects_mk, ONode.octants_mk, ONode.count_mk] at h1 ⊢
                rw [h2]
                omega
              · refine ⟨by rw [h.len]; exact hlen8, by omega, ?_, h.wfs⟩
                have := @octsGeomB_congr m (s / 2) d _ _ 0
                  (h.len) (fun idx h1 h2 => by
                    obtain ⟨e1, e2, e3, e4⟩ := h.frame idx h1 h2
                    exact ⟨e2, e3, e4⟩)
                rw [this]
                exact hgeom
            · rw [subtreeOids_mk', subtreeOids_mk']
              exact (List.Perm.append_left _ h.oids).trans List.perm_middle
            · intro x hx
              rw [allNids_mk] at hx
              rcases List.mem_cons.mp hx with rfl | hx2
              · exact Or.inl (by rw [allNids_mk]; exact List.mem_cons_self _ _)
              · rcases h.nids x hx2 with h1 | h2
                · exact Or.inl (by rw [allNids_mk]; exact List.mem_cons_of_mem _ h1)
                · exact Or.inr h2
            · rw [allNids_mk, List.nodup_cons]
              refine ⟨?_, h.nnodup⟩
              intro habs
              rcases h.nids i habs with h1 | h2
              · exact (List.nodup_cons.mp hnnodup).1 h1
              · have := hin.nlt i (by rw [allNids_mk]; exact List.mem_cons_self _ _)
                omega
            · intro x hx
              rw [allNids_mk] at hx
              rcases List.mem_cons.mp hx with rfl | hx2
              · have := hin.nlt x (by rw [allNids_mk]; exact List.mem_cons_self _ _)
                have := h.nmono
                show x < r.2.nextId
                omega
              · exact h.nlt x hx2
            · intro k hk1 hk2
              rw [subtreeOids_mk'] at hk2
              exact h.mframe k hk1 (fun hh => hk2 (List.mem_append_right _ hh))
            · intro nd hnd ob hob
              rcases (mem_allNodes_iff _ nd).mp hnd with rfl | ⟨ch, hch, hnd2⟩
              · simp only [ONode.objects_mk] at hob
                have hmemsub : ob.oid ∈ objs.map Obj.oid :=
                  List.mem_map.mpr ⟨ob, hob, rfl⟩
                have hne2 : ob.oid ≠ o.oid := by
                  intro he
                  exact hin.fresh (he ▸ by
                    rw [subtreeOids_mk']; exact List.mem_append_left _ hmemsub)
                rw [h.mframe ob.oid hne2
                  (fun hh => (List.disjoint_of_nodup_append honodup) hmemsub hh)]
                have := hin.sync _ (mem_allNodes_self _) ob (by simpa using hob)
                simpa using this
              · simp only [ONode.octants_mk] at hch
                exact h.msync ch hch nd hnd2 ob hob
        · rw [if_neg hlarger]
          exact store_octs_insOut hin (by simp)


end Octo

namespace Octo

/-! ## The redistribution loop of `split` -/

@[simp] theorem subtreeOids_octantCell (pmin psz pd cnid i) :
    subtreeOids (octantCell pmin psz pd cnid i) = [] := by
  rw [octantCell, subtreeOids_mk']
  rfl

@[simp] theorem allNids_octantCell (pmin psz pd cnid i) :
    allNids (octantCell pmin psz pd cnid i) = [cnid] := by
  rw [octantCell, allNids_mk]
  rfl

@[simp] theorem allNodes_octantCell (pmin psz pd cnid i) :
    allNodes (octantCell pmin psz pd cnid i) = [octantCell pmin psz pd cnid i] := by
  rw [octantCell, allNodes_mk]
  rfl

theorem nodeWFb_octantCell {pmin psz pd cnid i} (h : pd + 1 ≤ MAX_DEPTH) :
    nodeWFb (octantCell pmin psz pd cnid i) = true := by
  rw [octantCell, nodeWFb_mk_iff]
  exact ⟨by simp, h, fun _ => by simp, fun habs => absurd rfl habs⟩

@[simp] theorem createOctants_length (n : ONode) (firstId : ℕ) :
    (n.createOctants firstId).length = 8 := by
  simp [ONode.createOctants]

theorem mem_createOctants {n : ONode} {firstId : ℕ} {c : ONode}
    (hc : c ∈ n.createOctants firstId) :
    ∃ i < 8, c = octantCell n.min n.size n.depth (firstId + i) i := by
  unfold ONode.createOctants at hc
  obtain ⟨i, hi, rfl⟩ := List.mem_map.mp hc
  exact ⟨i, List.mem_range.mp hi, rfl⟩

theorem cellsOids_createOctants (n : ONode) (firstId : ℕ) :
    cellsOids (n.createOctants firstId) = [] := by
  rw [cellsOids, List.flatten_eq_nil_iff]
  intro l hl
  obtain ⟨c, hc, rfl⟩ := List.mem_map.mp hl
  obtain ⟨i, _, rfl⟩ := mem_createOctants hc
  simp

theorem flatten_singletons (f : β → α) (l : List β) :
    (l.map (fun b => [f b])).flatten = l.map f := by
  induction l with
  | nil => rfl
  | cons hd tl ih => simp [ih]

theorem cellsNids_createOctants (n : ONode) (firstId : ℕ) :
    cellsNids (n.createOctants firstId) =
      (List.range 8).map (fun i => firstId + i) := by
  unfold cellsNids ONode.createOctants
  rw [List.map_map]
  have he : (allNids ∘ fun i => octantCell n.min n.size n.depth (firstId + i) i) =
      (fun i => [firstId + i]) := by
    funext i
    simp [Function.comp]
  rw [he]
  exact flatten_singletons (fun i => firstId + i) (List.range 8)

theorem cellsNids_createOctants_nodup (n : ONode) (firstId : ℕ) :
    (cellsNids (n.createOctants firstId)).Nodup := by
  rw [cellsNids_createOctants]
  refine List.Nodup.map ?_ (List.nodup_range 8)
  intro a b hab
  simpa using hab

theorem cellsNids_createOctants_mem {n : ONode} {firstId x : ℕ}
    (hx : x ∈ cellsNids (n.createOctants firstId)) :
    firstId ≤ x ∧ x < firstId + 8 := by
  rw [cellsNids_createOctants] at hx
  obtain ⟨i, hi, rfl⟩ := List.mem_map.mp hx
  rw [List.mem_range] at hi
  omega

theorem cellsOids_empty_of_counts {octs : List ONode}
    (hwf : ∀ c ∈ octs, countsOkB c = true)
    (hsum : (octs.map ONode.count).sum = 0) : cellsOids octs = [] := by
  rw [cellsOids, List.flatten_eq_nil_iff]
  intro l hl
  obtain ⟨c, hc, rfl⟩ := List.mem_map.mp hl
  have h0 : c.count = 0 := by
    have hnn : ∀ d ∈ octs, 0 ≤ d.count := fun d hd => countsOkB_nonneg (hwf d hd)
    by_contra hne
    have hpos : 0 < c.count := lt_of_le_of_ne (hnn c hc) (Ne.symm hne)
    have : 0 < (octs.map ONode.count).sum := by
      have hmem : c.count ∈ octs.map ONode.count := List.mem_map.mpr ⟨c, hc, rfl⟩
      calc (0 : ℤ) < c.count := hpos
        _ ≤ (octs.map ONode.count).sum := by
            refine List.single_le_sum ?_ _ hmem
            intro y hy
            obtain ⟨d, hd, rfl⟩ := List.mem_map.mp hy
            exact hnn d hd
    omega
  exact countsOkB_zero_empty (hwf c hc) h0

/-- Invariant carried through the redistribution loop. -/
structure DIn (pmin : Vec3) (psz : ℚ) (pd : ℤ) (cells : List ONode)
    (objs : List Obj) (st : St) : Prop where
  len : cells.length = 8
  geom : octsGeomB pmin psz pd cells 0 = true
  wfs : ∀ ch ∈ cells, nodeWFb ch = true
  tnodup : (objs.map Obj.oid ++ cellsOids cells).Nodup
  nnodup : (cellsNids cells).Nodup
  nlt : ∀ x ∈ cellsNids cells, x < st.nextId
  sync : ∀ ch ∈ cells, ∀ nd ∈ allNodes ch, ∀ ob ∈ nd.objects,
    mapGet st.otn ob.oid = some nd.nid
  okeys : ∀ k ∈ objs.map Obj.oid, (mapGet st.otn k).isSome
  knodup : (st.otn.map Prod.fst).Nodup

/-- What one pass (or the whole loop) of redistribution guarantees. -/
structure DOut (cells : List ONode) (objs : List Obj) (st : St)
    (r : List ONode × List Obj × St) : Prop where
  len : r.1.length = cells.length
  frame : ∀ i (h1 : i < r.1.length) (h2 : i < cells.length),
    (r.1.get ⟨i, h1⟩).nid = (cells.get ⟨i, h2⟩).nid ∧
    (r.1.get ⟨i, h1⟩).min = (cells.get ⟨i, h2⟩).min ∧
    (r.1.get ⟨i, h1⟩).size = (cells.get ⟨i, h2⟩).size ∧
    (r.1.get ⟨i, h1⟩).depth = (cells.get ⟨i, h2⟩).depth
  wfs : ∀ ch ∈ r.1, nodeWFb ch = true
  total : (r.2.1.map Obj.oid ++ cellsOids r.1).Perm
    (objs.map Obj.oid ++ cellsOids cells)
  objsSub : r.2.1.Sublist objs
  nids : ∀ x ∈ cellsNids r.1, x ∈ cellsNids cells ∨
    (st.nextId ≤ x ∧ x < r.2.2.nextId)
  nnodup : (cellsNids r.1).Nodup
  nlt : ∀ x ∈ cellsNids r.1, x < r.2.2.nextId
  nmono : st.nextId ≤ r.2.2.nextId
  mframe : ∀ k, k ∉ objs.map Obj.oid → k ∉ cellsOids cells →
    mapGet r.2.2.otn k = mapGet st.otn k
  mframeRem : ∀ k ∈ r.2.1.map Obj.oid, mapGet r.2.2.otn k = mapGet st.otn k
  msync : ∀ ch ∈ r.1, ∀ nd ∈ allNodes ch, ∀ ob ∈ nd.objects,
    mapGet r.2.2.otn ob.oid = some nd.nid
  mkeys : ∀ k, (mapGet r.2.2.otn k).isSome ↔ (mapGet st.otn k).isSome
  knodup : (r.2.2.otn.map Prod.fst).Nodup

/-- A run of the inner loop over indices at which no octant contains the
center is the identity. -/
theorem distribJ_noMatch (fuel : ℕ) (o : Obj) :
    ∀ (cells : List ONode) (j : ℕ) (objs : List Obj) (st : St),
    (∀ idx (h : idx < cells.length), j ≤ idx →
      (cells.get ⟨idx, h⟩).containsCenter o = false) →
    distribJ fuel o cells j objs st = (cells, objs, st) := by
  intro cells
  have H : ∀ (k j : ℕ), cells.length - j ≤ k → ∀ (objs : List Obj) (st : St),
      (∀ idx (h : idx < cells.length), j ≤ idx →
        (cells.get ⟨idx, h⟩).containsCenter o = false) →
      distribJ fuel o cells j objs st = (cells, objs, st) := by
    intro k
    induction k with
    | zero =>
      intro j hk objs st _
      rw [distribJ_eq, dif_neg (by omega)]
    | succ k ihk =>
      intro j hk objs st hno
      rw [distribJ_eq]
      by_cases hj : j < cells.length
      · rw [dif_pos hj, if_neg (by rw [hno j hj le_rfl]; simp)]
        exact ihk (j + 1) (by omega) objs st (fun idx h hle => hno idx h (by omega))
      · rw [dif_neg hj]
  exact fun j objs st hno => H (cells.length - j) j le_rfl objs st hno


end Octo

namespace Octo

theorem subtree_sublist_cellsOids {cells : List ONode} {c : ONode}
    (hc : c ∈ cells) : (subtreeOids c).Sublist (cellsOids cells) :=
  List.sublist_flatten_of_mem (List.mem_map.mpr ⟨c, hc, rfl⟩)

theorem allNids_sublist_cellsNids {cells : List ONode} {c : ONode}
    (hc : c ∈ cells) : (allNids c).Sublist (cellsNids cells) :=
  List.sublist_flatten_of_mem (List.mem_map.mpr ⟨c, hc, rfl⟩)

theorem flatten_set_getPerm :
    ∀ (L : List (List α)) (n : ℕ) (hn : n < L.length) (x : List α),
    (((L.set n x).flatten) ++ L.get ⟨n, hn⟩).Perm (x ++ L.flatten) := by
  intro L
  induction L with
  | nil => intro n hn; simp at hn
  | cons y tl ih =>
    intro n hn x
    cases n with
    | zero =>
      simp only [List.set_cons_zero, List.flatten_cons, List.get_cons_zero]
      rw [List.append_assoc]
      exact List.Perm.append_left x (List.perm_append_comm)
    | succ n' =>
      simp only [List.set_cons_succ, List.flatten_cons, List.get_cons_succ]
      rw [List.append_assoc]
      refine List.Perm.trans (List.Perm.append_left y (ih n' (by simpa using Nat.lt_of_succ_lt_succ hn) x)) ?_
      rw [← List.append_assoc, ← List.append_assoc]
      exact List.Perm.append_right _ (List.perm_append_comm)

theorem mem_flatten_set_weak {L : List (List α)} {n : ℕ} {x : List α} {a : α}
    (ha : a ∈ (L.set n x).flatten) : a ∈ x ∨ a ∈ L.flatten := by
  obtain ⟨l, hl, hal⟩ := List.mem_flatten.mp ha
  rcases List.mem_or_eq_of_mem_set hl with h1 | h2
  · exact Or.inr (List.mem_flatten.mpr ⟨l, h1, hal⟩)
  · exact Or.inl (h2 ▸ hal)

theorem flatten_set_nodup {L : List (List ℕ)} :
    ∀ {n : ℕ} (hn : n < L.length) {x : List ℕ},
    (L.flatten).Nodup → x.Nodup →
    (∀ a ∈ x, a ∈ L.get ⟨n, hn⟩ ∨ a ∉ L.flatten) →
    ((L.set n x).flatten).Nodup := by
  induction L with
  | nil => intro n hn; simp at hn
  | cons y tl ih =>
    intro n hn x hL hx hcompat
    have hLparts := List.nodup_append.mp (by simpa using hL)
    cases n with
    | zero =>
      simp only [List.set_cons_zero, List.flatten_cons]
      rw [List.nodup_append]
      refine ⟨hx, hLparts.2.1, ?_⟩
      intro a ha1 ha2
      rcases hcompat a ha1 with h1 | h2
      · exact hLparts.2.2 (by simpa using h1) ha2
      · exact h2 (by simp only [List.flatten_cons]; exact List.mem_append_right _ ha2)
    | succ n' =>
      simp only [List.set_cons_succ, List.flatten_cons]
      rw [List.nodup_append]
      refine ⟨hLparts.1, ?_, ?_⟩
      · refine ih (by simpa using Nat.lt_of_succ_lt_succ hn) hLparts.2.1 hx ?_
        intro a ha
        rcases hcompat a ha with h1 | h2
        · exact Or.inl (by simpa using h1)
        · exact Or.inr (fun hmem => h2 (by
            simp only [List.flatten_cons]; exact List.mem_append_right _ hmem))
      · intro a ha1 ha2
        rcases mem_flatten_set_weak ha2 with h1 | h2
        · rcases hcompat a h1 with h3 | h4
          · refine hLparts.2.2 ha1 (List.mem_flatten.mpr
              ⟨tl.get ⟨n', by simpa using Nat.lt_of_succ_lt_succ hn⟩,
               List.get_mem _ _ _, by simpa using h3⟩)
          · exact h4 (by simp only [List.flatten_cons]; exact List.mem_append_left _ ha1)
        · exact hLparts.2.2 ha1 h2

/-- Disjointness of the object sets of two different octants, read off the
no-duplicates property of the flattened subtree oids. -/
theorem cellsOids_disjoint_get {cells : List ONode}
    (hnd : (cellsOids cells).Nodup) {i j : ℕ}
    (hi : i < cells.length) (hj : j < cells.length) (hne : i ≠ j) :
    (subtreeOids (cells.get ⟨i, hi⟩)).Disjoint
      (subtreeOids (cells.get ⟨j, hj⟩)) := by
  have h := (List.nodup_flatten.mp hnd).2
  rw [List.pairwise_iff_get] at h
  have hlen : (cells.map subtreeOids).length = cells.length := by simp
  rcases Nat.lt_or_ge i j with hij | hij
  · have := h ⟨i, by omega⟩ ⟨j, by omega⟩ (by simpa using hij)
    simpa using this
  · have hji : j < i := by omega
    have := h ⟨j, by omega⟩ ⟨i, by omega⟩ (by simpa using hji)
    intro a ha1 ha2
    have hd : (subtreeOids (cells.get ⟨j, hj⟩)).Disjoint
        (subtreeOids (cells.get ⟨i, hi⟩)) := by simpa using this
    exact hd ha2 ha1


end Octo

namespace Octo

theorem erase_perm_of_mem {l : List ℕ} {k : ℕ} (hnd : l.Nodup) (hk : k ∈ l) :
    (k :: l.filter (fun x => ¬ x = k)).Perm l := by
  have h1 : l.Perm (k :: l.erase k) := List.perm_cons_erase hk
  have h2 : l.erase k = l.filter (fun x => ¬ x = k) := by
    rw [List.Nodup.erase_eq_filter hnd k]
    congr 1
    funext x
    by_cases hxk : x = k <;> simp [hxk, bne]
  rw [h2] at h1
  exact h1.symm

theorem dout_refl {pmin psz pd} {cells : List ONode} {objs : List Obj} {st : St}
    (hin : DIn pmin psz pd cells objs st) : DOut cells objs st (cells, objs, st) where
  len := rfl
  frame := fun i h1 h2 => ⟨rfl, rfl, rfl, rfl⟩
  wfs := hin.wfs
  total := List.Perm.refl _
  objsSub := List.Sublist.refl _
  nids := fun x hx => Or.inl hx
  nnodup := hin.nnodup
  nlt := hin.nlt
  nmono := le_rfl
  mframe := fun _ _ _ => rfl
  mframeRem := fun _ _ => rfl
  msync := hin.sync
  mkeys := fun _ => Iff.rfl
  knodup := hin.knodup

theorem distribJ_spec {fuel : ℕ} (hins : InsSpec fuel) {pmin : Vec3} {psz : ℚ}
    {pd : ℤ} {o : Obj} :
    ∀ (cells : List ONode) (j : ℕ) (objs : List Obj) (st : St),
    DIn pmin psz pd cells objs st →
    o.oid ∈ objs.map Obj.oid →
    MAX_DEPTH - (pd + 1) ≤ (fuel : ℤ) →
    DOut cells objs st (distribJ fuel o cells j objs st) := by
  intro cells₀
  have H : ∀ (k : ℕ) (cells : List ONode) (j : ℕ), cells.length - j ≤ k →
      ∀ (objs : List Obj) (st : St),
      DIn pmin psz pd cells objs st →
      o.oid ∈ objs.map Obj.oid →
      MAX_DEPTH - (pd + 1) ≤ (fuel : ℤ) →
      DOut cells objs st (distribJ fuel o cells j objs st) := by
    intro k
    induction k with
    | zero =>
      intro cells j hk objs st hin ho hfuel
      rw [distribJ_eq, dif_neg (by omega)]
      exact dout_refl hin
    | succ k ihk =>
      intro cells j hk objs st hin ho hfuel
      rw [distribJ_eq]
      by_cases hj : j < cells.length
      · rw [dif_pos hj]
        set cj := cells.get ⟨j, hj⟩ with hcj
        by_cases hmatch : cj.containsCenter o = true
        · rw [if_pos hmatch]
          -- the object moves into octant j; no later octant can match
          have hcjmem : cj ∈ cells := List.get_mem _ _ _
          have hcellsNodup : (cellsOids cells).Nodup :=
            (List.nodup_append.mp hin.tnodup).2.1
          have hdisjOC : (objs.map Obj.oid).Disjoint (cellsOids cells) :=
            List.disjoint_of_nodup_append hin.tnodup
          have hfreshC : o.oid ∉ cellsOids cells := fun h => hdisjOC ho h
          have hinC : InsIn cj o st :=
            { wf := hin.wfs cj hcjmem
              onodup := hcellsNodup.sublist (subtree_sublist_cellsOids hcjmem)
              fresh := fun h => hfreshC ((subtree_sublist_cellsOids hcjmem).mem h)
              nnodup := hin.nnodup.sublist (allNids_sublist_cellsNids hcjmem)
              nlt := fun x hx => hin.nlt x ((allNids_sublist_cellsNids hcjmem).mem hx)
              sync := hin.sync cj hcjmem
              knodup := hin.knodup }
          have hdepth : cj.depth = pd + 1 := by
            have := octsGeomB_get hin.geom hj
            simpa using this.2.2
          have hout := hins cj o st hinC (by rw [hdepth]; exact hfuel)
          set c' := (nodeIns fuel cj o st).1 with hc'
          set st₂ := (nodeIns fuel cj o st).2 with hst₂
          set cells₂ := cells.set j c' with hcells₂
          have hlen₂ : cells₂.length = cells.length := by simp [hcells₂]
          -- later indices are unchanged and cannot contain the center
          have hnolater : ∀ idx (h : idx < cells₂.length), j + 1 ≤ idx →
              (cells₂.get ⟨idx, h⟩).containsCenter o = false := by
            intro idx h hle
            have hidx : idx < cells.length := by omega
            have hgetne : cells₂.get ⟨idx, h⟩ = cells.get ⟨idx, hidx⟩ := by
              simp only [hcells₂, List.get_eq_getElem, List.getElem_set]
              rw [if_neg (by omega)]
            rw [hgetne]
            by_contra hcc
            have hcc2 : (cells.get ⟨idx, hidx⟩).containsCenter o = true := by
              simpa using hcc
            have := geom_center_unique hin.len hin.geom hj hidx hmatch hcc2
            omega
          rw [distribJ_noMatch fuel o cells₂ (j + 1) (eraseObj objs o.oid) st₂ hnolater]
          -- assemble the DOut record for the placed object
          have hmapset : cells₂.map subtreeOids =
              (cells.map subtreeOids).set j (subtreeOids c') := by
            simp [hcells₂, List.map_set]
          have hmapsetN : cells₂.map allNids =
              (cells.map allNids).set j (allNids c') := by
            simp [hcells₂, List.map_set]
          have hFS := flatten_set_getPerm (cells.map subtreeOids) j (by simpa using hj)
            (subtreeOids c')
          have hgetmap : (cells.map subtreeOids).get ⟨j, by simpa using hj⟩ =
              subtreeOids cj := by
            simp [hcj]
          rw [hgetmap] at hFS
          have hCellPerm : (cellsOids cells₂).Perm (o.oid :: cellsOids cells) := by
            have hA : (cellsOids cells₂ ++ subtreeOids cj).Perm
                (subtreeOids c' ++ cellsOids cells) := by
              rw [cellsOids, hmapset]
              exact hFS
            have hB : (subtreeOids c' ++ cellsOids cells).Perm
                ((o.oid :: subtreeOids cj) ++ cellsOids cells) :=
              hout.oids.append_right _
            have hC : ((o.oid :: subtreeOids cj) ++ cellsOids cells).Perm
                ((o.oid :: cellsOids cells) ++ subtreeOids cj) := by
              show (o.oid :: (subtreeOids cj ++ cellsOids cells)).Perm
                (o.oid :: (cellsOids cells ++ subtreeOids cj))
              exact List.Perm.cons _ List.perm_append_comm
            exact (List.perm_append_right_iff _).mp ((hA.trans hB).trans hC)
          have hObjPerm : (o.oid :: ((eraseObj objs o.oid).map Obj.oid)).Perm
              (objs.map Obj.oid) := by
            rw [eraseObj_map_oid]
            exact erase_perm_of_mem (List.nodup_append.mp hin.tnodup).1 ho
          refine
            { len := by simpa [hcells₂] using hlen₂
              frame := ?_
              wfs := ?_
              total := ?_
              objsSub := List.filter_sublist objs
              nids := ?_
              nnodup := ?_
              nlt := ?_
              nmono := hout.nmono
              mframe := ?_
              mframeRem := ?_
              msync := ?_
              mkeys := ?_
              knodup := hout.knodup }
          · intro i h1 h2
            by_cases hij : i = j
            · subst hij
              have e1 : cells₂.get ⟨i, h1⟩ = c' := by
                simp [hcells₂, List.get_eq_getElem, List.getElem_set]
              rw [e1]
              exact ⟨hout.fnid, hout.fmin, hout.fsize, hout.fdepth⟩
            · have e1 : cells₂.get ⟨i, h1⟩ = cells.get ⟨i, h2⟩ := by
                simp only [hcells₂, List.get_eq_getElem, List.getElem_set]
                rw [if_neg (by omega)]
              rw [e1]
              exact ⟨rfl, rfl, rfl, rfl⟩
          · intro ch hch
            rcases List.mem_or_eq_of_mem_set hch with h1 | h2
            · exact hin.wfs ch h1
            · exact h2 ▸ hout.wf
          · refine List.Perm.trans
              (List.Perm.append_left _ hCellPerm) ?_
            refine List.Perm.trans List.perm_middle ?_
            exact hObjPerm.append_right (cellsOids cells)
          · intro x hx
            have hx2 : x ∈ allNids c' ∨ x ∈ cellsNids cells := by
              rw [cellsNids, hmapsetN] at hx
              exact mem_flatten_set_weak hx
            rcases hx2 with h1 | h2
            · rcases hout.nids x h1 with h3 | h4
              · exact Or.inl ((allNids_sublist_cellsNids hcjmem).mem h3)
              · exact Or.inr h4
            · exact Or.inl h2
          · rw [cellsNids, hmapsetN]
            refine flatten_set_nodup (by simpa using hj) hin.nnodup hout.nnodup ?_
            intro a ha
            rcases hout.nids a ha with h1 | h2
            · exact Or.inl (by simpa [hcj] using h1)
            · refine Or.inr (fun hmem => ?_)
              have := hin.nlt a (by rwa [cellsNids])
              omega
          · intro x hx
            have hx2 : x ∈ allNids c' ∨ x ∈ cellsNids cells := by
              rw [cellsNids, hmapsetN] at hx
              exact mem_flatten_set_weak hx
            rcases hx2 with h1 | h2
            · exact hout.nlt x h1
            · have h5 := hin.nlt x h2
              have h6 := hout.nmono
              show x < st₂.nextId
              rw [hst₂]
              omega
          · intro k hk1 hk2
            have hkne : k ≠ o.oid := fun he => hk1 (he ▸ ho)
            refine hout.mframe k hkne ?_
            exact fun h => hk2 ((subtree_sublist_cellsOids hcjmem).mem h)
          · intro kk hkk
            obtain ⟨ob, hob, rfl⟩ := List.mem_map.mp hkk
            have hob2 : ob ∈ objs := (List.filter_sublist objs).mem hob
            have hkne : ob.oid ≠ o.oid := by
              have := List.of_mem_filter hob
              simpa using this
            refine hout.mframe ob.oid hkne ?_
            intro h
            exact hdisjOC (List.mem_map.mpr ⟨ob, hob2, rfl⟩)
              ((subtree_sublist_cellsOids hcjmem).mem h)
          · intro ch hch
            obtain ⟨⟨idx, hidx⟩, rfl⟩ := List.mem_iff_get.mp hch
            by_cases hij : idx = j
            · subst hij
              have e1 : cells₂.get ⟨idx, hidx⟩ = c' := by
                simp [hcells₂, List.get_eq_getElem, List.getElem_set]
              rw [e1]
              exact hout.msync
            · have hidx2 : idx < cells.length := by
                have h7 := hidx
                rw [hcells₂] at h7
                simpa using h7
              have e1 : cells₂.get ⟨idx, hidx⟩ = cells.get ⟨idx, hidx2⟩ := by
                simp only [hcells₂, List.get_eq_getElem, List.getElem_set]
                rw [if_neg (by omega)]
              rw [e1]
              refine sync_preserved_of_frame
                (hin.sync _ (List.get_mem _ _ _)) ?_
              intro kk hkk
              have hkne : kk ≠ o.oid := by
                intro he
                exact hfreshC (he ▸
                  (subtree_sublist_cellsOids (List.get_mem _ _ _)).mem hkk)
              refine hout.mframe kk hkne ?_
              intro h
              exact (cellsOids_disjoint_get hcellsNodup hidx2 hj hij) hkk
                (by simpa [hcj] using h)
          · intro k
            refine (hout.mkeys k).trans (or_iff_left_of_imp ?_)
            intro he
            rw [he]
            exact hin.okeys o.oid ho
        · rw [if_neg hmatch]
          exact ihk cells (j + 1) (by omega) objs st hin ho hfuel
      · rw [dif_neg hj]
        exact dout_refl hin
  exact fun j objs st hin ho hfuel =>
    H (cells₀.length - j) cells₀ j le_rfl objs st hin ho hfuel


/-- `eraseObj` is idempotent. -/
theorem eraseObj_idem (l : List Obj) (k : ℕ) :
    eraseObj (eraseObj l k) k = eraseObj l k := by
  simp only [eraseObj]
  rw [List.filter_filter]
  apply List.filter_congr
  intro a _
  by_cases h : a.oid = k <;> simp [h]

/-- The inner redistribution loop leaves the object list unchanged or erases
exactly the distributed object. -/
theorem distribJ_objs (fuel : ℕ) (o : Obj) :
    ∀ (cells : List ONode) (j : ℕ) (objs : List Obj) (st : St),
    (distribJ fuel o cells j objs st).2.1 = objs ∨
    (distribJ fuel o cells j objs st).2.1 = eraseObj objs o.oid := by
  have H : ∀ (k : ℕ) (cells : List ONode) (j : ℕ), cells.length - j ≤ k →
      ∀ (objs : List Obj) (st : St),
      (distribJ fuel o cells j objs st).2.1 = objs ∨
      (distribJ fuel o cells j objs st).2.1 = eraseObj objs o.oid := by
    intro k
    induction k with
    | zero =>
      intro cells j hk objs st
      rw [distribJ_eq, dif_neg (by omega)]
      exact Or.inl rfl
    | succ k ihk =>
      intro cells j hk objs st
      rw [distribJ_eq]
      by_cases hj : j < cells.length
      · rw [dif_pos hj]
        by_cases hmatch : (cells.get ⟨j, hj⟩).containsCenter o = true
        · rw [if_pos hmatch]
          rcases ihk (cells.set j (nodeIns fuel (cells.get ⟨j, hj⟩) o st).1)
              (j + 1) (by simp only [List.length_set]; omega)
              (eraseObj objs o.oid)
              (nodeIns fuel (cells.get ⟨j, hj⟩) o st).2 with h1 | h2
          · rw [h1]; exact Or.inr rfl
          · rw [h2, eraseObj_idem]; exact Or.inr rfl
        · rw [if_neg hmatch]
          exact ihk cells (j + 1) (by omega) objs st
      · rw [dif_neg hj]
        exact Or.inl rfl
  exact fun cells j objs st => H (cells.length - j) cells j le_rfl objs st

/-- Redistribution postconditions compose. -/
theorem dout_trans {cells : List ONode} {objs : List Obj} {st : St}
    {r r2 : List ONode × List Obj × St}
    (h1 : DOut cells objs st r) (h2 : DOut r.1 r.2.1 r.2.2 r2) :
    DOut cells objs st r2 where
  len := h2.len.trans h1.len
  frame := by
    intro i hi1 hi2
    have hi3 : i < r.1.length := h2.len ▸ hi1
    obtain ⟨a1, a2, a3, a4⟩ := h2.frame i hi1 hi3
    obtain ⟨b1, b2, b3, b4⟩ := h1.frame i hi3 hi2
    exact ⟨a1.trans b1, a2.trans b2, a3.trans b3, a4.trans b4⟩
  wfs := h2.wfs
  total := h2.total.trans h1.total
  objsSub := h2.objsSub.trans h1.objsSub
  nids := by
    intro x hx
    rcases h2.nids x hx with ha | hb
    · rcases h1.nids x ha with hc | hd
      · exact Or.inl hc
      · exact Or.inr ⟨hd.1, lt_of_lt_of_le hd.2 h2.nmono⟩
    · exact Or.inr ⟨le_trans h1.nmono hb.1, hb.2⟩
  nnodup := h2.nnodup
  nlt := h2.nlt
  nmono := h1.nmono.trans h2.nmono
  mframe := by
    intro k hk1 hk2
    have hko : k ∉ objs.map Obj.oid ++ cellsOids cells := by
      simp only [List.mem_append]
      exact fun h => h.elim hk1 hk2
    have hkr : k ∉ r.2.1.map Obj.oid ++ cellsOids r.1 :=
      fun h => hko (h1.total.subset h)
    simp only [List.mem_append] at hkr
    push_neg at hkr
    rw [h2.mframe k hkr.1 hkr.2]
    exact h1.mframe k hk1 hk2
  mframeRem := by
    intro k hk
    have hk2 : k ∈ r.2.1.map Obj.oid := (h2.objsSub.map Obj.oid).mem hk
    rw [h2.mframeRem k hk]
    exact h1.mframeRem k hk2
  msync := h2.msync
  mkeys := fun k => (h2.mkeys k).trans (h1.mkeys k)
  knodup := h2.knodup

/-- A redistribution postcondition re-establishes the precondition for the
next pass. -/
theorem din_step {pmin : Vec3} {psz : ℚ} {pd : ℤ} {cells : List ONode}
    {objs : List Obj} {st : St} {r : List ONode × List Obj × St}
    (hin : DIn pmin psz pd cells objs st) (hout : DOut cells objs st r) :
    DIn pmin psz pd r.1 r.2.1 r.2.2 where
  len := hout.len.trans hin.len
  geom := by
    rw [octsGeomB_congr hout.len (fun i h1 h2 => by
      obtain ⟨_, a2, a3, a4⟩ := hout.frame i h1 h2
      exact ⟨a2, a3, a4⟩)]
    exact hin.geom
  wfs := hout.wfs
  tnodup := hout.total.nodup_iff.mpr hin.tnodup
  nnodup := hout.nnodup
  nlt := hout.nlt
  sync := hout.msync
  okeys := by
    intro k hk
    have hk2 : k ∈ objs.map Obj.oid := (hout.objsSub.map Obj.oid).mem hk
    rw [hout.mkeys k]
    exact hin.okeys k hk2
  knodup := hout.knodup

/-- With distinct object ids, erasing the head of a sublist keeps the tail a
sublist. -/
theorem sublist_eraseObj_of_cons {o : Obj} {rest objs : List Obj}
    (hsub : (o :: rest).Sublist objs) (hnd : (objs.map Obj.oid).Nodup) :
    rest.Sublist (eraseObj objs o.oid) := by
  have hnd2 : ((o :: rest).map Obj.oid).Nodup := hnd.sublist (hsub.map Obj.oid)
  have hhead : o.oid ∉ rest.map Obj.oid := by
    rw [List.map_cons, List.nodup_cons] at hnd2
    exact hnd2.1
  have heq : rest.filter (fun p => ¬ p.oid = o.oid) = rest := by
    apply List.filter_eq_self.mpr
    intro a ha
    simp only [decide_eq_true_eq]
    intro he
    exact hhead (List.mem_map.mpr ⟨a, ha, he⟩)
  rw [eraseObj, ← heq]
  exact (List.sublist_of_cons_sublist hsub).filter _

/-- Specification of the outer redistribution loop of `split`. -/
theorem distrib_spec {fuel : ℕ} (hins : InsSpec fuel) {pmin : Vec3} {psz : ℚ}
    {pd : ℤ} :
    ∀ (snapshot : List Obj) (cells : List ONode) (objs : List Obj) (st : St),
    snapshot.Sublist objs →
    DIn pmin psz pd cells objs st →
    MAX_DEPTH - (pd + 1) ≤ (fuel : ℤ) →
    DOut cells objs st (distrib fuel snapshot cells objs st) := by
  intro snapshot
  induction snapshot with
  | nil =>
    intro cells objs st hsub hin hfuel
    rw [distrib_nil]
    exact dout_refl hin
  | cons o rest ih =>
    intro cells objs st hsub hin hfuel
    rw [distrib_cons]
    by_cases hg : (match cells.head? with
      | some c0 => c0.largerThan o | none => false) = true
    · rw [if_pos hg]
      have ho : o.oid ∈ objs.map Obj.oid :=
        List.mem_map.mpr ⟨o, hsub.subset (List.mem_cons_self o rest), rfl⟩
      have hd1 := distribJ_spec hins cells 0 objs st hin ho hfuel
      have hin2 := din_step hin hd1
      have hsub2 : rest.Sublist (distribJ fuel o cells 0 objs st).2.1 := by
        rcases distribJ_objs fuel o cells 0 objs st with h1 | h2
        · rw [h1]; exact List.sublist_of_cons_sublist hsub
        · rw [h2]
          exact sublist_eraseObj_of_cons hsub
            (List.nodup_append.mp hin.tnodup).1
      have hd2 := ih _ _ _ hsub2 hin2 hfuel
      exact dout_trans hd1 hd2
    · rw [if_neg hg]
      exact ih cells objs st (List.sublist_of_cons_sublist hsub) hin hfuel

/-- A well-formed node with the side conditions of the ambient tree satisfies
the `split` precondition, provided its subtree holds at most 9 objects. -/
theorem splitIn_of_wf {c : ONode} {st : St}
    (hwf : nodeWFb c = true)
    (honodup : (subtreeOids c).Nodup)
    (hnnodup : (allNids c).Nodup)
    (hnlt : ∀ x ∈ allNids c, x < st.nextId)
    (hsync : ∀ nd ∈ allNodes c, ∀ ob ∈ nd.objects,
      mapGet st.otn ob.oid = some nd.nid)
    (hknodup : (st.otn.map Prod.fst).Nodup)
    (hcnt9 : c.count ≤ 9) :
    SplitIn c st := by
  cases c with
  | mk i mn s dp objs cnt octs =>
    rw [nodeWFb_mk_iff] at hwf
    exact
      { counts := hwf.1
        dple := hwf.2.1
        onodup := honodup
        nnodup := hnnodup
        nlt := hnlt
        sync := hsync
        knodup := hknodup
        leafBound := by
          intro he
          rcases hwf.2.2.1 he with h | h
          · refine Or.inl ?_
            show objs.length ≤ 9
            omega
          · exact Or.inr h
        childWF := fun ch hch =>
          (hwf.2.2.2 (by rintro rfl; simp at hch)).2.2.2 ch hch
        octsShape := fun hne =>
          ⟨(hwf.2.2.2 hne).1, (hwf.2.2.2 hne).2.1, (hwf.2.2.2 hne).2.2.1⟩
        bigSafe := fun _ _ => hcnt9 }

/-- Joint preconditions for the final per-cell splitting pass of `split`. -/
structure SAIn (cells : List ONode) (st : St) : Prop where
  wfs : ∀ c ∈ cells, nodeWFb c = true
  onodup : (cellsOids cells).Nodup
  nnodup : (cellsNids cells).Nodup
  nlt : ∀ x ∈ cellsNids cells, x < st.nextId
  sync : ∀ c ∈ cells, ∀ nd ∈ allNodes c, ∀ ob ∈ nd.objects,
    mapGet st.otn ob.oid = some nd.nid
  knodup : (st.otn.map Prod.fst).Nodup
  cnt9 : ∀ c ∈ cells, c.count ≤ 9

/-- What the per-cell splitting pass guarantees. -/
structure SAOut (cells : List ONode) (st : St) (r : List ONode × St) : Prop where
  len : r.1.length = cells.length
  frame : ∀ i (h1 : i < r.1.length) (h2 : i < cells.length),
    (r.1.get ⟨i, h1⟩).nid = (cells.get ⟨i, h2⟩).nid ∧
    (r.1.get ⟨i, h1⟩).min = (cells.get ⟨i, h2⟩).min ∧
    (r.1.get ⟨i, h1⟩).size = (cells.get ⟨i, h2⟩).size ∧
    (r.1.get ⟨i, h1⟩).depth = (cells.get ⟨i, h2⟩).depth ∧
    (r.1.get ⟨i, h1⟩).count = (cells.get ⟨i, h2⟩).count
  wfs : ∀ c ∈ r.1, nodeWFb c = true
  oids : (cellsOids r.1).Perm (cellsOids cells)
  nids : ∀ x ∈ cellsNids r.1, x ∈ cellsNids cells ∨
    (st.nextId ≤ x ∧ x < r.2.nextId)
  nnodup : (cellsNids r.1).Nodup
  nlt : ∀ x ∈ cellsNids r.1, x < r.2.nextId
  nmono : st.nextId ≤ r.2.nextId
  mframe : ∀ k, k ∉ cellsOids cells → mapGet r.2.otn k = mapGet st.otn k
  msync : ∀ c ∈ r.1, ∀ nd ∈ allNodes c, ∀ ob ∈ nd.objects,
    mapGet r.2.otn ob.oid = some nd.nid
  mkeys : ∀ k, (mapGet r.2.otn k).isSome ↔ (mapGet st.otn k).isSome
  knodup : (r.2.otn.map Prod.fst).Nodup

/-- Specification of the final loop of `split`. -/
theorem splitAll_spec {fuel : ℕ} (hsplit : SplitSpec fuel) :
    ∀ (cells : List ONode) (st : St),
    SAIn cells st →
    (∀ c ∈ cells, MAX_DEPTH - c.depth ≤ (fuel : ℤ)) →
    SAOut cells st (splitAll fuel cells st) := by
  intro cells
  induction cells with
  | nil =>
    intro st hin hfuel
    rw [splitAll_nil]
    exact
      { len := rfl
        frame := fun i h1 h2 => absurd h2 (by simp)
        wfs := fun c hc => absurd hc (List.not_mem_nil c)
        oids := List.Perm.refl _
        nids := fun x hx => Or.inl hx
        nnodup := by simp
        nlt := fun x hx => absurd hx (by simp)
        nmono := le_rfl
        mframe := fun _ _ => rfl
        msync := fun c hc => absurd hc (List.not_mem_nil c)
        mkeys := fun _ => Iff.rfl
        knodup := hin.knodup }
  | cons c rest ih =>
    intro st hin hfuel
    rw [splitAll_cons]
    have hcmem : c ∈ c :: rest := List.mem_cons_self c rest
    have hcin : SplitIn c st := splitIn_of_wf
      (hin.wfs c hcmem)
      (hin.onodup.sublist (subtree_sublist_cellsOids hcmem))
      (hin.nnodup.sublist (allNids_sublist_cellsNids hcmem))
      (fun x hx => hin.nlt x ((allNids_sublist_cellsNids hcmem).mem hx))
      (hin.sync c hcmem)
      hin.knodup
      (hin.cnt9 c hcmem)
    have hso := hsplit c st hcin (hfuel c hcmem)
    set ns := nodeSplit fuel c st with hns
    have hdisjO : (subtreeOids c).Disjoint (cellsOids rest) := by
      have h := hin.onodup
      rw [cellsOids_cons] at h
      exact List.disjoint_of_nodup_append h
    have hdisjN : (allNids c).Disjoint (cellsNids rest) := by
      have h := hin.nnodup
      rw [cellsNids_cons] at h
      exact List.disjoint_of_nodup_append h
    have hrin : SAIn rest ns.2 :=
      { wfs := fun d hd => hin.wfs d (List.mem_cons_of_mem c hd)
        onodup := hin.onodup.sublist
          (by rw [cellsOids_cons]; exact List.sublist_append_right _ _)
        nnodup := hin.nnodup.sublist
          (by rw [cellsNids_cons]; exact List.sublist_append_right _ _)
        nlt := fun x hx => lt_of_lt_of_le
          (hin.nlt x (by rw [cellsNids_cons]; exact List.mem_append_right _ hx))
          hso.nmono
        sync := fun d hd => sync_preserved_of_frame
          (hin.sync d (List.mem_cons_of_mem c hd))
          (fun k hk => hso.mframe k
            (fun hkc => hdisjO hkc ((subtree_sublist_cellsOids hd).mem hk)))
        knodup := hso.knodup
        cnt9 := fun d hd => hin.cnt9 d (List.mem_cons_of_mem c hd) }
    have hrec := ih ns.2 hrin (fun d hd => hfuel d (List.mem_cons_of_mem c hd))
    set rc := splitAll fuel rest ns.2 with hrc
    exact
      { len := by simp [hrec.len]
        frame := by
          intro i h1 h2
          cases i with
          | zero =>
            simp only [List.get_eq_getElem, List.getElem_cons_zero]
            exact ⟨hso.fnid, hso.fmin, hso.fsize, hso.fdepth, hso.fcount⟩
          | succ i' =>
            simp only [List.get_eq_getElem, List.getElem_cons_succ]
            exact hrec.frame i' (by simpa using h1) (by simpa using h2)
        wfs := by
          intro d hd
          rcases List.mem_cons.mp hd with rfl | hd2
          · exact hso.wf
          · exact hrec.wfs d hd2
        oids := by
          rw [cellsOids_cons, cellsOids_cons]
          exact hso.oids.append hrec.oids
        nids := by
          intro x hx
          rw [cellsNids_cons] at hx
          rw [cellsNids_cons]
          rcases List.mem_append.mp hx with h1 | h2
          · rcases hso.nids x h1 with ha | hb
            · exact Or.inl (List.mem_append_left _ ha)
            · exact Or.inr ⟨hb.1, lt_of_lt_of_le hb.2 hrec.nmono⟩
          · rcases hrec.nids x h2 with ha | hb
            · exact Or.inl (List.mem_append_right _ ha)
            · exact Or.inr ⟨le_trans hso.nmono hb.1, hb.2⟩
        nnodup := by
          rw [cellsNids_cons]
          refine hso.nnodup.append hrec.nnodup ?_
          intro x hx1 hx2
          rcases hrec.nids x hx2 with ha | hb
          · rcases hso.nids x hx1 with hc | hd
            · exact hdisjN hc ha
            · have := hin.nlt x
                (by rw [cellsNids_cons]; exact List.mem_append_right _ ha)
              omega
          · have := hso.nlt x hx1
            omega
        nlt := by
          intro x hx
          rw [cellsNids_cons] at hx
          rcases List.mem_append.mp hx with h1 | h2
          · exact lt_of_lt_of_le (hso.nlt x h1) hrec.nmono
          · exact hrec.nlt x h2
        nmono := hso.nmono.trans hrec.nmono
        mframe := by
          intro k hk
          rw [cellsOids_cons] at hk
          simp only [List.mem_append] at hk
          push_neg at hk
          rw [hrec.mframe k hk.2, hso.mframe k hk.1]
        msync := by
          intro d hd
          rcases List.mem_cons.mp hd with rfl | hd2
          · refine sync_preserved_of_frame hso.msync ?_
            intro k hk
            refine hrec.mframe k ?_
            intro hk2
            exact hdisjO (hso.oids.subset hk) hk2
          · exact hrec.msync d hd2
        mkeys := fun k => (hrec.mkeys k).trans (hso.mkeys k)
        knodup := hrec.knodup }

/-- Specification of `split` at positive fuel, from the insert and split
specifications at the next smaller fuel. -/
theorem split_spec_succ {f : ℕ} (hins : InsSpec f) (hsplit : SplitSpec f) :
    SplitSpec (f + 1) := by
  intro n st hin hfuel
  cases n with
  | mk i m s d objs cnt octs =>
    rw [nodeSplit_succ]
    by_cases hg : objs.length ≤ 8 ∨ d = MAX_DEPTH
    · rw [if_pos hg]
      exact splitOut_noop hin hg
    · rw [if_neg hg]
      push_neg at hg
      obtain ⟨hbig, hdne⟩ := hg
      have hfuel' : MAX_DEPTH - d ≤ (f : ℤ) + 1 := by exact_mod_cast hfuel
      have hbig' : 8 < objs.length := by omega
      have hdlt : d < MAX_DEPTH := lt_of_le_of_ne hin.dple hdne
      have hcnt9 : cnt ≤ 9 := hin.bigSafe hbig' hdne
      have hcounts : cnt = (objs.length : ℤ) + (octs.map ONode.count).sum :=
        hin.counts
      have hchcnt : ∀ c ∈ octs, countsOkB c = true :=
        fun c hc => nodeWFb_countsOkB (hin.childWF c hc)
      have hsumnn : 0 ≤ (octs.map ONode.count).sum :=
        List.sum_nonneg (fun x hx => by
          obtain ⟨c, hc, rfl⟩ := List.mem_map.mp hx
          exact countsOkB_nonneg (hchcnt c hc))
      have hlen9 : objs.length = 9 := by omega
      have hsum0 : (octs.map ONode.count).sum = 0 := by omega
      have hoctsOids : cellsOids octs = [] :=
        cellsOids_empty_of_counts hchcnt hsum0
      have hone : (objs.map Obj.oid).Nodup := by
        have h := hin.onodup
        rw [subtreeOids_mk', hoctsOids, List.append_nil] at h
        exact h
      set cells := ONode.createOctants (ONode.mk i m s d objs cnt octs)
        st.nextId with hcells
      set st' : St := ⟨st.nextId + 8, st.otn⟩ with hst'
      have hdin : DIn m (s / 2) d cells objs st' :=
        { len := by rw [hcells]; exact createOctants_length _ _
          geom := by rw [hcells]; exact octsGeomB_createOctants _ _
          wfs := by
            intro c hc
            rw [hcells] at hc
            obtain ⟨i2, hi2, rfl⟩ := mem_createOctants hc
            exact nodeWFb_octantCell (by show d + 1 ≤ MAX_DEPTH; omega)
          tnodup := by
            rw [hcells, cellsOids_createOctants, List.append_nil]
            exact hone
          nnodup := by rw [hcells]; exact cellsNids_createOctants_nodup _ _
          nlt := by
            intro x hx
            rw [hcells] at hx
            have h5 := cellsNids_createOctants_mem hx
            rw [hst']
            show x < st.nextId + 8
            omega
          sync := by
            intro c hc nd hnd ob hob
            rw [hcells] at hc
            obtain ⟨i2, hi2, rfl⟩ := mem_createOctants hc
            rw [allNodes_octantCell, List.mem_singleton] at hnd
            subst hnd
            simp [octantCell] at hob
          okeys := by
            intro k hk
            obtain ⟨ob, hob, rfl⟩ := List.mem_map.mp hk
            have hs := hin.sync _ (mem_allNodes_self _) ob hob
            show (mapGet st.otn ob.oid).isSome = true
            rw [hs]
            rfl
          knodup := hin.knodup }
      have hdfuel : MAX_DEPTH - (d + 1) ≤ (f : ℤ) := by omega
      have hdout := distrib_spec hins objs cells objs st'
        (List.Sublist.refl objs) hdin hdfuel
      set r := distrib f objs cells objs st' with hrdef
      have hdin2 : DIn m (s / 2) d r.1 r.2.1 r.2.2 := din_step hdin hdout
      have hlenP : r.2.1.length + (cellsOids r.1).length = 9 := by
        have h2 := hdout.total.length_eq
        simp only [List.length_append, List.length_map] at h2
        rw [hcells, cellsOids_createOctants] at h2
        simpa [hlen9] using h2
      have hsain : SAIn r.1 r.2.2 :=
        { wfs := hdin2.wfs
          onodup := (List.nodup_append.mp hdin2.tnodup).2.1
          nnodup := hdin2.nnodup
          nlt := hdin2.nlt
          sync := hdin2.sync
          knodup := hdin2.knodup
          cnt9 := by
            intro c hc
            rw [countsOkB_count_eq (nodeWFb_countsOkB (hdin2.wfs c hc))]
            have hs := (subtree_sublist_cellsOids hc).length_le
            have h9 : (subtreeOids c).length ≤ 9 := by omega
            exact_mod_cast h9 }
      have hsafuel : ∀ c ∈ r.1, MAX_DEPTH - c.depth ≤ (f : ℤ) := by
        intro c hc
        rw [octsGeomB_depth_mem hdin2.geom hc]
        omega
      have hsa := splitAll_spec hsplit r.1 r.2.2 hsain hsafuel
      set r2 := splitAll f r.1 r.2.2 with hr2def
      have hlenr1 : r.1.length = 8 := by
        rw [hdout.len, hcells]
        exact createOctants_length _ _
      have hlen21 : r2.1.length = 8 := by rw [hsa.len, hlenr1]
      have hcnt9eq : cnt = 9 := by
        rw [hcounts, hsum0, hlen9]
        norm_num
      have hmapeq : r2.1.map ONode.count = r.1.map ONode.count :=
        List.ext_get (by simp [hsa.len])
          (fun idx h1 h2 => by
            simp only [List.get_eq_getElem, List.getElem_map]
            exact (hsa.frame idx (by simpa using h1) (by simpa using h2)).2.2.2.2)
      have hsumr1 : (r.1.map ONode.count).sum = ((cellsOids r.1).length : ℤ) := by
        rw [sum_counts_eq (fun c hc =>
          countsOkB_count_eq (nodeWFb_countsOkB (hdin2.wfs c hc)))]
        rfl
      have hwfn2 : nodeWFb (ONode.mk i m s d r.2.1 cnt r2.1) = true := by
        rw [nodeWFb_mk_iff]
        refine ⟨?_, hin.dple, ?_, ?_⟩
        · rw [hmapeq, hsumr1, hcnt9eq]
          omega
        · intro he
          rw [he] at hlen21
          simp at hlen21
        · intro hne
          refine ⟨hlen21, by rw [hcnt9eq]; norm_num, ?_, hsa.wfs⟩
          rw [octsGeomB_congr hsa.len (fun i2 h1 h2 => by
            obtain ⟨_, a2, a3, a4, _⟩ := hsa.frame i2 h1 h2
            exact ⟨a2, a3, a4⟩)]
          exact hdin2.geom
      have hge : ∀ x ∈ cellsNids r2.1, st.nextId ≤ x ∧ x < r2.2.nextId := by
        intro x hx
        have h7 : st.nextId ≤ st'.nextId := by
          rw [hst']
          show st.nextId ≤ st.nextId + 8
          omega
        rcases hsa.nids x hx with h1 | h2
        · rcases hdout.nids x h1 with h3 | h4
          · have h5 := cellsNids_createOctants_mem (by rwa [hcells] at h3)
            have h6 : x < st'.nextId := by
              rw [hst']
              show x < st.nextId + 8
              omega
            have h8 := hdout.nmono
            have h9 := hsa.nmono
            exact ⟨h5.1, by omega⟩
          · have h9 := hsa.nmono
            exact ⟨by omega, by omega⟩
        · have h8 := hdout.nmono
          exact ⟨by omega, h2.2⟩
      have hselfi : i ∈ allNids (ONode.mk i m s d objs cnt octs) := by
        rw [allNids_mk]
        exact List.mem_cons_self _ _
      have hilt : i < st.nextId := hin.nlt i hselfi
      have hfinal : SplitOut (ONode.mk i m s d objs cnt octs) st
          (ONode.mk i m s d r.2.1 cnt r2.1, r2.2) :=
        { wf := hwfn2
          fnid := rfl
          fmin := rfl
          fsize := rfl
          fdepth := rfl
          fcount := rfl
          oids := by
            show (subtreeOids (ONode.mk i m s d r.2.1 cnt r2.1)).Perm
              (subtreeOids (ONode.mk i m s d objs cnt octs))
            rw [subtreeOids_mk', subtreeOids_mk', hoctsOids, List.append_nil]
            refine (List.Perm.append_left _ hsa.oids).trans ?_
            have h2 := hdout.total
            rw [hcells, cellsOids_createOctants, List.append_nil] at h2
            exact h2
          nids := by
            intro x hx
            rw [allNids_mk] at hx
            rcases List.mem_cons.mp hx with rfl | h2
            · exact Or.inl hselfi
            · exact Or.inr (hge x h2)
          nnodup := by
            rw [allNids_mk]
            refine List.nodup_cons.mpr ⟨?_, hsa.nnodup⟩
            intro hmem
            have h2 := (hge i hmem).1
            omega
          nlt := by
            intro x hx
            rw [allNids_mk] at hx
            rcases List.mem_cons.mp hx with rfl | h2
            · have h7 : st.nextId ≤ st'.nextId := by
                rw [hst']
                show st.nextId ≤ st.nextId + 8
                omega
              have h8 := hdout.nmono
              have h9 := hsa.nmono
              show x < r2.2.nextId
              omega
            · exact (hge x h2).2
          nmono := by
            have h7 : st.nextId ≤ st'.nextId := by
              rw [hst']
              show st.nextId ≤ st.nextId + 8
              omega
            have h8 := hdout.nmono
            have h9 := hsa.nmono
            show st.nextId ≤ r2.2.nextId
            omega
          mframe := by
            intro k hk
            rw [subtreeOids_mk', hoctsOids, List.append_nil] at hk
            have hk2 : k ∉ cellsOids r.1 := by
              intro hmem
              have h3 : k ∈ objs.map Obj.oid ++ cellsOids cells :=
                hdout.total.subset (List.mem_append_right _ hmem)
              rw [hcells, cellsOids_createOctants, List.append_nil] at h3
              exact hk h3
            have hk3 : k ∉ cellsOids cells := by
              rw [hcells, cellsOids_createOctants]
              exact List.not_mem_nil k
            rw [hsa.mframe k hk2, hdout.mframe k hk hk3, hst']
          msync := by
            intro nd hnd ob hob
            rcases (mem_allNodes_iff _ nd).mp hnd with rfl | ⟨c, hc, hnd2⟩
            · have hob2 : ob ∈ objs := hdout.objsSub.mem hob
              have hbase := hin.sync _ (mem_allNodes_self _) ob hob2
              have hoidmem : ob.oid ∈ r.2.1.map Obj.oid :=
                List.mem_map.mpr ⟨ob, hob, rfl⟩
              have hnotc : ob.oid ∉ cellsOids r.1 :=
                fun hmem => List.disjoint_of_nodup_append hdin2.tnodup hoidmem hmem
              show mapGet r2.2.otn ob.oid = some i
              rw [hsa.mframe _ hnotc, hdout.mframeRem _ hoidmem]
              exact hbase
            · exact hsa.msync c hc nd hnd2 ob hob
          mkeys := by
            intro k
            refine (hsa.mkeys k).trans ((hdout.mkeys k).trans ?_)
            exact Iff.rfl
          knodup := hsa.knodup }
      exact hfinal

/-- The full mutual specification of `OctreeNode.insert` and
`OctreeNode.split`, by induction on the split-nesting fuel. -/
theorem insSplit_spec : ∀ fuel, InsSpec fuel ∧ SplitSpec fuel := by
  intro fuel
  induction fuel with
  | zero =>
    refine ⟨ins_spec_of_split_spec split_spec_zero, split_spec_zero⟩
  | succ f ih =>
    have hs := split_spec_succ ih.1 ih.2
    exact ⟨ins_spec_of_split_spec hs, hs⟩

/-- A leaf subtree's object-id list is just its direct objects' ids. -/
theorem subtreeOids_leaf {n : ONode} (h : n.octants = []) :
    subtreeOids n = n.objects.map Obj.oid := by
  cases n with
  | mk i m s d objs c octs =>
    have he : octs = [] := h
    subst he
    rw [subtreeOids_mk']
    simp

/-- The inner step of `merge`: add one octant object back to the parent and
re-point its reverse-map entry. -/
def pullObj (i : ℕ) (acc : List Obj × OMap) (o : Obj) : List Obj × OMap :=
  (addObj acc.1 o, mapSet acc.2 o.oid i)

/-- One octant's pass of `merge`. -/
def pullOct (i : ℕ) (acc : List Obj × OMap) (oct : ONode) : List Obj × OMap :=
  oct.objects.foldl (pullObj i) acc

theorem mergeNode_mk (i mn s d objs c octs m) :
    mergeNode (.mk i mn s d objs c octs) m =
      if 8 < c ∨ octs.isEmpty then (.mk i mn s d objs c octs, m)
      else
        ((.mk i mn s d (octs.foldl (pullOct i) (objs, m)).1 c [] : ONode),
         (octs.foldl (pullOct i) (objs, m)).2) := by
  unfold mergeNode pullOct pullObj
  rfl

theorem pull_inner (i : ℕ) (l : List Obj) :
    ∀ (acc : List Obj × OMap),
    (∀ o ∈ l, ∀ p ∈ acc.1, ¬ p.oid = o.oid) →
    (l.map Obj.oid).Nodup →
    (l.foldl (pullObj i) acc).1 = acc.1 ++ l ∧
    (∀ k, mapGet (l.foldl (pullObj i) acc).2 k =
      if k ∈ l.map Obj.oid then some i else mapGet acc.2 k) ∧
    ((acc.2.map Prod.fst).Nodup → ((l.foldl (pullObj i) acc).2.map Prod.fst).Nodup) := by
  induction l with
  | nil =>
    intro acc h hnd
    refine ⟨by simp, fun k => by simp, id⟩
  | cons o rest ih =>
    intro acc h hnd
    rw [List.foldl_cons]
    have hnmem : o.oid ∉ acc.1.map Obj.oid := by
      intro hmem
      obtain ⟨p, hp, hpe⟩ := List.mem_map.mp hmem
      exact h o (List.mem_cons_self o rest) p hp hpe
    have hstep1 : (pullObj i acc o).1 = acc.1 ++ [o] :=
      addObj_of_not_mem hnmem
    have hheadnotin : o.oid ∉ rest.map Obj.oid := by
      rw [List.map_cons, List.nodup_cons] at hnd
      exact hnd.1
    have h2 : ∀ o2 ∈ rest, ∀ p ∈ (pullObj i acc o).1, ¬ p.oid = o2.oid := by
      intro o2 ho2 p hp
      rw [hstep1, List.mem_append] at hp
      rcases hp with hp1 | hp2
      · exact h o2 (List.mem_cons_of_mem o ho2) p hp1
      · rw [List.mem_singleton] at hp2
        subst hp2
        intro he
        exact hheadnotin (he ▸ List.mem_map.mpr ⟨o2, ho2, rfl⟩)
    have hnd2 : (rest.map Obj.oid).Nodup := by
      rw [List.map_cons, List.nodup_cons] at hnd
      exact hnd.2
    obtain ⟨e1, e2, e3⟩ := ih (pullObj i acc o) h2 hnd2
    refine ⟨?_, ?_, ?_⟩
    · rw [e1, hstep1]
      simp
    · intro k
      rw [e2 k]
      by_cases hk1 : k ∈ rest.map Obj.oid
      · rw [if_pos hk1, if_pos (by simp [hk1])]
      · rw [if_neg hk1]
        by_cases hk2 : k = o.oid
        · subst hk2
          rw [if_pos (by simp)]
          show mapGet (mapSet acc.2 o.oid i) o.oid = some i
          exact mapGet_mapSet_self acc.2 o.oid i
        · rw [if_neg (by simp [hk1, hk2])]
          show mapGet (mapSet acc.2 o.oid i) k = mapGet acc.2 k
          exact mapGet_mapSet_ne acc.2 o.oid i k hk2
    · intro hknd
      exact e3 (mapSet_keys_nodup hknd o.oid i)

theorem pull_outer (i : ℕ) (octs : List ONode) :
    ∀ (acc : List Obj × OMap),
    (∀ oct ∈ octs, oct.octants = []) →
    (acc.1.map Obj.oid ++ cellsOids octs).Nodup →
    (octs.foldl (pullOct i) acc).1 = acc.1 ++ (octs.map ONode.objects).flatten ∧
    (∀ k, mapGet (octs.foldl (pullOct i) acc).2 k =
      if k ∈ cellsOids octs then some i else mapGet acc.2 k) ∧
    ((acc.2.map Prod.fst).Nodup →
      (((octs.foldl (pullOct i) acc).2).map Prod.fst).Nodup) := by
  induction octs with
  | nil =>
    intro acc hleaf hnd
    refine ⟨by simp, fun k => by simp, id⟩
  | cons oct rest ih =>
    intro acc hleaf hnd
    rw [List.foldl_cons]
    have hoctleaf := subtreeOids_leaf (hleaf oct (List.mem_cons_self oct rest))
    have hndsplit : (acc.1.map Obj.oid ++
        (oct.objects.map Obj.oid ++ cellsOids rest)).Nodup := by
      rw [cellsOids_cons, hoctleaf] at hnd
      exact hnd
    have hdisj := List.disjoint_of_nodup_append hndsplit
    have h1 : ∀ o ∈ oct.objects, ∀ p ∈ acc.1, ¬ p.oid = o.oid := by
      intro o ho p hp he
      exact hdisj (List.mem_map.mpr ⟨p, hp, rfl⟩)
        (List.mem_append_left _ (he ▸ List.mem_map.mpr ⟨o, ho, rfl⟩))
    have hnd1 : (oct.objects.map Obj.oid).Nodup := by
      have := (List.nodup_append.mp hndsplit).2.1
      exact (List.nodup_append.mp this).1
    obtain ⟨e1, e2, e3⟩ := pull_inner i oct.objects acc h1 hnd1
    show (rest.foldl (pullOct i) (pullOct i acc oct)).1 = _ ∧ _
    have hacc' : (pullOct i acc oct).1 = acc.1 ++ oct.objects := e1
    have hnd' : ((pullOct i acc oct).1.map Obj.oid ++ cellsOids rest).Nodup := by
      rw [hacc', List.map_append, List.append_assoc]
      exact hndsplit
    obtain ⟨f1, f2, f3⟩ := ih (pullOct i acc oct)
      (fun oc hoc => hleaf oc (List.mem_cons_of_mem oct hoc)) hnd'
    refine ⟨?_, ?_, ?_⟩
    · rw [f1, hacc']
      simp
    · intro k
      rw [f2 k, cellsOids_cons, hoctleaf]
      by_cases hk1 : k ∈ cellsOids rest
      · rw [if_pos hk1, if_pos (List.mem_append_right _ hk1)]
      · rw [if_neg hk1]
        have he2 : mapGet (pullOct i acc oct).2 k =
            if k ∈ oct.objects.map Obj.oid then some i else mapGet acc.2 k := e2 k
        rw [he2]
        by_cases hk2 : k ∈ oct.objects.map Obj.oid
        · rw [if_pos hk2, if_pos (List.mem_append_left _ hk2)]
        · rw [if_neg hk2, if_neg (by
            intro hmem
            rcases List.mem_append.mp hmem with h | h
            · exact hk2 h
            · exact hk1 h)]
    · exact fun hknd => f3 (e3 hknd)

/-- Preconditions for `merge` at a node (the node may transiently violate the
threshold invariant, which `merge` is called to restore). -/
structure MGIn (n : ONode) (m : OMap) : Prop where
  counts : n.count = (n.objects.length : ℤ) + (n.octants.map ONode.count).sum
  dple : n.depth ≤ MAX_DEPTH
  onodup : (subtreeOids n).Nodup
  nnodup : (allNids n).Nodup
  childWF : ∀ c ∈ n.octants, nodeWFb c = true
  leafBound : n.octants = [] → n.objects.length ≤ 8 ∨ n.depth = MAX_DEPTH
  octsShape : n.octants ≠ [] → n.octants.length = 8 ∧
    octsGeomB n.min (n.size / 2) n.depth n.octants 0 = true
  sync : ∀ nd ∈ allNodes n, ∀ ob ∈ nd.objects, mapGet m ob.oid = some nd.nid
  knodup : (m.map Prod.fst).Nodup

/-- What `merge` guarantees. -/
structure MGOut (n : ONode) (m : OMap) (r : ONode × OMap) : Prop where
  wf : nodeWFb r.1 = true
  fnid : r.1.nid = n.nid
  fmin : r.1.min = n.min
  fsize : r.1.size = n.size
  fdepth : r.1.depth = n.depth
  fcount : r.1.count = n.count
  oids : (subtreeOids r.1).Perm (subtreeOids n)
  nidsSub : (allNids r.1).Sublist (allNids n)
  msync : ∀ nd ∈ allNodes r.1, ∀ ob ∈ nd.objects, mapGet r.2 ob.oid = some nd.nid
  mframe : ∀ k, k ∉ subtreeOids n → mapGet r.2 k = mapGet m k
  mkeys : ∀ k, (mapGet r.2 k).isSome ↔ (mapGet m k).isSome
  knodup : (r.2.map Prod.fst).Nodup

theorem merge_spec {n : ONode} {m : OMap} (hin : MGIn n m) :
    MGOut n m (mergeNode n m) := by
  cases n with
  | mk i mn s d objs c octs =>
    rw [mergeNode_mk]
    by_cases hg : 8 < c ∨ octs.isEmpty = true
    · rw [if_pos hg]
      have hwf : nodeWFb (ONode.mk i mn s d objs c octs) = true := by
        rw [nodeWFb_mk_iff]
        refine ⟨hin.counts, hin.dple, fun he => hin.leafBound he, fun hne => ?_⟩
        have hsh := hin.octsShape hne
        rcases hg with hg1 | hg2
        · exact ⟨hsh.1, hg1, hsh.2, hin.childWF⟩
        · exact absurd (List.isEmpty_iff.mp hg2) hne
      exact
        { wf := hwf
          fnid := rfl
          fmin := rfl
          fsize := rfl
          fdepth := rfl
          fcount := rfl
          oids := List.Perm.refl _
          nidsSub := List.Sublist.refl _
          msync := hin.sync
          mframe := fun _ _ => rfl
          mkeys := fun _ => Iff.rfl
          knodup := hin.knodup }
    · rw [if_neg hg]
      push_neg at hg
      obtain ⟨hc8, hnemp⟩ := hg
      have hc8' : c ≤ 8 := by omega
      have hne : octs ≠ [] := fun he => hnemp (by simp [he])
      have hcok : ∀ oc ∈ octs, countsOkB oc = true :=
        fun oc hoc => nodeWFb_countsOkB (hin.childWF oc hoc)
      have hcnonneg : ∀ oc ∈ octs, 0 ≤ oc.count :=
        fun oc hoc => countsOkB_nonneg (hcok oc hoc)
      have hoctle : ∀ oc ∈ octs, oc.count ≤ 8 := by
        intro oc hoc
        have hle := List.single_le_sum
          (fun y hy => by
            obtain ⟨d2, hd2, rfl⟩ := List.mem_map.mp hy
            exact hcnonneg d2 hd2) _ (List.mem_map.mpr ⟨oc, hoc, rfl⟩)
        have hc := hin.counts
        have hc2 : c = (objs.length : ℤ) + (octs.map ONode.count).sum := hc
        omega
      have hleaves : ∀ oc ∈ octs, oc.octants = [] := by
        intro oc hoc
        by_contra hnot
        have hwfoc := hin.childWF oc hoc
        cases oc with
        | mk a b c2 d2 e f g =>
          rw [nodeWFb_mk_iff] at hwfoc
          have hgt : (8 : ℤ) < f := (hwfoc.2.2.2 (by exact hnot)).2.1
          have hle : f ≤ 8 := hoctle _ hoc
          omega
      have hnd0 : (objs.map Obj.oid ++ cellsOids octs).Nodup := by
        have h := hin.onodup
        rwa [subtreeOids_mk'] at h
      obtain ⟨e1, e2, e3⟩ := pull_outer i octs (objs, m) hleaves hnd0
      have e1c : (octs.foldl (pullOct i) (objs, m)).1 =
          objs ++ (octs.map ONode.objects).flatten := e1
      have e2c : ∀ k, mapGet (octs.foldl (pullOct i) (objs, m)).2 k =
          if k ∈ cellsOids octs then some i else mapGet m k := e2
      rw [e1c]
      have hoidflat : ((octs.map ONode.objects).flatten).map Obj.oid =
          cellsOids octs := by
        rw [cellsOids, List.map_flatten, List.map_map]
        congr 1
        apply List.map_congr_left
        intro oc hoc
        exact (subtreeOids_leaf (hleaves oc hoc)).symm
      have hs1 : (octs.map ONode.count).sum = ((cellsOids octs).length : ℤ) := by
        rw [sum_counts_eq (fun oc hoc => countsOkB_count_eq (hcok oc hoc))]
        rfl
      have hs2 : ((octs.map ONode.objects).flatten).length =
          (cellsOids octs).length := by
        rw [← hoidflat, List.length_map]
      have hcnt : c = (((objs ++ (octs.map ONode.objects).flatten).length : ℕ) : ℤ) := by
        rw [List.length_append]
        have hc2 : c = (objs.length : ℤ) + (octs.map ONode.count).sum := hin.counts
        omega
      have hdisj0 := List.disjoint_of_nodup_append hnd0
      refine
        { wf := ?_
          fnid := rfl
          fmin := rfl
          fsize := rfl
          fdepth := rfl
          fcount := rfl
          oids := ?_
          nidsSub := ?_
          msync := ?_
          mframe := ?_
          mkeys := ?_
          knodup := e3 hin.knodup }
      · rw [nodeWFb_mk_iff]
        refine ⟨by simpa using hcnt, hin.dple, fun _ => Or.inl ?_, fun habs => absurd rfl habs⟩
        omega
      · show (subtreeOids (ONode.mk i mn s d
            (objs ++ (octs.map ONode.objects).flatten) c [])).Perm _
        rw [subtreeOids_mk', subtreeOids_mk']
        simp only [cellsOids_nil, List.append_nil, List.map_append, hoidflat]
        exact List.Perm.refl _
      · show (allNids (ONode.mk i mn s d
            (objs ++ (octs.map ONode.objects).flatten) c [])).Sublist _
        rw [allNids_mk, allNids_mk]
        simp only [cellsNids_nil]
        exact List.cons_sublist_cons.mpr (List.nil_sublist _)
      · intro nd hnd ob hob
        rw [allNodes_mk] at hnd
        simp only [List.map_nil, List.flatten_nil] at hnd
        rw [List.mem_singleton] at hnd
        subst hnd
        have hob2 : ob ∈ objs ++ (octs.map ONode.objects).flatten := hob
        show mapGet (octs.foldl (pullOct i) (objs, m)).2 ob.oid = some i
        rw [e2c ob.oid]
        rcases List.mem_append.mp hob2 with h1 | h2
        · rw [if_neg (fun hmem =>
            hdisj0 (List.mem_map.mpr ⟨ob, h1, rfl⟩) hmem)]
          exact hin.sync _ (mem_allNodes_self _) ob h1
        · rw [if_pos (hoidflat ▸ List.mem_map.mpr ⟨ob, h2, rfl⟩)]
      · intro k hk
        rw [subtreeOids_mk'] at hk
        show mapGet (octs.foldl (pullOct i) (objs, m)).2 k = mapGet m k
        rw [e2c k, if_neg (fun hmem => hk (List.mem_append_right _ hmem))]
      · intro k
        show (mapGet (octs.foldl (pullOct i) (objs, m)).2 k).isSome ↔ _
        rw [e2c k]
        by_cases hk : k ∈ cellsOids octs
        · rw [if_pos hk]
          constructor
          · intro _
            obtain ⟨oc, hoc, hkoc⟩ : ∃ oc ∈ octs, k ∈ subtreeOids oc := by
              rw [cellsOids] at hk
              obtain ⟨l, hl, hkl⟩ := List.mem_flatten.mp hk
              obtain ⟨oc, hoc, rfl⟩ := List.mem_map.mp hl
              exact ⟨oc, hoc, hkl⟩
            obtain ⟨nd, hnd, ob, hob, rfl⟩ := (mem_subtreeOids_iff oc k).mp hkoc
            have hs := hin.sync nd (mem_allNodes_child hoc hnd) ob hob
            rw [hs]
            rfl
          · intro _
            rfl
        · rw [if_neg hk]

/-! ## Tree-level well-formedness and the `grow` specification -/

/-- Well-formedness of an `Octree` controller state (the target of all
preservation proofs). -/
structure TreeWF (t : Octree) : Prop where
  wf : nodeWFb t.root = true
  dge : MIN_DEPTH ≤ t.root.depth
  onodup : (subtreeOids t.root).Nodup
  nnodup : (allNids t.root).Nodup
  nlt : ∀ x ∈ allNids t.root, x < t.nextId
  knodup : (t.objectToNode.map Prod.fst).Nodup
  sync : ∀ nd ∈ allNodes t.root, ∀ ob ∈ nd.objects,
    mapGet t.objectToNode ob.oid = some nd.nid
  keysOwned : ∀ k, (mapGet t.objectToNode k).isSome = true →
    k ∈ subtreeOids t.root

theorem sum_set_zero : ∀ (l : List ℤ), (∀ x ∈ l, x = 0) → ∀ (i : ℕ) (v : ℤ),
    i < l.length → (l.set i v).sum = v := by
  intro l
  induction l with
  | nil => intro _ i v hi; simp at hi
  | cons a tl ih =>
    intro h i v hi
    cases i with
    | zero =>
      simp only [List.set_cons_zero, List.sum_cons]
      have htl : tl.sum = 0 :=
        List.sum_eq_zero (fun x hx => h x (List.mem_cons_of_mem a hx))
      rw [htl]
      ring
    | succ i' =>
      simp only [List.set_cons_succ, List.sum_cons]
      rw [h a (List.mem_cons_self a tl),
        ih (fun x hx => h x (List.mem_cons_of_mem a hx)) i' v (by simpa using hi)]
      ring

theorem flatten_set_allNil {α : Type} : ∀ (L : List (List α)),
    (∀ x ∈ L, x = []) → ∀ (i : ℕ) (l : List α),
    i < L.length → (L.set i l).flatten = l := by
  intro L
  induction L with
  | nil => intro _ i l hi; simp at hi
  | cons a tl ih =>
    intro h i l hi
    cases i with
    | zero =>
      simp only [List.set_cons_zero, List.flatten_cons]
      have htl : tl.flatten = [] := by
        rw [List.flatten_eq_nil_iff]
        exact fun x hx => h x (List.mem_cons_of_mem a hx)
      rw [htl, List.append_nil]
    | succ i' =>
      simp only [List.set_cons_succ, List.flatten_cons]
      rw [h a (List.mem_cons_self a tl),
        ih (fun x hx => h x (List.mem_cons_of_mem a hx)) i' l (by simpa using hi)]
      rfl

theorem growOctantIndex_lt (dir : Vec3) : growOctantIndex dir < 8 := by
  unfold growOctantIndex
  split_ifs <;> norm_num

theorem growIndex_bits (dir : Vec3) :
    ((growOctantIndex dir) &&& 1 = (if dir.x < 0 then 1 else 0)) ∧
    (((growOctantIndex dir) &&& 2) >>> 1 = (if dir.y < 0 then 1 else 0)) ∧
    (((growOctantIndex dir) &&& 4) >>> 2 = (if dir.z < 0 then 1 else 0)) := by
  unfold growOctantIndex
  by_cases hx : dir.x < 0 <;> by_cases hy : dir.y < 0 <;> by_cases hz : dir.z < 0 <;>
    simp only [hx, hy, hz, if_true, if_false] <;> refine ⟨by decide, by decide, by decide⟩

/-- The octant slot that receives the old root in `grow` has exactly the old
root's min corner. -/
theorem grow_slot_matches (root : ONode) (dir : Vec3) :
    cellMin (growNewMin root dir) root.size (growOctantIndex dir) = root.min := by
  obtain ⟨b1, b2, b3⟩ := growIndex_bits dir
  unfold cellMin growNewMin
  rw [b1, b2, b3]
  by_cases hx : dir.x < 0 <;> by_cases hy : dir.y < 0 <;> by_cases hz : dir.z < 0 <;>
    simp only [hx, hy, hz, if_true, if_false, Nat.cast_one, Nat.cast_zero,
      Vec3.mk.injEq] <;> (repeat' apply And.intro) <;> ring

/-- The intermediate node built by `grow` before its `merge` call. -/
def growNode (t : Octree) (o : Obj) : ONode :=
  .mk t.nextId (growNewMin t.root (growDirection t.root o.box)) (t.root.size * 2)
    (t.root.depth - 1) [] t.root.count
    (((ONode.mk t.nextId (growNewMin t.root (growDirection t.root o.box))
        (t.root.size * 2) (t.root.depth - 1) [] 0 []).createOctants (t.nextId + 1)).set
      (growOctantIndex (growDirection t.root o.box)) t.root)

theorem grow_eq (t : Octree) (o : Obj) :
    t.grow o =
      if 0 < t.root.count then
        ⟨(mergeNode (growNode t o) t.objectToNode).1,
         (mergeNode (growNode t o) t.objectToNode).2, t.nextId + 9⟩
      else
        ⟨.mk t.nextId (growNewMin t.root (growDirection t.root o.box))
          (t.root.size * 2) (t.root.depth - 1) [] 0 [],
         t.objectToNode, t.nextId + 1⟩ := rfl

/-- What `grow` guarantees. -/
structure GrowOut (t t2 : Octree) : Prop where
  twf : TreeWF t2
  size : t2.root.size = t.root.size * 2
  depth : t2.root.depth = t.root.depth - 1
  count : t2.root.count = t.root.count
  oids : (subtreeOids t2.root).Perm (subtreeOids t.root)
  mkeys : ∀ k, (mapGet t2.objectToNode k).isSome ↔
    (mapGet t.objectToNode k).isSome
  nmono : t.nextId ≤ t2.nextId
  count0 : t.root.count = 0 → t2.root.objects = [] ∧ t2.root.octants = [] ∧
    t2.objectToNode = t.objectToNode

theorem createOctants_get (n : ONode) (k i : ℕ)
    (h : i < (n.createOctants k).length) :
    (n.createOctants k).get ⟨i, h⟩ = octantCell n.min n.size n.depth (k + i) i := by
  simp [ONode.createOctants]

theorem nodeWFb_dple {n : ONode} (h : nodeWFb n = true) : n.depth ≤ MAX_DEPTH := by
  cases n with
  | mk i m s d objs c octs =>
    rw [nodeWFb_mk_iff] at h
    exact h.2.1

theorem grow_spec {t : Octree} (o : Obj) (h : TreeWF t)
    (hmin : MIN_DEPTH < t.root.depth) : GrowOut t (t.grow o) := by
  rw [grow_eq]
  have hdple := nodeWFb_dple h.wf
  by_cases hc : 0 < t.root.count
  · rw [if_pos hc]
    set dir := growDirection t.root o.box with hdir
    set nmin := growNewMin t.root dir with hnmin
    set idx := growOctantIndex dir with hidxdef
    set base := (ONode.mk t.nextId nmin (t.root.size * 2) (t.root.depth - 1)
      [] 0 [] : ONode) with hbase
    set cells := base.createOctants (t.nextId + 1) with hcells
    set octsSet := cells.set idx t.root with hoctsSet
    have hG : growNode t o =
        ONode.mk t.nextId nmin (t.root.size * 2) (t.root.depth - 1) []
          t.root.count octsSet := rfl
    rw [hG]
    have hidx8 : idx < 8 := growOctantIndex_lt dir
    have hcl : cells.length = 8 := by rw [hcells]; exact createOctants_length _ _
    have hidxlen : idx < cells.length := by omega
    have h2s : t.root.size * 2 / 2 = t.root.size := by ring
    have hsub0 : ∀ x ∈ cells.map subtreeOids, x = [] := by
      intro x hx
      obtain ⟨c2, hc2, rfl⟩ := List.mem_map.mp hx
      rw [hcells] at hc2
      obtain ⟨i2, hi2, rfl⟩ := mem_createOctants hc2
      simp
    have hcnt0 : ∀ x ∈ cells.map ONode.count, x = 0 := by
      intro x hx
      obtain ⟨c2, hc2, rfl⟩ := List.mem_map.mp hx
      rw [hcells] at hc2
      obtain ⟨i2, hi2, rfl⟩ := mem_createOctants hc2
      simp [octantCell]
    have hcellsOids : cellsOids octsSet = subtreeOids t.root := by
      rw [hoctsSet, cellsOids, List.map_set]
      exact flatten_set_allNil _ hsub0 idx _ (by simpa using hidxlen)
    have hcnts : ((octsSet).map ONode.count).sum = t.root.count := by
      rw [hoctsSet, List.map_set]
      exact sum_set_zero _ hcnt0 idx _ (by simpa using hidxlen)
    have hgets : ∀ (i2 : ℕ) (h2 : i2 < cells.length),
        cells.get ⟨i2, h2⟩ =
          octantCell nmin (t.root.size * 2) (t.root.depth - 1)
            (t.nextId + 1 + i2) i2 := by
      intro i2 h2
      have h3 : i2 < (base.createOctants (t.nextId + 1)).length := h2
      exact createOctants_get base (t.nextId + 1) i2 h3
    have hlenSet : octsSet.length = cells.length := by
      rw [hoctsSet]
      simp
    have hframes : ∀ (i2 : ℕ) (h1 : i2 < octsSet.length) (h2 : i2 < cells.length),
        (octsSet.get ⟨i2, h1⟩).min = (cells.get ⟨i2, h2⟩).min ∧
        (octsSet.get ⟨i2, h1⟩).size = (cells.get ⟨i2, h2⟩).size ∧
        (octsSet.get ⟨i2, h1⟩).depth = (cells.get ⟨i2, h2⟩).depth := by
      intro i2 h1 h2
      have hval : octsSet.get ⟨i2, h1⟩ =
          if idx = i2 then t.root else cells.get ⟨i2, h2⟩ := by
        simp only [hoctsSet, List.get_eq_getElem, List.getElem_set]
      by_cases hieq : idx = i2
      · rw [hval, if_pos hieq, hgets i2 h2]
        simp only [octantCell, ONode.min_mk, ONode.size_mk, ONode.depth_mk]
        refine ⟨?_, h2s.symm, by omega⟩
        rw [h2s, ← hieq]
        exact (grow_slot_matches t.root dir).symm
      · rw [hval, if_neg hieq]
        exact ⟨rfl, rfl, rfl⟩
    have hgeom : octsGeomB nmin (t.root.size * 2 / 2) (t.root.depth - 1)
        octsSet 0 = true := by
      rw [octsGeomB_congr hlenSet hframes]
      exact octsGeomB_createOctants base (t.nextId + 1)
    have hnidsPerm : (cellsNids octsSet ++ [t.nextId + 1 + idx]).Perm
        (allNids t.root ++ cellsNids cells) := by
      have hP := flatten_set_getPerm (cells.map allNids) idx
        (by simpa using hidxlen) (allNids t.root)
      have e1 : (cells.map allNids).get ⟨idx, by simpa using hidxlen⟩ =
          [t.nextId + 1 + idx] := by
        have hg2 := hgets idx hidxlen
        simp only [List.get_eq_getElem] at hg2 ⊢
        rw [List.getElem_map, hg2]
        simp
      rw [e1] at hP
      have e2 : ((cells.map allNids).set idx (allNids t.root)).flatten =
          cellsNids octsSet := by
        rw [hoctsSet, cellsNids, List.map_set]
      rw [e2] at hP
      exact hP
    have hfreshcells : ∀ x ∈ cellsNids cells,
        t.nextId + 1 ≤ x ∧ x < t.nextId + 9 := by
      intro x hx
      rw [hcells] at hx
      have := cellsNids_createOctants_mem hx
      omega
    have hRHSnodup : (allNids t.root ++ cellsNids cells).Nodup := by
      refine h.nnodup.append
        (by rw [hcells]; exact cellsNids_createOctants_nodup _ _) ?_
      intro x hx1 hx2
      have h1 := h.nlt x hx1
      have h2 := hfreshcells x hx2
      omega
    have hLHSnodup := hnidsPerm.nodup_iff.mpr hRHSnodup
    have hsetnodup : (cellsNids octsSet).Nodup :=
      (List.nodup_append.mp hLHSnodup).1
    have hsetmem : ∀ x ∈ cellsNids octsSet,
        x ∈ allNids t.root ∨ x ∈ cellsNids cells := by
      intro x hx
      have hx2 : x ∈ allNids t.root ++ cellsNids cells :=
        hnidsPerm.subset (List.mem_append_left _ hx)
      exact List.mem_append.mp hx2
    have hmgin : MGIn (ONode.mk t.nextId nmin (t.root.size * 2)
        (t.root.depth - 1) [] t.root.count octsSet) t.objectToNode :=
      { counts := by
          show t.root.count =
            ((([] : List Obj).length : ℕ) : ℤ) + ((octsSet).map ONode.count).sum
          rw [hcnts]
          simp
        dple := by
          show t.root.depth - 1 ≤ MAX_DEPTH
          omega
        onodup := by
          rw [subtreeOids_mk']
          simp only [List.map_nil, List.nil_append]
          rw [hcellsOids]
          exact h.onodup
        nnodup := by
          rw [allNids_mk]
          refine List.nodup_cons.mpr ⟨?_, hsetnodup⟩
          intro hmem
          rcases hsetmem _ hmem with h1 | h2
          · have := h.nlt _ h1
            omega
          · have := hfreshcells _ h2
            omega
        childWF := by
          intro ch hch
          show nodeWFb ch = true
          have hch2 : ch ∈ cells.set idx t.root := hch
          rcases List.mem_or_eq_of_mem_set hch2 with h1 | h2
          · rw [hcells] at h1
            obtain ⟨i2, hi2, rfl⟩ := mem_createOctants h1
            refine nodeWFb_octantCell ?_
            show t.root.depth - 1 + 1 ≤ MAX_DEPTH
            omega
          · subst h2
            exact h.wf
        leafBound := by
          intro he
          have he2 : octsSet = [] := he
          have hl8 : octsSet.length = cells.length := hlenSet
          rw [he2] at hl8
          simp [hcl] at hl8
        octsShape := by
          intro _
          constructor
          · show octsSet.length = 8
            rw [hlenSet, hcl]
          · exact hgeom
        sync := by
          intro nd hnd ob hob
          rcases (mem_allNodes_iff _ nd).mp hnd with rfl | ⟨ch, hch, hnd2⟩
          · simp at hob
          · have hch2 : ch ∈ cells.set idx t.root := hch
            rcases List.mem_or_eq_of_mem_set hch2 with h1 | h2
            · rw [hcells] at h1
              obtain ⟨i2, hi2, rfl⟩ := mem_createOctants h1
              rw [allNodes_octantCell, List.mem_singleton] at hnd2
              subst hnd2
              simp [octantCell] at hob
            · subst h2
              exact h.sync nd hnd2 ob hob
        knodup := h.knodup }
    have hmg := merge_spec hmgin
    have hGoids : subtreeOids (ONode.mk t.nextId nmin (t.root.size * 2)
        (t.root.depth - 1) [] t.root.count octsSet) = subtreeOids t.root := by
      rw [subtreeOids_mk']
      simp only [List.map_nil, List.nil_append]
      exact hcellsOids
    have hGnids : allNids (ONode.mk t.nextId nmin (t.root.size * 2)
        (t.root.depth - 1) [] t.root.count octsSet) =
        t.nextId :: cellsNids octsSet := by
      rw [allNids_mk]
    refine
      { twf := ?_
        size := by
          show _ = t.root.size * 2
          rw [hmg.fsize]
          rfl
        depth := by
          show _ = t.root.depth - 1
          rw [hmg.fdepth]
          rfl
        count := by
          show _ = t.root.count
          rw [hmg.fcount]
          rfl
        oids := by
          refine hmg.oids.trans ?_
          rw [hGoids]
        mkeys := hmg.mkeys
        nmono := by
          show t.nextId ≤ t.nextId + 9
          omega
        count0 := fun h0 => absurd h0 (by omega) }
    refine
      { wf := hmg.wf
        dge := by
          show MIN_DEPTH ≤ _
          rw [hmg.fdepth]
          show MIN_DEPTH ≤ t.root.depth - 1
          omega
        onodup := (hmg.oids.nodup_iff).mpr (by rw [hGoids]; exact h.onodup)
        nnodup := hmg.nidsSub.nodup (by
          rw [hGnids]
          refine List.nodup_cons.mpr ⟨?_, hsetnodup⟩
          intro hmem
          rcases hsetmem _ hmem with h1 | h2
          · have := h.nlt _ h1
            omega
          · have := hfreshcells _ h2
            omega)
        nlt := by
          intro x hx
          have hx2 := hmg.nidsSub.mem hx
          rw [hGnids] at hx2
          show x < t.nextId + 9
          rcases List.mem_cons.mp hx2 with rfl | h2
          · omega
          · rcases hsetmem _ h2 with h3 | h4
            · have := h.nlt _ h3
              omega
            · have := hfreshcells _ h4
              omega
        knodup := hmg.knodup
        sync := hmg.msync
        keysOwned := by
          intro k hk
          have hk2 := (hmg.mkeys k).mp (by simpa using hk)
          have hk3 := h.keysOwned k (by simpa using hk2)
          have hk4 : k ∈ subtreeOids (ONode.mk t.nextId nmin (t.root.size * 2)
              (t.root.depth - 1) [] t.root.count octsSet) := by
            rw [hGoids]
            exact hk3
          exact hmg.oids.symm.subset hk4 }
  · rw [if_neg hc]
    have h0 : t.root.count = 0 := by
      have := countsOkB_nonneg (nodeWFb_countsOkB h.wf)
      omega
    have hzero : subtreeOids t.root = [] :=
      countsOkB_zero_empty (nodeWFb_countsOkB h.wf) h0
    refine
      { twf := ?_
        size := by simp
        depth := by simp
        count := by simp [h0]
        oids := by
          rw [hzero]
          show (subtreeOids (ONode.mk _ _ _ _ [] 0 [])).Perm []
          rw [subtreeOids_mk']
          simp
        mkeys := fun _ => Iff.rfl
        nmono := by show t.nextId ≤ t.nextId + 1; omega
        count0 := fun _ => ⟨rfl, rfl, rfl⟩ }
    refine
      { wf := by
          rw [nodeWFb_mk_iff]
          refine ⟨by simp, by show t.root.depth - 1 ≤ MAX_DEPTH; omega,
            fun _ => Or.inl (by simp), fun habs => absurd rfl habs⟩
        dge := by
          show MIN_DEPTH ≤ t.root.depth - 1
          omega
        onodup := by
          rw [subtreeOids_mk']
          simp
        nnodup := by
          rw [allNids_mk]
          simp
        nlt := by
          intro x hx
          rw [allNids_mk] at hx
          simp only [cellsNids_nil, List.mem_singleton] at hx
          subst hx
          show t.nextId < t.nextId + 1
          omega
        knodup := h.knodup
        sync := by
          intro nd hnd ob hob
          rw [allNodes_mk] at hnd
          simp only [List.map_nil, List.flatten_nil, List.mem_singleton] at hnd
          subst hnd
          simp at hob
        keysOwned := by
          intro k hk
          have hko := h.keysOwned k hk
          rw [hzero] at hko
          simp at hko }

/-! ## `growToFit` and `shrink` specifications -/

/-- What the grow loop at the head of `Octree.insert` guarantees. -/
structure GFOut (t : Octree) (o : Obj) (r : Octree × Bool) : Prop where
  twf : TreeWF r.1
  oids : (subtreeOids r.1.root).Perm (subtreeOids t.root)
  mkeys : ∀ k, (mapGet r.1.objectToNode k).isSome ↔
    (mapGet t.objectToNode k).isSome
  nmono : t.nextId ≤ r.1.nextId
  count : r.1.root.count = t.root.count
  fit : r.2 = true →
    (r.1.root.largerThan o && r.1.root.containsCenter o) = true
  fail : r.2 = false → r.1.root.depth = MIN_DEPTH ∧
    (r.1.root.largerThan o && r.1.root.containsCenter o) = false

theorem growToFit_eq (fuel : ℕ) (t : Octree) (o : Obj) :
    growToFit fuel t o =
      if t.root.largerThan o && t.root.containsCenter o then (t, true)
      else if t.root.depth = MIN_DEPTH then (t, false)
      else match fuel with
        | 0 => (t, false)
        | f + 1 => growToFit f (t.grow o) o := by
  conv_lhs => rw [growToFit.eq_def]

theorem growToFit_spec (o : Obj) : ∀ (fuel : ℕ) (t : Octree), TreeWF t →
    (t.root.depth - MIN_DEPTH).toNat ≤ fuel →
    GFOut t o (growToFit fuel t o) := by
  intro fuel
  induction fuel with
  | zero =>
    intro t h hf
    have hdepth : t.root.depth = MIN_DEPTH := by
      have := h.dge
      omega
    rw [growToFit_eq]
    by_cases hfit : (t.root.largerThan o && t.root.containsCenter o) = true
    · rw [if_pos hfit]
      exact
        { twf := h
          oids := List.Perm.refl _
          mkeys := fun _ => Iff.rfl
          nmono := le_rfl
          count := rfl
          fit := fun _ => hfit
          fail := fun habs => by simp at habs }
    · rw [if_neg hfit, if_pos hdepth]
      exact
        { twf := h
          oids := List.Perm.refl _
          mkeys := fun _ => Iff.rfl
          nmono := le_rfl
          count := rfl
          fit := fun habs => by simp at habs
          fail := fun _ => ⟨hdepth, by simpa using hfit⟩ }
  | succ f ih =>
    intro t h hf
    rw [growToFit_eq]
    by_cases hfit : (t.root.largerThan o && t.root.containsCenter o) = true
    · rw [if_pos hfit]
      exact
        { twf := h
          oids := List.Perm.refl _
          mkeys := fun _ => Iff.rfl
          nmono := le_rfl
          count := rfl
          fit := fun _ => hfit
          fail := fun habs => by simp at habs }
    · rw [if_neg hfit]
      by_cases hdep : t.root.depth = MIN_DEPTH
      · rw [if_pos hdep]
        exact
          { twf := h
            oids := List.Perm.refl _
            mkeys := fun _ => Iff.rfl
            nmono := le_rfl
            count := rfl
            fit := fun habs => by simp at habs
            fail := fun _ => ⟨hdep, by simpa using hfit⟩ }
      · rw [if_neg hdep]
        show GFOut t o (growToFit f (t.grow o) o)
        have hmin : MIN_DEPTH < t.root.depth := lt_of_le_of_ne h.dge (Ne.symm hdep)
        have hgrow := grow_spec o h hmin
        have hfuel2 : ((t.grow o).root.depth - MIN_DEPTH).toNat ≤ f := by
          rw [hgrow.depth]
          omega
        have hrec := ih (t.grow o) hgrow.twf hfuel2
        exact
          { twf := hrec.twf
            oids := hrec.oids.trans hgrow.oids
            mkeys := fun k => (hrec.mkeys k).trans (hgrow.mkeys k)
            nmono := le_trans hgrow.nmono hrec.nmono
            count := hrec.count.trans hgrow.count
            fit := hrec.fit
            fail := hrec.fail }

/-- A node whose subtree holds at most 8 objects has no octants. -/
theorem nodeWFb_count_le8_leaf {n : ONode} (h : nodeWFb n = true)
    (hc : n.count ≤ 8) : n.octants = [] := by
  cases n with
  | mk i m s d objs c octs =>
    rw [nodeWFb_mk_iff] at h
    by_contra hne
    have := (h.2.2.2 hne).2.1
    have hc2 : c ≤ 8 := hc
    omega

theorem findLoneOctant_some_acc : ∀ {tl : List ONode} {a c : ONode},
    findLoneOctant tl (some a) = some (some c) →
    c = a ∧ ∀ d ∈ tl, ¬ 0 < d.count := by
  intro tl
  induction tl with
  | nil =>
    intro a c h
    unfold findLoneOctant at h
    exact ⟨(Option.some_inj.mp (Option.some_inj.mp h)).symm,
      fun d hd => absurd hd (List.not_mem_nil d)⟩
  | cons hd tl ih =>
    intro a c h
    unfold findLoneOctant at h
    by_cases hc : 0 < hd.count
    · rw [if_pos hc] at h
      simp at h
    · rw [if_neg hc] at h
      obtain ⟨h1, h2⟩ := ih h
      refine ⟨h1, ?_⟩
      intro d hd2
      rcases List.mem_cons.mp hd2 with rfl | hm
      · exact hc
      · exact h2 d hm

theorem findLoneOctant_unique :
    ∀ {octs : List ONode} {c : ONode},
    findLoneOctant octs none = some (some c) →
    (∀ d ∈ octs, 0 < d.count → d = c) ∧ c ∈ octs ∧ 0 < c.count := by
  intro octs
  induction octs with
  | nil =>
    intro c h
    unfold findLoneOctant at h
    simp at h
  | cons hd tl ih =>
    intro c h
    unfold findLoneOctant at h
    by_cases hc : 0 < hd.count
    · rw [if_pos hc] at h
      obtain ⟨hca, hnone⟩ := findLoneOctant_some_acc h
      subst hca
      refine ⟨?_, List.mem_cons_self _ _, hc⟩
      intro d hdm hdc
      rcases List.mem_cons.mp hdm with rfl | hm2
      · rfl
      · exact absurd hdc (hnone d hm2)
    · rw [if_neg hc] at h
      obtain ⟨h1, h2, h3⟩ := ih h
      refine ⟨?_, List.mem_cons_of_mem _ h2, h3⟩
      intro d hdm hdc
      rcases List.mem_cons.mp hdm with rfl | hm2
      · exact absurd hdc hc
      · exact h1 d hm2 hdc

theorem shrink_eq (t : Octree) :
    t.shrink =
      if t.root.size < DEFAULT_ROOT_NODE_SIZE ∨ ¬ t.root.objects = [] then t
      else if t.root.count = 0 then
        ⟨.mk t.root.nid ⟨0, 0, 0⟩ DEFAULT_ROOT_NODE_SIZE 0 t.root.objects
          t.root.count t.root.octants, t.objectToNode, t.nextId⟩
      else if t.root.octants.isEmpty then t
      else
        match findLoneOctant t.root.octants none with
        | some (some c) => Octree.shrink ⟨c, t.objectToNode, t.nextId⟩
        | some none => t
        | none => t := by
  conv_lhs => rw [Octree.shrink.eq_def]
  cases hfl : findLoneOctant t.root.octants none with
  | none => rfl
  | some oc =>
    cases oc with
    | none => rfl
    | some c => rfl

/-- What `shrink` guarantees. -/
structure ShrinkOut (t t2 : Octree) : Prop where
  twf : TreeWF t2
  map : t2.objectToNode = t.objectToNode
  nid2 : t2.nextId = t.nextId
  count : t2.root.count = t.root.count
  oids : (subtreeOids t2.root).Perm (subtreeOids t.root)

theorem shrinkOut_refl {t : Octree} (h : TreeWF t) : ShrinkOut t t :=
  { twf := h
    map := rfl
    nid2 := rfl
    count := rfl
    oids := List.Perm.refl _ }

theorem shrink_spec : ∀ (t : Octree), TreeWF t → ShrinkOut t t.shrink := by
  have H : ∀ (k : ℕ) (t : Octree), sizeOf t.root ≤ k → TreeWF t →
      ShrinkOut t t.shrink := by
    intro k
    induction k with
    | zero =>
      intro t hk h
      -- a node's size is always positive, so this case is vacuous at the
      -- recursive call; the non-recursive branches are all identical to succ
      rw [shrink_eq]
      by_cases h1 : t.root.size < DEFAULT_ROOT_NODE_SIZE ∨ ¬ t.root.objects = []
      · rw [if_pos h1]
        exact shrinkOut_refl h
      · rw [if_neg h1]
        exfalso
        cases hroot : t.root with
        | mk i m s d objs c octs =>
          rw [hroot] at hk
          simp only [ONode.mk.sizeOf_spec] at hk
          omega
    | succ k ihk =>
      intro t hk h
      rw [shrink_eq]
      by_cases h1 : t.root.size < DEFAULT_ROOT_NODE_SIZE ∨ ¬ t.root.objects = []
      · rw [if_pos h1]
        exact shrinkOut_refl h
      · rw [if_neg h1]
        push_neg at h1
        obtain ⟨hsz, hobj⟩ := h1
        by_cases h2 : t.root.count = 0
        · rw [if_pos h2]
          have hzero : subtreeOids t.root = [] :=
            countsOkB_zero_empty (nodeWFb_countsOkB h.wf) h2
          have hocts : t.root.octants = [] :=
            nodeWFb_count_le8_leaf h.wf (by rw [h2]; norm_num)
          refine
            { twf := ?_
              map := rfl
              nid2 := rfl
              count := rfl
              oids := by
                show (subtreeOids (ONode.mk _ _ _ _ _ _ _)).Perm _
                rw [subtreeOids_mk', hobj, hocts, hzero]
                simp
              }
          refine
            { wf := by
                rw [nodeWFb_mk_iff]
                refine ⟨?_, by norm_num [MAX_DEPTH], ?_, ?_⟩
                · rw [hobj, hocts, h2]
                  simp
                · intro _
                  rw [hobj]
                  simp
                · intro hne
                  rw [hocts] at hne
                  exact absurd rfl hne
              dge := by
                show MIN_DEPTH ≤ (0 : ℤ)
                norm_num [MIN_DEPTH]
              onodup := by
                rw [subtreeOids_mk', hobj, hocts]
                simp
              nnodup := by
                rw [allNids_mk, hocts]
                simp
              nlt := by
                intro x hx
                rw [allNids_mk, hocts] at hx
                simp only [cellsNids_nil, List.mem_singleton] at hx
                subst hx
                exact h.nlt _ (by
                  rw [mem_allNids_iff]
                  exact ⟨t.root, mem_allNodes_self _, rfl⟩)
              knodup := h.knodup
              sync := by
                intro nd hnd ob hob
                rw [allNodes_mk, hocts] at hnd
                simp only [List.map_nil, List.flatten_nil, List.mem_singleton] at hnd
                subst hnd
                rw [ONode.objects_mk, hobj] at hob
                simp at hob
              keysOwned := by
                intro kk hkk
                have := h.keysOwned kk hkk
                rw [hzero] at this
                simp at this }
        · rw [if_neg h2]
          by_cases h3 : t.root.octants.isEmpty = true
          · rw [if_pos h3]
            exact shrinkOut_refl h
          · rw [if_neg h3]
            cases hfl : findLoneOctant t.root.octants none with
            | none => exact shrinkOut_refl h
            | some oc =>
              cases oc with
              | none => exact shrinkOut_refl h
              | some c =>
                obtain ⟨huniq, hcmem, hcpos⟩ := findLoneOctant_unique hfl
                have hchildWF := nodeWFb_children h.wf
                have hcok : ∀ d ∈ t.root.octants, countsOkB d = true :=
                  fun d hd => nodeWFb_countsOkB (hchildWF d hd)
                have hczero : ∀ d ∈ t.root.octants, d ≠ c → subtreeOids d = [] := by
                  intro d hd hne
                  refine countsOkB_zero_empty (hcok d hd) ?_
                  have hnn := countsOkB_nonneg (hcok d hd)
                  by_contra hne2
                  exact hne (huniq d hd (by omega))
                have hSoids : subtreeOids t.root = cellsOids t.root.octants := by
                  rw [subtreeOids_eq, hobj]
                  simp only [List.map_nil, List.nil_append]
                  rfl
                have hnodupS : (cellsOids t.root.octants).Nodup := by
                  rw [← hSoids]
                  exact h.onodup
                have hmemS : ∀ x ∈ cellsOids t.root.octants, x ∈ subtreeOids c := by
                  intro x hx
                  rw [cellsOids] at hx
                  obtain ⟨l, hl, hxl⟩ := List.mem_flatten.mp hx
                  obtain ⟨d, hd, rfl⟩ := List.mem_map.mp hl
                  by_cases hdc : d = c
                  · exact hdc ▸ hxl
                  · rw [hczero d hd hdc] at hxl
                    simp at hxl
                have hpermS : (subtreeOids c).Perm (cellsOids t.root.octants) := by
                  refine List.Subperm.antisymm ?_ ?_
                  · exact (subtree_sublist_cellsOids hcmem).subperm
                  · exact hnodupS.subperm hmemS
                have hcdepth : c.depth = t.root.depth + 1 := by
                  cases hroot : t.root with
                  | mk i m s d objs cnt octs =>
                    have hwfr := h.wf
                    rw [hroot, nodeWFb_mk_iff] at hwfr
                    have hgeo := (hwfr.2.2.2 (by
                      intro he
                      rw [hroot] at h3
                      simp [he] at h3)).2.2.1
                    have hcm : c ∈ octs := by rw [hroot] at hcmem; exact hcmem
                    exact octsGeomB_depth_mem hgeo hcm
                have htwfc : TreeWF ⟨c, t.objectToNode, t.nextId⟩ :=
                  { wf := hchildWF c hcmem
                    dge := by
                      show MIN_DEPTH ≤ c.depth
                      rw [hcdepth]
                      have := h.dge
                      omega
                    onodup := h.onodup.sublist (by
                      rw [hSoids]
                      exact subtree_sublist_cellsOids hcmem)
                    nnodup := h.nnodup.sublist (allNids_child_sublist hcmem)
                    nlt := fun x hx => h.nlt x ((allNids_child_sublist hcmem).mem hx)
                    knodup := h.knodup
                    sync := fun nd hnd ob hob =>
                      h.sync nd (mem_allNodes_child hcmem hnd) ob hob
                    keysOwned := by
                      intro kk hkk
                      have hko := h.keysOwned kk hkk
                      rw [hSoids] at hko
                      exact hmemS kk hko }
                have hsz2 : sizeOf c ≤ k := by
                  have := ONode.sizeOf_mem_octants hcmem
                  omega
                have hrec := ihk ⟨c, t.objectToNode, t.nextId⟩ hsz2 htwfc
                have hcounts : c.count = t.root.count := by
                  have h1 := countsOkB_count_eq (nodeWFb_countsOkB h.wf)
                  have h2c := countsOkB_count_eq (hcok c hcmem)
                  rw [h1, h2c]
                  have := hpermS.length_eq
                  rw [hSoids]
                  exact_mod_cast this
                exact
                  { twf := hrec.twf
                    map := hrec.map
                    nid2 := hrec.nid2
                    count := by
                      rw [hrec.count]
                      exact hcounts
                    oids := by
                      refine hrec.oids.trans ?_
                      rw [hSoids]
                      exact hpermS }
  exact fun t h => H (sizeOf t.root) t le_rfl h

/-- `shrink` is the identity when the root still stores objects directly. -/
theorem shrink_objects_ne {t : Octree} (h : t.root.objects ≠ []) :
    t.shrink = t := by
  rw [shrink_eq, if_pos (Or.inr h)]

/-! ## Tree-level `insert` specification -/

theorem insert_eq (t : Octree) (o : Obj) :
    t.insert o =
      if (mapGet t.objectToNode o.oid).isSome then t
      else
        if (growToFit (t.root.depth - MIN_DEPTH).toNat t o).2 then
          if (growToFit (t.root.depth - MIN_DEPTH).toNat t o).1.root.count = 0 then
            (⟨(nodeIns splitFuel
                  (growToFit (t.root.depth - MIN_DEPTH).toNat t o).1.root o
                  ⟨(growToFit (t.root.depth - MIN_DEPTH).toNat t o).1.nextId,
                   (growToFit (t.root.depth - MIN_DEPTH).toNat t o).1.objectToNode⟩).1,
              (nodeIns splitFuel
                  (growToFit (t.root.depth - MIN_DEPTH).toNat t o).1.root o
                  ⟨(growToFit (t.root.depth - MIN_DEPTH).toNat t o).1.nextId,
                   (growToFit (t.root.depth - MIN_DEPTH).toNat t o).1.objectToNode⟩).2.otn,
              (nodeIns splitFuel
                  (growToFit (t.root.depth - MIN_DEPTH).toNat t o).1.root o
                  ⟨(growToFit (t.root.depth - MIN_DEPTH).toNat t o).1.nextId,
                   (growToFit (t.root.depth - MIN_DEPTH).toNat t o).1.objectToNode⟩).2.nextId⟩ :
              Octree).shrink
          else
            ⟨(nodeIns splitFuel
                  (growToFit (t.root.depth - MIN_DEPTH).toNat t o).1.root o
                  ⟨(growToFit (t.root.depth - MIN_DEPTH).toNat t o).1.nextId,
                   (growToFit (t.root.depth - MIN_DEPTH).toNat t o).1.objectToNode⟩).1,
              (nodeIns splitFuel
                  (growToFit (t.root.depth - MIN_DEPTH).toNat t o).1.root o
                  ⟨(growToFit (t.root.depth - MIN_DEPTH).toNat t o).1.nextId,
                   (growToFit (t.root.depth - MIN_DEPTH).toNat t o).1.objectToNode⟩).2.otn,
              (nodeIns splitFuel
                  (growToFit (t.root.depth - MIN_DEPTH).toNat t o).1.root o
                  ⟨(growToFit (t.root.depth - MIN_DEPTH).toNat t o).1.nextId,
                   (growToFit (t.root.depth - MIN_DEPTH).toNat t o).1.objectToNode⟩).2.nextId⟩
        else (growToFit (t.root.depth - MIN_DEPTH).toNat t o).1 := rfl

/-- Inserting into an empty leaf stores the object directly. -/
theorem nodeIns_empty_leaf_objects (fuel : ℕ) (i m s d o st) :
    ((nodeIns fuel (.mk i m s d [] 0 []) o st).1).objects = [o] := by
  rw [nodeIns_leaf]
  have haddObj : addObj [] o = [o] := rfl
  rw [haddObj]
  cases fuel with
  | zero => rw [nodeSplit_zero]; rfl
  | succ f =>
    rw [nodeSplit_succ, if_pos (Or.inl (by norm_num))]
    rfl

/-- Every requirement of `InsIn` holds at a well-formed tree for an untracked
object. -/
theorem insIn_of_treeWF {t : Octree} {o : Obj} (h : TreeWF t)
    (hu : (mapGet t.objectToNode o.oid).isSome = false) :
    InsIn t.root o ⟨t.nextId, t.objectToNode⟩ :=
  { wf := h.wf
    onodup := h.onodup
    fresh := by
      intro hmem
      obtain ⟨nd, hnd, ob, hob, hoid⟩ := (mem_subtreeOids_iff _ _).mp hmem
      have := h.sync nd hnd ob hob
      rw [hoid] at this
      rw [this] at hu
      simp at hu
    nnodup := h.nnodup
    nlt := h.nlt
    sync := h.sync
    knodup := h.knodup }

theorem insert_spec {t : Octree} (o : Obj) (h : TreeWF t) :
    TreeWF (t.insert o) ∧
    ((mapGet t.objectToNode o.oid).isSome = true → t.insert o = t) ∧
    ((mapGet t.objectToNode o.oid).isSome = false →
      ((growToFit (t.root.depth - MIN_DEPTH).toNat t o).2 = false →
        t.insert o = (growToFit (t.root.depth - MIN_DEPTH).toNat t o).1) ∧
      ((growToFit (t.root.depth - MIN_DEPTH).toNat t o).2 = true →
        (mapGet (t.insert o).objectToNode o.oid).isSome = true ∧
        (t.insert o).root.min =
          (growToFit (t.root.depth - MIN_DEPTH).toNat t o).1.root.min ∧
        (t.insert o).root.size =
          (growToFit (t.root.depth - MIN_DEPTH).toNat t o).1.root.size ∧
        (subtreeOids (t.insert o).root).Perm (o.oid :: subtreeOids t.root))) := by
  by_cases htr : (mapGet t.objectToNode o.oid).isSome = true
  · have he : t.insert o = t := by
      rw [insert_eq, if_pos htr]
    refine ⟨by rw [he]; exact h, fun _ => he, fun habs => absurd htr (by simp [habs])⟩
  · have hu : (mapGet t.objectToNode o.oid).isSome = false := by
      simpa using htr
    have hgf := growToFit_spec o ((t.root.depth - MIN_DEPTH).toNat) t h le_rfl
    by_cases hsucc : (growToFit (t.root.depth - MIN_DEPTH).toNat t o).2 = true
    · -- successful growth: the object is inserted at the grown root
      have hu2 : (mapGet (growToFit (t.root.depth - MIN_DEPTH).toNat t
          o).1.objectToNode o.oid).isSome = false := by
        rw [← Bool.not_eq_true]
        intro habs
        rw [(hgf.mkeys o.oid).mp habs] at hu
        simp at hu
      have hinsIn := insIn_of_treeWF hgf.twf hu2
      have hfuel : MAX_DEPTH -
          (growToFit (t.root.depth - MIN_DEPTH).toNat t o).1.root.depth ≤
          ((splitFuel : ℕ) : ℤ) := by
        have h1 := hgf.twf.dge
        show _ ≤ ((41 : ℕ) : ℤ)
        push_cast
        have h2 : MIN_DEPTH = -32 := rfl
        have h3 : MAX_DEPTH = 8 := rfl
        omega
      have hout := (insSplit_spec splitFuel).1
        (growToFit (t.root.depth - MIN_DEPTH).toNat t o).1.root o
        ⟨(growToFit (t.root.depth - MIN_DEPTH).toNat t o).1.nextId,
         (growToFit (t.root.depth - MIN_DEPTH).toNat t o).1.objectToNode⟩
        hinsIn hfuel
      set g := growToFit (t.root.depth - MIN_DEPTH).toNat t o with hgdef
      set r := nodeIns splitFuel g.1.root o ⟨g.1.nextId, g.1.objectToNode⟩
        with hrdef
      have hfresh : o.oid ∉ subtreeOids g.1.root := hinsIn.fresh
      have htwf2 : TreeWF ⟨r.1, r.2.otn, r.2.nextId⟩ :=
        { wf := hout.wf
          dge := by
            show MIN_DEPTH ≤ r.1.depth
            rw [hout.fdepth]
            exact hgf.twf.dge
          onodup := hout.oids.nodup_iff.mpr
            (List.nodup_cons.mpr ⟨hfresh, hgf.twf.onodup⟩)
          nnodup := hout.nnodup
          nlt := hout.nlt
          knodup := hout.knodup
          sync := hout.msync
          keysOwned := by
            intro k hk
            rcases (hout.mkeys k).mp hk with h1 | h2
            · have h3 := hgf.twf.keysOwned k h1
              exact hout.oids.symm.subset (List.mem_cons_of_mem _ h3)
            · subst h2
              exact hout.oids.symm.subset (List.mem_cons_self _ _) }
      have hres : t.insert o = ⟨r.1, r.2.otn, r.2.nextId⟩ := by
        rw [insert_eq, if_neg htr, if_pos hsucc]
        by_cases hc0 : g.1.root.count = 0
        · rw [if_pos hc0]
          refine shrink_objects_ne ?_
          show r.1.objects ≠ []
          have hocts0 : g.1.root.octants = [] :=
            nodeWFb_count_le8_leaf hgf.twf.wf (by rw [hc0]; norm_num)
          have hobj0 : g.1.root.objects = [] := by
            have h1 := countsOkB_count_eq (nodeWFb_countsOkB hgf.twf.wf)
            rw [hc0] at h1
            have h2 : subtreeOids g.1.root = [] :=
              countsOkB_zero_empty (nodeWFb_countsOkB hgf.twf.wf) hc0
            cases hroot : g.1.root with
            | mk i2 m2 s2 d2 objs2 c2 octs2 =>
              rw [hroot] at h2
              rw [subtreeOids_mk'] at h2
              have h3 := List.append_eq_nil.mp h2
              show objs2 = []
              exact List.map_eq_nil_iff.mp h3.1
          have hrootform : g.1.root =
              ONode.mk g.1.root.nid g.1.root.min g.1.root.size g.1.root.depth
                [] 0 [] := by
            cases hroot : g.1.root with
            | mk i2 m2 s2 d2 objs2 c2 octs2 =>
              rw [hroot] at hobj0 hc0 hocts0
              simp only [ONode.objects_mk, ONode.count_mk, ONode.octants_mk]
                at hobj0 hc0 hocts0
              rw [hobj0, hc0, hocts0]
              rfl
          have : r.1.objects = [o] := by
            rw [hrdef, hrootform]
            exact nodeIns_empty_leaf_objects splitFuel _ _ _ _ _ _
          rw [this]
          simp
        · rw [if_neg hc0]
      rw [hres]
      refine ⟨htwf2, fun habs => absurd habs htr, fun _ => ⟨?_, ?_⟩⟩
      · intro habs
        rw [habs] at hsucc
        simp at hsucc
      · intro _
        refine ⟨?_, ?_, ?_, ?_⟩
        · show (mapGet r.2.otn o.oid).isSome = true
          rw [hout.mkeys o.oid]
          simp
        · show r.1.min = g.1.root.min
          exact hout.fmin
        · show r.1.size = g.1.root.size
          exact hout.fsize
        · show (subtreeOids r.1).Perm (o.oid :: subtreeOids t.root)
          refine hout.oids.trans ?_
          exact (hgf.oids).cons o.oid
    · -- growth failed: the tree after the failed growth loop is returned
      have hsucc2 : (growToFit (t.root.depth - MIN_DEPTH).toNat t o).2 = false := by
        simpa using hsucc
      have hres : t.insert o = (growToFit (t.root.depth - MIN_DEPTH).toNat t o).1 := by
        rw [insert_eq, if_neg htr, if_neg hsucc]
      refine ⟨hres ▸ hgf.twf, fun habs => absurd habs htr,
        fun _ => ⟨fun _ => hres, fun habs => absurd habs hsucc⟩⟩

/-! ## `OctreeNode.remove` (with ancestor clean-up) specification -/

theorem removeObjFrom_mk (i mn s d objs c octs tnid k m) :
    removeObjFrom (.mk i mn s d objs c octs) tnid k m =
      if i = tnid then
        mergeNode (.mk i mn s d (eraseObj objs k) (c - 1) octs) m
      else if octs.any (fun ch => hasNid ch tnid) then
        mergeNode (.mk i mn s d objs (c - 1) (removeInChildren octs tnid k m).1)
          (removeInChildren octs tnid k m).2
      else (.mk i mn s d objs c octs, m) := by
  conv_lhs => rw [removeObjFrom.eq_def]

theorem removeInChildren_nil (tnid k m) :
    removeInChildren [] tnid k m = ([], m) := by
  conv_lhs => rw [removeInChildren.eq_def]

theorem removeInChildren_cons (ch rest tnid k m) :
    removeInChildren (ch :: rest) tnid k m =
      if hasNid ch tnid then
        ((removeObjFrom ch tnid k m).1 :: rest, (removeObjFrom ch tnid k m).2)
      else
        (ch :: (removeInChildren rest tnid k m).1,
         (removeInChildren rest tnid k m).2) := by
  conv_lhs => rw [removeInChildren.eq_def]

/-- Preconditions of the removal walk at a subtree: the owner node (id `tnid`,
holding object id `k` directly) lies in this subtree. -/
structure RIn (n : ONode) (tnid k : ℕ) (m : OMap) : Prop where
  wf : nodeWFb n = true
  target : ∃ nd ∈ allNodes n, nd.nid = tnid ∧ k ∈ nd.objects.map Obj.oid
  onodup : (subtreeOids n).Nodup
  nnodup : (allNids n).Nodup
  sync : ∀ nd ∈ allNodes n, ∀ ob ∈ nd.objects, mapGet m ob.oid = some nd.nid
  knodup : (m.map Prod.fst).Nodup

/-- Postcondition of the removal walk. -/
structure ROut (n : ONode) (tnid k : ℕ) (m : OMap) (r : ONode × OMap) : Prop where
  wf : nodeWFb r.1 = true
  fnid : r.1.nid = n.nid
  fmin : r.1.min = n.min
  fsize : r.1.size = n.size
  fdepth : r.1.depth = n.depth
  count : r.1.count = n.count - 1
  oids : (subtreeOids r.1).Perm ((subtreeOids n).erase k)
  nidsSub : (allNids r.1).Sublist (allNids n)
  msync : ∀ nd ∈ allNodes r.1, ∀ ob ∈ nd.objects, mapGet r.2 ob.oid = some nd.nid
  mframe : ∀ k2, k2 ∉ subtreeOids n → mapGet r.2 k2 = mapGet m k2
  mkeys : ∀ k2, (mapGet r.2 k2).isSome ↔ (mapGet m k2).isSome
  knodup : (r.2.map Prod.fst).Nodup

/-- Preconditions of the child-descent loop. -/
structure RCIn (octs : List ONode) (tnid k : ℕ) (m : OMap) : Prop where
  wfs : ∀ c ∈ octs, nodeWFb c = true
  target : ∃ ch ∈ octs, ∃ nd ∈ allNodes ch, nd.nid = tnid ∧
    k ∈ nd.objects.map Obj.oid
  onodup : (cellsOids octs).Nodup
  nnodup : (cellsNids octs).Nodup
  sync : ∀ ch ∈ octs, ∀ nd ∈ allNodes ch, ∀ ob ∈ nd.objects,
    mapGet m ob.oid = some nd.nid
  knodup : (m.map Prod.fst).Nodup

/-- Postcondition of the child-descent loop. -/
structure RCOut (octs : List ONode) (tnid k : ℕ) (m : OMap)
    (r : List ONode × OMap) : Prop where
  len : r.1.length = octs.length
  frame : ∀ i (h1 : i < r.1.length) (h2 : i < octs.length),
    (r.1.get ⟨i, h1⟩).nid = (octs.get ⟨i, h2⟩).nid ∧
    (r.1.get ⟨i, h1⟩).min = (octs.get ⟨i, h2⟩).min ∧
    (r.1.get ⟨i, h1⟩).size = (octs.get ⟨i, h2⟩).size ∧
    (r.1.get ⟨i, h1⟩).depth = (octs.get ⟨i, h2⟩).depth
  wfs : ∀ c ∈ r.1, nodeWFb c = true
  csum : (r.1.map ONode.count).sum = (octs.map ONode.count).sum - 1
  oids : (cellsOids r.1).Perm ((cellsOids octs).erase k)
  nidsSubl : (cellsNids r.1).Sublist (cellsNids octs)
  msync : ∀ ch ∈ r.1, ∀ nd ∈ allNodes ch, ∀ ob ∈ nd.objects,
    mapGet r.2 ob.oid = some nd.nid
  mframe : ∀ k2, k2 ∉ cellsOids octs → mapGet r.2 k2 = mapGet m k2
  mkeys : ∀ k2, (mapGet r.2 k2).isSome ↔ (mapGet m k2).isSome
  knodup : (r.2.map Prod.fst).Nodup

theorem removeAll_spec : ∀ (sz : ℕ),
    (∀ (n : ONode), sizeOf n ≤ sz → ∀ (tnid k : ℕ) (m : OMap),
      RIn n tnid k m → ROut n tnid k m (removeObjFrom n tnid k m)) ∧
    (∀ (octs : List ONode), sizeOf octs ≤ sz → ∀ (tnid k : ℕ) (m : OMap),
      RCIn octs tnid k m → RCOut octs tnid k m (removeInChildren octs tnid k m)) := by
  intro sz
  induction sz with
  | zero =>
    constructor
    · intro n hn
      exfalso
      cases n with
      | mk i mn s d objs c octs =>
        simp only [ONode.mk.sizeOf_spec] at hn
        omega
    · intro octs hn tnid k m hin
      cases octs with
      | nil =>
        exfalso
        obtain ⟨ch, hch, _⟩ := hin.target
        exact List.not_mem_nil ch hch
      | cons ch rest =>
        exfalso
        simp only [List.cons.sizeOf_spec] at hn
        omega
  | succ sz ihsz =>
    constructor
    · -- removeObjFrom
      intro n hn tnid k m hin
      cases n with
      | mk i mn s d objs c octs =>
        rw [removeObjFrom_mk]
        have hwf := hin.wf
        rw [nodeWFb_mk_iff] at hwf
        by_cases hown : i = tnid
        · rw [if_pos hown]
          -- the owner is this node (node ids are unique)
          have htargethere : k ∈ objs.map Obj.oid := by
            obtain ⟨nd, hnd, hnid, hk⟩ := hin.target
            rcases (mem_allNodes_iff _ nd).mp hnd with rfl | ⟨ch, hch, hnd2⟩
            · exact hk
            · exfalso
              have h1 : tnid ∈ cellsNids octs := by
                have : nd.nid ∈ allNids ch := by
                  rw [mem_allNids_iff]
                  exact ⟨nd, hnd2, rfl⟩
                rw [hnid] at this
                exact (allNids_sublist_cellsNids hch).mem this
              have h2 := hin.nnodup
              rw [allNids_mk, List.nodup_cons] at h2
              exact h2.1 (hown ▸ h1)
          have honodup := hin.onodup
          rw [subtreeOids_mk'] at honodup
          have hdisj := List.disjoint_of_nodup_append honodup
          have hoidsnd : (objs.map Obj.oid).Nodup := (List.nodup_append.mp honodup).1
          have herase : (eraseObj objs k).map Obj.oid = (objs.map Obj.oid).erase k := by
            rw [eraseObj_map_oid, hoidsnd.erase_eq_filter]
            apply List.filter_congr
            intro a _
            by_cases hak : a = k <;> simp [hak]
          have herlen : ((eraseObj objs k).map Obj.oid).length + 1 =
              (objs.map Obj.oid).length := by
            rw [herase]
            rw [List.length_erase_of_mem htargethere]
            have := List.length_pos_of_mem htargethere
            omega
          have hmgin : MGIn (ONode.mk i mn s d (eraseObj objs k) (c - 1) octs) m :=
            { counts := by
                show c - 1 = ((eraseObj objs k).length : ℤ) +
                  ((octs.map ONode.count).sum)
                have h1 := hwf.1
                have h2 : (eraseObj objs k).length + 1 = objs.length := by
                  have := herlen
                  simpa using this
                omega
              dple := hwf.2.1
              onodup := by
                rw [subtreeOids_mk', herase]
                refine List.Nodup.append ((List.nodup_append.mp honodup).1.erase k)
                  (List.nodup_append.mp honodup).2.1 ?_
                intro a ha1 ha2
                exact hdisj ((List.erase_sublist _ _).mem ha1) ha2
              nnodup := by
                rw [allNids_mk]
                have h2 := hin.nnodup
                rw [allNids_mk] at h2
                exact h2
              childWF := fun ch hch =>
                nodeWFb_children hin.wf ch (by simpa using hch)
              leafBound := by
                intro he
                have hlb := hwf.2.2.1 he
                have h2 : (eraseObj objs k).length + 1 = objs.length := by
                  simpa using herlen
                rcases hlb with h3 | h3
                · refine Or.inl ?_
                  show (eraseObj objs k).length ≤ 8
                  omega
                · exact Or.inr h3
              octsShape := fun hne =>
                ⟨(hwf.2.2.2 hne).1, (hwf.2.2.2 hne).2.2.1⟩
              sync := by
                intro nd hnd ob hob
                rcases (mem_allNodes_iff _ nd).mp hnd with rfl | ⟨ch, hch, hnd2⟩
                · have hob2 : ob ∈ objs := by
                    have : ob ∈ eraseObj objs k := hob
                    exact (List.filter_sublist objs).mem this
                  exact hin.sync _ (mem_allNodes_self _) ob hob2
                · exact hin.sync nd
                    (mem_allNodes_child (by simpa using hch) hnd2) ob hob
              knodup := hin.knodup }
          have hmg := merge_spec hmgin
          refine
            { wf := hmg.wf
              fnid := hmg.fnid
              fmin := hmg.fmin
              fsize := hmg.fsize
              fdepth := hmg.fdepth
              count := hmg.fcount
              oids := ?_
              nidsSub := by
                have h2 := hmg.nidsSub
                rw [allNids_mk] at h2
                rw [allNids_mk]
                exact h2
              msync := hmg.msync
              mframe := ?_
              mkeys := hmg.mkeys
              knodup := hmg.knodup }
          · refine hmg.oids.trans ?_
            rw [subtreeOids_mk', subtreeOids_mk', herase]
            rw [List.erase_append_left _ htargethere]
          · intro k2 hk2
            refine hmg.mframe k2 ?_
            intro hmem
            rw [subtreeOids_mk'] at hmem hk2
            rw [herase] at hmem
            rcases List.mem_append.mp hmem with h1 | h2
            · exact hk2 (List.mem_append_left _ ((List.erase_sublist _ _).mem h1))
            · exact hk2 (List.mem_append_right _ h2)
        · rw [if_neg hown]
          have hdesc : ∃ ch ∈ octs, ∃ nd ∈ allNodes ch, nd.nid = tnid ∧
              k ∈ nd.objects.map Obj.oid := by
            obtain ⟨nd, hnd, hnid, hk⟩ := hin.target
            rcases (mem_allNodes_iff _ nd).mp hnd with rfl | ⟨ch, hch, hnd2⟩
            · exact absurd hnid hown
            · exact ⟨ch, by simpa using hch, nd, hnd2, hnid, hk⟩
          have hany : octs.any (fun ch => hasNid ch tnid) = true := by
            obtain ⟨ch, hch, nd, hnd, hnid, _⟩ := hdesc
            rw [List.any_eq_true]
            exact ⟨ch, hch, (hasNid_iff ch tnid).mpr ⟨nd, hnd, hnid⟩⟩
          rw [if_pos hany]
          have honodup := hin.onodup
          rw [subtreeOids_mk'] at honodup
          have hdisj := List.disjoint_of_nodup_append honodup
          have hnnodup := hin.nnodup
          rw [allNids_mk, List.nodup_cons] at hnnodup
          have hrcin : RCIn octs tnid k m :=
            { wfs := fun ch hch => nodeWFb_children hin.wf ch (by simpa using hch)
              target := hdesc
              onodup := (List.nodup_append.mp honodup).2.1
              nnodup := hnnodup.2
              sync := fun ch hch nd hnd ob hob =>
                hin.sync nd (mem_allNodes_child (by simpa using hch) hnd) ob hob
              knodup := hin.knodup }
          have hszo : sizeOf octs ≤ sz := by
            simp only [ONode.mk.sizeOf_spec] at hn
            omega
          have hrc := (ihsz).2 octs hszo tnid k m hrcin
          have hkincells : k ∈ cellsOids octs := by
            obtain ⟨ch, hch, nd, hnd, _, hk⟩ := hdesc
            obtain ⟨ob, hob, rfl⟩ := List.mem_map.mp hk
            exact (subtree_sublist_cellsOids hch).mem
              ((mem_subtreeOids_iff ch ob.oid).mpr ⟨nd, hnd, ob, hob, rfl⟩)
          have hknotobjs : k ∉ objs.map Obj.oid :=
            fun hk2 => hdisj hk2 hkincells
          have hoctsne : octs ≠ [] := by
            obtain ⟨ch, hch, _⟩ := hdesc
            exact fun he => List.not_mem_nil ch (he ▸ hch)
          have hsh := hwf.2.2.2 hoctsne
          have hmgin : MGIn (ONode.mk i mn s d objs (c - 1)
              (removeInChildren octs tnid k m).1)
              (removeInChildren octs tnid k m).2 :=
            { counts := by
                show c - 1 = (objs.length : ℤ) +
                  (((removeInChildren octs tnid k m).1.map ONode.count).sum)
                have h1 := hwf.1
                have h2 := hrc.csum
                omega
              dple := hwf.2.1
              onodup := by
                rw [subtreeOids_mk']
                refine List.Nodup.append (List.nodup_append.mp honodup).1
                  (hrc.oids.nodup_iff.mpr
                    ((List.nodup_append.mp honodup).2.1.erase k)) ?_
                intro a ha1 ha2
                have ha3 := hrc.oids.subset ha2
                exact hdisj ha1 ((List.erase_sublist _ _).mem ha3)
              nnodup := by
                rw [allNids_mk]
                refine List.nodup_cons.mpr ⟨?_, ?_⟩
                · intro hmem
                  exact hnnodup.1 (hrc.nidsSubl.mem hmem)
                · exact hnnodup.2.sublist hrc.nidsSubl
              childWF := fun ch hch => hrc.wfs ch (by simpa using hch)
              leafBound := by
                intro he
                exfalso
                have h1 : octs.length = 0 := by
                  rw [← hrc.len]
                  have he2 : (removeInChildren octs tnid k m).1 = [] := he
                  rw [he2]
                  rfl
                exact hoctsne (List.length_eq_zero.mp h1)
              octsShape := by
                intro _
                refine ⟨?_, ?_⟩
                · show (removeInChildren octs tnid k m).1.length = 8
                  rw [hrc.len]
                  exact hsh.1
                · show octsGeomB mn (s / 2) d
                    ((removeInChildren octs tnid k m).1) 0 = true
                  rw [octsGeomB_congr hrc.len (fun i2 h1 h2 => by
                    obtain ⟨_, a2, a3, a4⟩ := hrc.frame i2 h1 h2
                    exact ⟨a2, a3, a4⟩)]
                  exact hsh.2.2.1
              sync := by
                intro nd hnd ob hob
                rcases (mem_allNodes_iff _ nd).mp hnd with rfl | ⟨ch, hch, hnd2⟩
                · have hoid : ob.oid ∈ objs.map Obj.oid :=
                    List.mem_map.mpr ⟨ob, hob, rfl⟩
                  have hout : ob.oid ∉ cellsOids octs :=
                    fun hmem => hdisj hoid hmem
                  rw [hrc.mframe ob.oid hout]
                  exact hin.sync _ (mem_allNodes_self _) ob hob
                · exact hrc.msync ch (by simpa using hch) nd hnd2 ob hob
              knodup := hrc.knodup }
          have hmg := merge_spec hmgin
          refine
            { wf := hmg.wf
              fnid := hmg.fnid
              fmin := hmg.fmin
              fsize := hmg.fsize
              fdepth := hmg.fdepth
              count := hmg.fcount
              oids := ?_
              nidsSub := ?_
              msync := hmg.msync
              mframe := ?_
              mkeys := ?_
              knodup := hmg.knodup }
          · refine hmg.oids.trans ?_
            rw [subtreeOids_mk', subtreeOids_mk']
            rw [List.erase_append_right _ hknotobjs]
            exact hrc.oids.append_left (objs.map Obj.oid)
          · refine hmg.nidsSub.trans ?_
            rw [allNids_mk, allNids_mk]
            exact hrc.nidsSubl.cons₂ i
          · intro k2 hk2
            rw [subtreeOids_mk'] at hk2
            have hk3 : k2 ∉ objs.map Obj.oid :=
              fun hmem => hk2 (List.mem_append_left _ hmem)
            have hk4 : k2 ∉ cellsOids octs :=
              fun hmem => hk2 (List.mem_append_right _ hmem)
            have h5 := hmg.mframe k2 (by
              rw [subtreeOids_mk']
              intro hmem
              rcases List.mem_append.mp hmem with h6 | h7
              · exact hk3 h6
              · exact hk4 ((List.erase_sublist _ _).mem (hrc.oids.subset h7)))
            rw [h5]
            exact hrc.mframe k2 hk4
          · intro k2
            exact (hmg.mkeys k2).trans (hrc.mkeys k2)
    · -- removeInChildren
      intro octs hno tnid k m hin
      cases octs with
      | nil =>
        exfalso
        obtain ⟨ch, hch, _⟩ := hin.target
        exact List.not_mem_nil ch hch
      | cons ch rest =>
        rw [removeInChildren_cons]
        have hdisjO : (subtreeOids ch).Disjoint (cellsOids rest) := by
          have h1 := hin.onodup
          rw [cellsOids_cons] at h1
          exact List.disjoint_of_nodup_append h1
        have hdisjN : (allNids ch).Disjoint (cellsNids rest) := by
          have h1 := hin.nnodup
          rw [cellsNids_cons] at h1
          exact List.disjoint_of_nodup_append h1
        by_cases hhas : hasNid ch tnid = true
        · rw [if_pos hhas]
          have htin : ∃ nd ∈ allNodes ch, nd.nid = tnid ∧
              k ∈ nd.objects.map Obj.oid := by
            obtain ⟨ch2, hch2, nd, hnd, hnid, hk⟩ := hin.target
            rcases List.mem_cons.mp hch2 with rfl | hm2
            · exact ⟨nd, hnd, hnid, hk⟩
            · exfalso
              have h1 : tnid ∈ allNids ch := by
                obtain ⟨nd2, hnd2, hni2⟩ := (hasNid_iff ch tnid).mp hhas
                rw [mem_allNids_iff]
                exact ⟨nd2, hnd2, hni2⟩
              have h2 : tnid ∈ cellsNids rest := by
                have : nd.nid ∈ allNids ch2 := by
                  rw [mem_allNids_iff]
                  exact ⟨nd, hnd, rfl⟩
                rw [hnid] at this
                exact (allNids_sublist_cellsNids hm2).mem this
              exact hdisjN h1 h2
          have hkch : k ∈ subtreeOids ch := by
            obtain ⟨nd, hnd, _, hk⟩ := htin
            obtain ⟨ob, hob, rfl⟩ := List.mem_map.mp hk
            exact (mem_subtreeOids_iff ch ob.oid).mpr ⟨nd, hnd, ob, hob, rfl⟩
          have hrin : RIn ch tnid k m :=
            { wf := hin.wfs ch (List.mem_cons_self _ _)
              target := htin
              onodup := hin.onodup.sublist
                (subtree_sublist_cellsOids (List.mem_cons_self _ _))
              nnodup := hin.nnodup.sublist
                (allNids_sublist_cellsNids (List.mem_cons_self _ _))
              sync := hin.sync ch (List.mem_cons_self _ _)
              knodup := hin.knodup }
          have hszc : sizeOf ch ≤ sz := by
            simp only [List.cons.sizeOf_spec] at hno
            omega
          have hr := (ihsz).1 ch hszc tnid k m hrin
          refine
            { len := by simp
              frame := ?_
              wfs := ?_
              csum := by
                simp only [List.map_cons, List.sum_cons]
                rw [hr.count]
                ring
              oids := ?_
              nidsSubl := ?_
              msync := ?_
              mframe := ?_
              mkeys := hr.mkeys
              knodup := hr.knodup }
          · intro i2 h1 h2
            cases i2 with
            | zero =>
              simp only [List.get_eq_getElem, List.getElem_cons_zero]
              exact ⟨hr.fnid, hr.fmin, hr.fsize, hr.fdepth⟩
            | succ i3 =>
              exact ⟨rfl, rfl, rfl, rfl⟩
          · intro c2 hc2
            rcases List.mem_cons.mp hc2 with rfl | hm2
            · exact hr.wf
            · exact hin.wfs c2 (List.mem_cons_of_mem _ hm2)
          · rw [cellsOids_cons, cellsOids_cons]
            rw [List.erase_append_left _ hkch]
            exact hr.oids.append_right (cellsOids rest)
          · rw [cellsNids_cons, cellsNids_cons]
            exact hr.nidsSub.append (List.Sublist.refl _)
          · intro c2 hc2 nd hnd ob hob
            rcases List.mem_cons.mp hc2 with rfl | hm2
            · exact hr.msync nd hnd ob hob
            · refine sync_preserved_of_frame
                (hin.sync c2 (List.mem_cons_of_mem _ hm2)) ?_ nd hnd ob hob
              intro k2 hk2
              refine hr.mframe k2 ?_
              intro hmem
              exact hdisjO hmem ((subtree_sublist_cellsOids hm2).mem hk2)
          · intro k2 hk2
            rw [cellsOids_cons] at hk2
            exact hr.mframe k2 (fun hmem => hk2 (List.mem_append_left _ hmem))
        · rw [if_neg hhas]
          have htin : ∃ ch2 ∈ rest, ∃ nd ∈ allNodes ch2, nd.nid = tnid ∧
              k ∈ nd.objects.map Obj.oid := by
            obtain ⟨ch2, hch2, nd, hnd, hnid, hk⟩ := hin.target
            rcases List.mem_cons.mp hch2 with rfl | hm2
            · exfalso
              refine hhas ?_
              refine (hasNid_iff ch2 tnid).mpr ⟨nd, hnd, hnid⟩
            · exact ⟨ch2, hm2, nd, hnd, hnid, hk⟩
          have hrcin2 : RCIn rest tnid k m :=
            { wfs := fun c2 hc2 => hin.wfs c2 (List.mem_cons_of_mem _ hc2)
              target := htin
              onodup := hin.onodup.sublist
                (by rw [cellsOids_cons]; exact List.sublist_append_right _ _)
              nnodup := hin.nnodup.sublist
                (by rw [cellsNids_cons]; exact List.sublist_append_right _ _)
              sync := fun c2 hc2 => hin.sync c2 (List.mem_cons_of_mem _ hc2)
              knodup := hin.knodup }
          have hszr : sizeOf rest ≤ sz := by
            simp only [List.cons.sizeOf_spec] at hno
            omega
          have hrc := (ihsz).2 rest hszr tnid k m hrcin2
          have hkrest : k ∈ cellsOids rest := by
            obtain ⟨ch2, hch2, nd, hnd, _, hk⟩ := htin
            obtain ⟨ob, hob, rfl⟩ := List.mem_map.mp hk
            exact (subtree_sublist_cellsOids hch2).mem
              ((mem_subtreeOids_iff ch2 ob.oid).mpr ⟨nd, hnd, ob, hob, rfl⟩)
          have hkch : k ∉ subtreeOids ch := fun hmem => hdisjO hmem hkrest
          refine
            { len := by simp [hrc.len]
              frame := ?_
              wfs := ?_
              csum := by
                simp only [List.map_cons, List.sum_cons]
                rw [hrc.csum]
                ring
              oids := ?_
              nidsSubl := ?_
              msync := ?_
              mframe := ?_
              mkeys := hrc.mkeys
              knodup := hrc.knodup }
          · intro i2 h1 h2
            cases i2 with
            | zero =>
              exact ⟨rfl, rfl, rfl, rfl⟩
            | succ i3 =>
              simp only [List.get_eq_getElem, List.getElem_cons_succ]
              exact hrc.frame i3 (by simpa using h1) (by simpa using h2)
          · intro c2 hc2
            rcases List.mem_cons.mp hc2 with rfl | hm2
            · exact hin.wfs c2 (List.mem_cons_self _ _)
            · exact hrc.wfs c2 hm2
          · rw [cellsOids_cons, cellsOids_cons]
            rw [List.erase_append_right _ hkch]
            exact hrc.oids.append_left (subtreeOids ch)
          · rw [cellsNids_cons, cellsNids_cons]
            exact (List.Sublist.refl _).append hrc.nidsSubl
          · intro c2 hc2 nd hnd ob hob
            rcases List.mem_cons.mp hc2 with rfl | hm2
            · refine sync_preserved_of_frame
                (hin.sync c2 (List.mem_cons_self _ _)) ?_ nd hnd ob hob
              intro k2 hk2
              refine hrc.mframe k2 ?_
              intro hmem
              exact hdisjO hk2 hmem
            · exact hrc.msync c2 hm2 nd hnd ob hob
          · intro k2 hk2
            rw [cellsOids_cons] at hk2
            exact hrc.mframe k2 (fun hmem => hk2 (List.mem_append_right _ hmem))

/-! ## Tree-level `remove`, `update`, and reachability invariants -/

theorem remove_none {t : Octree} {o : Obj}
    (hv : mapGet t.objectToNode o.oid = none) : t.remove o = t := by
  unfold Octree.remove
  rw [hv]

theorem remove_some {t : Octree} {o : Obj} {v : ℕ}
    (hv : mapGet t.objectToNode o.oid = some v) :
    t.remove o = Octree.shrink
      ⟨(removeObjFrom t.root v o.oid t.objectToNode).1,
       mapDel (removeObjFrom t.root v o.oid t.objectToNode).2 o.oid,
       t.nextId⟩ := by
  unfold Octree.remove
  rw [hv]

theorem remove_spec {t : Octree} (o : Obj) (h : TreeWF t) :
    TreeWF (t.remove o) ∧
    (mapGet t.objectToNode o.oid = none → t.remove o = t) ∧
    mapGet (t.remove o).objectToNode o.oid = none ∧
    (∀ k, k ≠ o.oid → ((mapGet (t.remove o).objectToNode k).isSome ↔
      (mapGet t.objectToNode k).isSome)) ∧
    (subtreeOids (t.remove o).root).Perm ((subtreeOids t.root).erase o.oid) := by
  cases hv : mapGet t.objectToNode o.oid with
  | none =>
    have he := remove_none hv
    have hnmem : o.oid ∉ subtreeOids t.root := by
      intro hmem
      obtain ⟨nd, hnd, ob, hob, hoid⟩ := (mem_subtreeOids_iff _ _).mp hmem
      have := h.sync nd hnd ob hob
      rw [hoid, hv] at this
      simp at this
    rw [he]
    refine ⟨h, fun _ => rfl, hv, fun k _ => Iff.rfl, ?_⟩
    rw [List.erase_of_not_mem hnmem]
  | some v =>
    have he := remove_some hv
    have htarget : ∃ nd ∈ allNodes t.root, nd.nid = v ∧
        o.oid ∈ nd.objects.map Obj.oid := by
      have hmem := h.keysOwned o.oid (by rw [hv]; rfl)
      obtain ⟨nd, hnd, ob, hob, hoid⟩ := (mem_subtreeOids_iff _ _).mp hmem
      have hs := h.sync nd hnd ob hob
      rw [hoid, hv] at hs
      exact ⟨nd, hnd, (Option.some_inj.mp hs).symm,
        hoid ▸ List.mem_map.mpr ⟨ob, hob, rfl⟩⟩
    have hrin : RIn t.root v o.oid t.objectToNode :=
      { wf := h.wf
        target := htarget
        onodup := h.onodup
        nnodup := h.nnodup
        sync := h.sync
        knodup := h.knodup }
    have hro := (removeAll_spec (sizeOf t.root)).1 t.root le_rfl v o.oid
      t.objectToNode hrin
    have hnotin : o.oid ∉ subtreeOids
        (removeObjFrom t.root v o.oid t.objectToNode).1 := by
      intro hmem
      have h2 := hro.oids.subset hmem
      exact (h.onodup.not_mem_erase) h2
    have htwf1 : TreeWF ⟨(removeObjFrom t.root v o.oid t.objectToNode).1,
        mapDel (removeObjFrom t.root v o.oid t.objectToNode).2 o.oid,
        t.nextId⟩ :=
      { wf := hro.wf
        dge := by
          show MIN_DEPTH ≤ _
          rw [hro.fdepth]
          exact h.dge
        onodup := hro.oids.nodup_iff.mpr (h.onodup.erase o.oid)
        nnodup := h.nnodup.sublist hro.nidsSub
        nlt := fun x hx => h.nlt x (hro.nidsSub.mem hx)
        knodup := mapDel_keys_nodup hro.knodup o.oid
        sync := by
          intro nd hnd ob hob
          have hoid : ob.oid ∈ subtreeOids
              (removeObjFrom t.root v o.oid t.objectToNode).1 :=
            (mem_subtreeOids_iff _ _).mpr ⟨nd, hnd, ob, hob, rfl⟩
          have hne : ob.oid ≠ o.oid := fun heq => hnotin (heq ▸ hoid)
          show mapGet (mapDel _ o.oid) ob.oid = some nd.nid
          rw [mapGet_mapDel_ne _ _ _ hne]
          exact hro.msync nd hnd ob hob
        keysOwned := by
          intro k hk
          by_cases hko : k = o.oid
          · subst hko
            rw [mapGet_mapDel_self] at hk
            simp at hk
          · rw [mapGet_mapDel_ne _ _ _ hko] at hk
            have h2 := (hro.mkeys k).mp hk
            have h3 := h.keysOwned k h2
            refine hro.oids.symm.subset ?_
            exact (List.mem_erase_of_ne hko).mpr h3 }
    have hsh := shrink_spec _ htwf1
    rw [he]
    refine ⟨hsh.twf, ?_, ?_, ?_, ?_⟩
    · intro habs
      exact Option.noConfusion habs
    · rw [hsh.map]
      exact mapGet_mapDel_self _ _
    · intro k hk
      rw [hsh.map]
      show (mapGet (mapDel _ o.oid) k).isSome ↔ _
      rw [mapGet_mapDel_ne _ _ _ hk]
      exact hro.mkeys k
    · exact hsh.oids.trans hro.oids

theorem update_twf {t : Octree} (o : Obj) (h : TreeWF t) :
    TreeWF (t.update o) := by
  show TreeWF ((t.remove o).insert o)
  exact (insert_spec o (remove_spec o h).1).1

/-- Every state reachable through the public operations is well-formed. -/
theorem reachable_treeWF {t : Octree} (h : Reachable t) : TreeWF t := by
  induction h with
  | init =>
    refine
      { wf := by
          rw [Octree.init]
          show nodeWFb (ONode.mk 0 ⟨0, 0, 0⟩ DEFAULT_ROOT_NODE_SIZE 0 [] 0 []) = true
          rw [nodeWFb_mk_iff]
          refine ⟨by simp, by norm_num [MAX_DEPTH], fun _ => Or.inl (by simp),
            fun habs => absurd rfl habs⟩
        dge := by
          show MIN_DEPTH ≤ (0 : ℤ)
          norm_num [MIN_DEPTH]
        onodup := by
          show (subtreeOids (ONode.mk 0 ⟨0, 0, 0⟩ _ 0 [] 0 [])).Nodup
          rw [subtreeOids_mk']
          simp
        nnodup := by
          show (allNids (ONode.mk 0 ⟨0, 0, 0⟩ _ 0 [] 0 [])).Nodup
          rw [allNids_mk]
          simp
        nlt := by
          intro x hx
          have hx2 : x ∈ allNids (ONode.mk 0 ⟨0, 0, 0⟩
              DEFAULT_ROOT_NODE_SIZE 0 [] 0 []) := hx
          rw [allNids_mk] at hx2
          simp only [cellsNids_nil, List.mem_singleton] at hx2
          subst hx2
          show 0 < 1
          omega
        knodup := by simp [Octree.init]
        sync := by
          intro nd hnd ob hob
          have hnd2 : nd ∈ allNodes (ONode.mk 0 ⟨0, 0, 0⟩
              DEFAULT_ROOT_NODE_SIZE 0 [] 0 []) := hnd
          rw [allNodes_mk] at hnd2
          simp only [List.map_nil, List.flatten_nil, List.mem_singleton] at hnd2
          subst hnd2
          simp at hob
        keysOwned := by
          intro k hk
          show k ∈ _
          simp [Octree.init, mapGet] at hk }
  | insert o _ ih => exact (insert_spec o ih).1
  | remove o _ ih => exact (remove_spec o ih).1
  | update o _ ih => exact update_twf o ih

/-! ## Claim theorems -/

/-- Every node of a well-formed subtree is itself well-formed. -/
theorem nodeWFb_all : ∀ {n : ONode}, nodeWFb n = true →
    ∀ nd ∈ allNodes n, nodeWFb nd = true := by
  intro n
  induction n using oNodeInd with
  | ih n ihc =>
    intro h nd hnd
    rcases (mem_allNodes_iff n nd).mp hnd with rfl | ⟨c, hc, hnd2⟩
    · exact h
    · exact ihc c hc (nodeWFb_children h c hc) nd hnd2

/-- C1: after every public operation, every node's `count` equals the size of
its direct object set plus the sum of its children's counts. -/
theorem C1_count_consistency (t : Octree) (h : Reachable t) :
    ∀ nd ∈ allNodes t.root,
      nd.count = (nd.objects.length : ℤ) + ((nd.octants.map ONode.count).sum) := by
  have hw := reachable_treeWF h
  intro nd hnd
  have hwf := nodeWFb_all hw.wf nd hnd
  cases nd with
  | mk i m s d objs c octs =>
    rw [nodeWFb_mk_iff] at hwf
    exact hwf.1

theorem C1_count_consistency_witness :
    Octree.init.root.count = (Octree.init.root.objects.length : ℤ) +
      ((Octree.init.root.octants.map ONode.count).sum) :=
  C1_count_consistency Octree.init Reachable.init Octree.init.root
    (mem_allNodes_self _)

/-- C4: after any public operation settles, a node with children has
`count > 8`, and a node whose count is at most 8 has no children. -/
theorem C4_threshold_symmetry (t : Octree) (h : Reachable t) :
    ∀ nd ∈ allNodes t.root,
      (nd.octants ≠ [] → 8 < nd.count) ∧ (nd.count ≤ 8 → nd.octants = []) := by
  have hw := reachable_treeWF h
  intro nd hnd
  have hwf := nodeWFb_all hw.wf nd hnd
  cases nd with
  | mk i m s d objs c octs =>
    rw [nodeWFb_mk_iff] at hwf
    constructor
    · intro hne
      exact (hwf.2.2.2 hne).2.1
    · intro hle
      by_contra hne
      have := (hwf.2.2.2 hne).2.1
      have hle2 : c ≤ 8 := hle
      omega

theorem C4_threshold_symmetry_witness :
    (Octree.init.root.octants ≠ [] → 8 < Octree.init.root.count) ∧
    (Octree.init.root.count ≤ 8 → Octree.init.root.octants = []) :=
  C4_threshold_symmetry Octree.init Reachable.init Octree.init.root
    (mem_allNodes_self _)

/-- C5: after any public operation settles, every reverse-map entry resolves
to exactly one node reachable from the root, that node's direct set contains
the object, and every directly stored object is tracked with its owner's
node id. -/
theorem C5_single_ownership (t : Octree) (h : Reachable t) :
    (∀ kv ∈ t.objectToNode, ∃ nd ∈ allNodes t.root, nd.nid = kv.2 ∧
      (∃ ob ∈ nd.objects, ob.oid = kv.1) ∧
      (∀ nd2 ∈ allNodes t.root, (∃ ob2 ∈ nd2.objects, ob2.oid = kv.1) →
        nd2 = nd)) ∧
    (∀ nd ∈ allNodes t.root, ∀ ob ∈ nd.objects,
      mapGet t.objectToNode ob.oid = some nd.nid) := by
  have hw := reachable_treeWF h
  refine ⟨?_, hw.sync⟩
  rintro ⟨k, v⟩ hkv
  have hget : mapGet t.objectToNode k = some v := mem_mapGet_eq_some hw.knodup hkv
  have hsub := hw.keysOwned k (by rw [hget]; rfl)
  obtain ⟨nd, hnd, ob, hob, hoid⟩ := (mem_subtreeOids_iff _ _).mp hsub
  have hsy := hw.sync nd hnd ob hob
  rw [hoid, hget] at hsy
  refine ⟨nd, hnd, (Option.some_inj.mp hsy).symm, ⟨ob, hob, hoid⟩, ?_⟩
  rintro nd2 hnd2 ⟨ob2, hob2, hoid2⟩
  have hsy2 := hw.sync nd2 hnd2 ob2 hob2
  rw [hoid2, hget] at hsy2
  have hnid : nd2.nid = nd.nid := by
    have e1 := Option.some_inj.mp hsy
    have e2 := Option.some_inj.mp hsy2
    omega
  exact List.inj_on_of_nodup_map hw.nnodup hnd2 hnd hnid

theorem C5_single_ownership_witness :
    (∀ kv ∈ Octree.init.objectToNode, ∃ nd ∈ allNodes Octree.init.root,
      nd.nid = kv.2 ∧ (∃ ob ∈ nd.objects, ob.oid = kv.1) ∧
      (∀ nd2 ∈ allNodes Octree.init.root,
        (∃ ob2 ∈ nd2.objects, ob2.oid = kv.1) → nd2 = nd)) ∧
    (∀ nd ∈ allNodes Octree.init.root, ∀ ob ∈ nd.objects,
      mapGet Octree.init.objectToNode ob.oid = some nd.nid) :=
  C5_single_ownership Octree.init Reachable.init

/-- C8: `raycast` returns all hits collected from the tree's traversal,
sorted in ascending order of the hit point's distance from the ray origin
(the empty list arises when nothing is hit). -/
theorem C8_raycast_sorted (env : RayEnv) (t : Octree) (ro rd : Vec3) :
    List.Sorted (fun a b : Hit =>
      Real.sqrt (a.distSq : ℝ) ≤ Real.sqrt (b.distSq : ℝ))
      (Octree.raycast env t ro rd) ∧
    (Octree.raycast env t ro rd).Perm (nodeRaycast env ro rd t.root) := by
  constructor
  · have hs : List.Sorted hitLE (Octree.raycast env t ro rd) :=
      List.sorted_insertionSort hitLE (nodeRaycast env ro rd t.root)
    refine hs.imp ?_
    intro a b hab
    refine Real.sqrt_le_sqrt ?_
    exact_mod_cast hab
  · exact List.perm_insertionSort hitLE (nodeRaycast env ro rd t.root)

/-- C9: inserting the same object twice in a row leaves the index exactly as
after inserting it once (the second call is a no-op). -/
theorem C9_insert_idempotent (t : Octree) (o : Obj) (h : Reachable t) :
    (t.insert o).insert o = t.insert o := by
  have hw := reachable_treeWF h
  have hspec := insert_spec o hw
  by_cases htr : (mapGet t.objectToNode o.oid).isSome = true
  · have h1 := hspec.2.1 htr
    rw [h1]
    exact h1
  · have hu : (mapGet t.objectToNode o.oid).isSome = false := by simpa using htr
    have h3 := hspec.2.2 hu
    by_cases hsucc : (growToFit (t.root.depth - MIN_DEPTH).toNat t o).2 = true
    · have h4 := (h3.2 hsucc).1
      exact (insert_spec o hspec.1).2.1 h4
    · have hsucc2 : (growToFit (t.root.depth - MIN_DEPTH).toNat t o).2 = false := by
        simpa using hsucc
      have h5 := h3.1 hsucc2
      have hgf := growToFit_spec o ((t.root.depth - MIN_DEPTH).toNat) t hw le_rfl
      have hfail := hgf.fail hsucc2
      rw [h5]
      have hu2 : ¬ ((mapGet (growToFit (t.root.depth - MIN_DEPTH).toNat t
          o).1.objectToNode o.oid).isSome = true) := by
        intro habs
        have := (hgf.mkeys o.oid).mp habs
        rw [hu] at this
        exact Bool.false_ne_true this
      have h6 : growToFit
          (((growToFit (t.root.depth - MIN_DEPTH).toNat t o).1.root.depth -
            MIN_DEPTH).toNat)
          (growToFit (t.root.depth - MIN_DEPTH).toNat t o).1 o =
          ((growToFit (t.root.depth - MIN_DEPTH).toNat t o).1, false) := by
        rw [growToFit_eq, if_neg (by rw [hfail.2]; simp), if_pos hfail.1]
      rw [insert_eq, if_neg hu2, h6]
      simp

theorem C9_insert_idempotent_witness :
    (Octree.init.insert ⟨0, ⟨⟨1/4, 1/4, 1/4⟩, ⟨1/4, 1/4, 1/4⟩⟩⟩).insert
        ⟨0, ⟨⟨1/4, 1/4, 1/4⟩, ⟨1/4, 1/4, 1/4⟩⟩⟩ =
      Octree.init.insert ⟨0, ⟨⟨1/4, 1/4, 1/4⟩, ⟨1/4, 1/4, 1/4⟩⟩⟩ :=
  C9_insert_idempotent Octree.init ⟨0, ⟨⟨1/4, 1/4, 1/4⟩, ⟨1/4, 1/4, 1/4⟩⟩⟩
    Reachable.init

/-- C10: the octant slot of the new root that receives the old root in
`grow` matches the old root's region exactly: its cell has the old root's
min corner and the old root's size, for every growth direction (zero
components behave as non-negative in both the min shift and the index). -/
theorem C10_grow_octant_slot (root : ONode) (dir : Vec3) (newNid firstId : ℕ)
    (h : growOctantIndex dir <
      ((ONode.mk newNid (growNewMin root dir) (root.size * 2)
        (root.depth - 1) [] 0 []).createOctants firstId).length) :
    (((ONode.mk newNid (growNewMin root dir) (root.size * 2) (root.depth - 1)
        [] 0 []).createOctants firstId).get
        ⟨growOctantIndex dir, h⟩).min = root.min ∧
    (((ONode.mk newNid (growNewMin root dir) (root.size * 2) (root.depth - 1)
        [] 0 []).createOctants firstId).get
        ⟨growOctantIndex dir, h⟩).size = root.size := by
  rw [createOctants_get]
  constructor
  · show cellMin (growNewMin root dir) (root.size * 2 / 2)
      (growOctantIndex dir) = root.min
    have h2s : root.size * 2 / 2 = root.size := by ring
    rw [h2s]
    exact grow_slot_matches root dir
  · show root.size * 2 / 2 = root.size
    ring

theorem C10_grow_octant_slot_witness :
    (((ONode.mk 5 (growNewMin (ONode.mk 0 ⟨0, 0, 0⟩ 1 0 [] 0 []) ⟨-1, 1, 0⟩)
        ((ONode.mk 0 ⟨0, 0, 0⟩ 1 0 [] 0 []).size * 2)
        ((ONode.mk 0 ⟨0, 0, 0⟩ 1 0 [] 0 []).depth - 1) [] 0 []).createOctants 6).get
        ⟨growOctantIndex ⟨-1, 1, 0⟩, by decide⟩).min =
      (ONode.mk 0 ⟨0, 0, 0⟩ 1 0 [] 0 []).min ∧
    (((ONode.mk 5 (growNewMin (ONode.mk 0 ⟨0, 0, 0⟩ 1 0 [] 0 []) ⟨-1, 1, 0⟩)
        ((ONode.mk 0 ⟨0, 0, 0⟩ 1 0 [] 0 []).size * 2)
        ((ONode.mk 0 ⟨0, 0, 0⟩ 1 0 [] 0 []).depth - 1) [] 0 []).createOctants 6).get
        ⟨growOctantIndex ⟨-1, 1, 0⟩, by decide⟩).size =
      (ONode.mk 0 ⟨0, 0, 0⟩ 1 0 [] 0 []).size :=
  C10_grow_octant_slot (ONode.mk 0 ⟨0, 0, 0⟩ 1 0 [] 0 []) ⟨-1, 1, 0⟩ 5 6
    (by decide)

/-- `largerThan` reads only the node's size. -/
theorem largerThan_congr {n n2 : ONode} (h : n.size = n2.size) (o : Obj) :
    n.largerThan o = n2.largerThan o := by
  unfold ONode.largerThan
  rw [h]

/-- `containsCenter` reads only the node's min corner and size. -/
theorem containsCenter_congr {n n2 : ONode} (h1 : n.min = n2.min)
    (h2 : n.size = n2.size) (o : Obj) :
    n.containsCenter o = n2.containsCenter o := by
  unfold ONode.containsCenter ONode.containsPoint
  rw [h1, h2]

/-- The object's bounding box lies entirely outside the node's cube
(separated on some axis). -/
def boxOutside (b : Box3) (n : ONode) : Prop :=
  b.max.x < n.min.x ∨ n.min.x + n.size < b.min.x ∨
  b.max.y < n.min.y ∨ n.min.y + n.size < b.min.y ∨
  b.max.z < n.min.z ∨ n.min.z + n.size < b.min.z

/-- Both branches of `Octree.grow` double the root size (the merge attempt
keeps the node's geometry and only moves objects). -/
theorem grow_root_size (t : Octree) (o : Obj) :
    (t.grow o).root.size = t.root.size * 2 := by
  rw [grow_eq]
  by_cases hc : 0 < t.root.count
  · rw [if_pos hc]
    show (mergeNode (growNode t o) t.objectToNode).1.size = t.root.size * 2
    rw [growNode, mergeNode]
    split <;> rfl
  · rw [if_neg hc]
    rfl

/-- If the object is too wide (on the x axis) for the root even after `fuel`
doublings, the grow loop of `Octree.insert` can never succeed. -/
theorem growToFit_false_of_big (o : Obj) :
    ∀ (fuel : ℕ) (t : Octree), 0 < t.root.size →
      t.root.size * 2 ^ fuel ≤ o.box.max.x - o.box.min.x →
      (growToFit fuel t o).2 = false := by
  have hlarge : ∀ (t : Octree), t.root.size ≤ o.box.max.x - o.box.min.x →
      t.root.largerThan o = false := by
    intro t hle
    unfold ONode.largerThan
    have hnlt : ¬ (o.box.max.x - o.box.min.x < t.root.size) := not_lt.mpr hle
    simp [hnlt]
  intro fuel
  induction fuel with
  | zero =>
    intro t hpos hle
    have hl : t.root.largerThan o = false := by
      refine hlarge t ?_
      calc t.root.size = t.root.size * 2 ^ 0 := by ring
      _ ≤ _ := hle
    rw [growToFit_eq, hl]
    simp only [Bool.false_and]
    rw [if_neg Bool.false_ne_true]
    split
    · rfl
    · rfl
  | succ f ih =>
    intro t hpos hle
    have h2f : (1 : ℚ) ≤ 2 ^ (f + 1) := one_le_pow₀ (by norm_num)
    have hl : t.root.largerThan o = false := by
      refine hlarge t ?_
      calc t.root.size = t.root.size * 1 := by ring
      _ ≤ t.root.size * 2 ^ (f + 1) := mul_le_mul_of_nonneg_left h2f hpos.le
      _ ≤ _ := hle
    rw [growToFit_eq, hl]
    simp only [Bool.false_and]
    rw [if_neg Bool.false_ne_true]
    by_cases hd : t.root.depth = MIN_DEPTH
    · rw [if_pos hd]
    · rw [if_neg hd]
      show (growToFit f (t.grow o) o).2 = false
      refine ih (t.grow o) ?_ ?_
      · rw [grow_root_size]
        linarith
      · rw [grow_root_size]
        calc t.root.size * 2 * 2 ^ f = t.root.size * 2 ^ (f + 1) := by ring
        _ ≤ _ := hle

/-- C6: inserting an object whose box lies entirely outside the current root,
when the insert is not rejected at `MIN_DEPTH`, leaves the root containing
the object's box center (half-open test) and strictly larger than the
object's extent on all three axes. -/
theorem C6_growth_correct (t : Octree) (o : Obj) (h : Reachable t)
    (hu : mapGet t.objectToNode o.oid = none)
    (hout : boxOutside o.box t.root)
    (hs : (growToFit (t.root.depth - MIN_DEPTH).toNat t o).2 = true) :
    (t.insert o).root.containsCenter o = true ∧
    (t.insert o).root.largerThan o = true := by
  have hw := reachable_treeWF h
  have hspec := insert_spec o hw
  have hu2 : (mapGet t.objectToNode o.oid).isSome = false := by rw [hu]; rfl
  obtain ⟨-, hmin, hsize, -⟩ := (hspec.2.2 hu2).2 hs
  have hgf := growToFit_spec o ((t.root.depth - MIN_DEPTH).toNat) t hw le_rfl
  have hfit := hgf.fit hs
  rw [Bool.and_eq_true] at hfit
  constructor
  · rw [containsCenter_congr hmin hsize o]
    exact hfit.2
  · rw [largerThan_congr hsize o]
    exact hfit.1

theorem C6_growth_correct_witness :
    (Octree.init.insert
        ⟨7, ⟨⟨-(3/5), -(3/5), -(3/5)⟩, ⟨-(2/5), -(2/5), -(2/5)⟩⟩⟩).root.containsCenter
        ⟨7, ⟨⟨-(3/5), -(3/5), -(3/5)⟩, ⟨-(2/5), -(2/5), -(2/5)⟩⟩⟩ = true ∧
    (Octree.init.insert
        ⟨7, ⟨⟨-(3/5), -(3/5), -(3/5)⟩, ⟨-(2/5), -(2/5), -(2/5)⟩⟩⟩).root.largerThan
        ⟨7, ⟨⟨-(3/5), -(3/5), -(3/5)⟩, ⟨-(2/5), -(2/5), -(2/5)⟩⟩⟩ = true := by
  have hgrow : Octree.init.grow ⟨7, ⟨⟨-(3/5), -(3/5), -(3/5)⟩, ⟨-(2/5), -(2/5), -(2/5)⟩⟩⟩ =
      ⟨.mk 1 ⟨-1, -1, -1⟩ 2 (-1) [] 0 [], [], 2⟩ := by
    rw [grow_eq, if_neg (by decide)]
    norm_num +decide [Octree.init, growNewMin, growDirection, growAverage, rootCenter,
      growCorner, ONode.containsPoint, DEFAULT_ROOT_NODE_SIZE, Octree.mk.injEq,
      ONode.mk.injEq, Vec3.mk.injEq, show List.range 8 = [0, 1, 2, 3, 4, 5, 6, 7] from rfl]
  have hc1 : (Octree.init.root.largerThan
        ⟨7, ⟨⟨-(3/5), -(3/5), -(3/5)⟩, ⟨-(2/5), -(2/5), -(2/5)⟩⟩⟩ &&
      Octree.init.root.containsCenter
        ⟨7, ⟨⟨-(3/5), -(3/5), -(3/5)⟩, ⟨-(2/5), -(2/5), -(2/5)⟩⟩⟩) = false := by
    norm_num [Octree.init, ONode.largerThan, ONode.containsCenter, ONode.containsPoint,
      boxCenter, DEFAULT_ROOT_NODE_SIZE]
  have hc2 : ((⟨.mk 1 ⟨-1, -1, -1⟩ 2 (-1) [] 0 [], [], 2⟩ : Octree).root.largerThan
        ⟨7, ⟨⟨-(3/5), -(3/5), -(3/5)⟩, ⟨-(2/5), -(2/5), -(2/5)⟩⟩⟩ &&
      (⟨.mk 1 ⟨-1, -1, -1⟩ 2 (-1) [] 0 [], [], 2⟩ : Octree).root.containsCenter
        ⟨7, ⟨⟨-(3/5), -(3/5), -(3/5)⟩, ⟨-(2/5), -(2/5), -(2/5)⟩⟩⟩) = true := by
    norm_num [ONode.largerThan, ONode.containsCenter, ONode.containsPoint, boxCenter]
  have hs : (growToFit (Octree.init.root.depth - MIN_DEPTH).toNat Octree.init
      ⟨7, ⟨⟨-(3/5), -(3/5), -(3/5)⟩, ⟨-(2/5), -(2/5), -(2/5)⟩⟩⟩).2 = true := by
    have hfuel : (Octree.init.root.depth - MIN_DEPTH).toNat = 32 := rfl
    rw [hfuel, growToFit_eq, hc1, if_neg Bool.false_ne_true, if_neg (by decide)]
    show (growToFit 31
      (Octree.init.grow ⟨7, ⟨⟨-(3/5), -(3/5), -(3/5)⟩, ⟨-(2/5), -(2/5), -(2/5)⟩⟩⟩)
      ⟨7, ⟨⟨-(3/5), -(3/5), -(3/5)⟩, ⟨-(2/5), -(2/5), -(2/5)⟩⟩⟩).2 = true
    rw [hgrow, growToFit_eq, hc2, if_pos rfl]
  exact C6_growth_correct Octree.init
    ⟨7, ⟨⟨-(3/5), -(3/5), -(3/5)⟩, ⟨-(2/5), -(2/5), -(2/5)⟩⟩⟩
    Reachable.init rfl (by norm_num [boxOutside, Octree.init]) hs

/-- C2 (counterexample): an object too large to ever fit is rejected only
after the root has grown all the way to `MIN_DEPTH`: the object ends up
untracked, but the returned tree differs from the initial one (its root's
depth has changed), so the failure is *not* checked before any tree mutation
occurs. -/
theorem C2_grow_mutation_counterexample :
    mapGet ((Octree.init.insert
        ⟨99, ⟨⟨0, 0, 0⟩, ⟨2 ^ 33, 2 ^ 33, 2 ^ 33⟩⟩⟩).objectToNode) 99 = none ∧
    ¬ (Octree.init.insert
        ⟨99, ⟨⟨0, 0, 0⟩, ⟨2 ^ 33, 2 ^ 33, 2 ^ 33⟩⟩⟩).root.depth =
      Octree.init.root.depth := by
  have hw := reachable_treeWF Reachable.init
  have hf : (growToFit (Octree.init.root.depth - MIN_DEPTH).toNat Octree.init
      ⟨99, ⟨⟨0, 0, 0⟩, ⟨2 ^ 33, 2 ^ 33, 2 ^ 33⟩⟩⟩).2 = false := by
    refine growToFit_false_of_big _ _ Octree.init ?_ ?_
    · show (0 : ℚ) < DEFAULT_ROOT_NODE_SIZE
      norm_num [DEFAULT_ROOT_NODE_SIZE]
    · show DEFAULT_ROOT_NODE_SIZE * 2 ^ (32 : ℕ) ≤ (2 : ℚ) ^ 33 - 0
      norm_num [DEFAULT_ROOT_NODE_SIZE]
  have hu2 : (mapGet Octree.init.objectToNode
      (⟨99, ⟨⟨0, 0, 0⟩, ⟨2 ^ 33, 2 ^ 33, 2 ^ 33⟩⟩⟩ : Obj).oid).isSome = false := rfl
  have hres := ((insert_spec (⟨99, ⟨⟨0, 0, 0⟩, ⟨2 ^ 33, 2 ^ 33, 2 ^ 33⟩⟩⟩ : Obj)
    hw).2.2 hu2).1 hf
  rw [hres]
  have hgf := growToFit_spec (⟨99, ⟨⟨0, 0, 0⟩, ⟨2 ^ 33, 2 ^ 33, 2 ^ 33⟩⟩⟩ : Obj)
    ((Octree.init.root.depth - MIN_DEPTH).toNat) Octree.init hw le_rfl
  constructor
  · cases hcase : mapGet (growToFit (Octree.init.root.depth - MIN_DEPTH).toNat Octree.init
        ⟨99, ⟨⟨0, 0, 0⟩, ⟨2 ^ 33, 2 ^ 33, 2 ^ 33⟩⟩⟩).1.objectToNode 99 with
    | none => rfl
    | some v =>
      exfalso
      have h2 := (hgf.mkeys 99).mp (by rw [hcase]; rfl)
      exact Bool.false_ne_true
        ((rfl : (mapGet Octree.init.objectToNode 99).isSome = false).symm.trans h2)
  · rw [(hgf.fail hf).1]
    decide

/-- C2 (amended): when even the fully grown root cannot fit the object, the
insert is abandoned without an exception, the object stays untracked, and the
set of tracked keys is unchanged — but the growth mutations persist: the
returned tree is the grown one, whose root sits at `MIN_DEPTH`. -/
theorem C2_failed_insert_amended (t : Octree) (o : Obj) (h : Reachable t)
    (hu : mapGet t.objectToNode o.oid = none)
    (hf : (growToFit (t.root.depth - MIN_DEPTH).toNat t o).2 = false) :
    mapGet (t.insert o).objectToNode o.oid = none ∧
    (∀ k, (mapGet (t.insert o).objectToNode k).isSome ↔
      (mapGet t.objectToNode k).isSome) ∧
    (t.insert o).root.depth = MIN_DEPTH := by
  have hw := reachable_treeWF h
  have hspec := insert_spec o hw
  have hu2 : (mapGet t.objectToNode o.oid).isSome = false := by rw [hu]; rfl
  have hres := (hspec.2.2 hu2).1 hf
  have hgf := growToFit_spec o ((t.root.depth - MIN_DEPTH).toNat) t hw le_rfl
  rw [hres]
  refine ⟨?_, fun k => hgf.mkeys k, (hgf.fail hf).1⟩
  cases hcase : mapGet (growToFit (t.root.depth - MIN_DEPTH).toNat
      t o).1.objectToNode o.oid with
  | none => rfl
  | some v =>
    exfalso
    have h2 := (hgf.mkeys o.oid).mp (by rw [hcase]; rfl)
    rw [hu] at h2
    exact Bool.false_ne_true h2

theorem C2_failed_insert_amended_witness :
    mapGet ((Octree.init.insert
        ⟨99, ⟨⟨0, 0, 0⟩, ⟨2 ^ 33, 2 ^ 33, 2 ^ 33⟩⟩⟩).objectToNode) 99 = none ∧
    (∀ k, (mapGet ((Octree.init.insert
        ⟨99, ⟨⟨0, 0, 0⟩, ⟨2 ^ 33, 2 ^ 33, 2 ^ 33⟩⟩⟩).objectToNode) k).isSome ↔
      (mapGet Octree.init.objectToNode k).isSome) ∧
    (Octree.init.insert
        ⟨99, ⟨⟨0, 0, 0⟩, ⟨2 ^ 33, 2 ^ 33, 2 ^ 33⟩⟩⟩).root.depth = MIN_DEPTH :=
  C2_failed_insert_amended Octree.init
    ⟨99, ⟨⟨0, 0, 0⟩, ⟨2 ^ 33, 2 ^ 33, 2 ^ 33⟩⟩⟩ Reachable.init rfl
    (growToFit_false_of_big _ _ Octree.init
      (by norm_num [DEFAULT_ROOT_NODE_SIZE] :
        (0 : ℚ) < DEFAULT_ROOT_NODE_SIZE)
      (by norm_num [DEFAULT_ROOT_NODE_SIZE] :
        DEFAULT_ROOT_NODE_SIZE * 2 ^ (32 : ℕ) ≤ (2 : ℚ) ^ 33 - 0))

/-- C3 (amended): `update` of an untracked object is *not* a no-op: the
`remove` half is a no-op, and then `insert` runs, so `update` coincides with
`insert` (which tracks the object whenever growth succeeds). -/
theorem C3_update_untracked_amended (t : Octree) (o : Obj)
    (hu : mapGet t.objectToNode o.oid = none) :
    t.update o = t.insert o := by
  show (t.remove o).insert o = t.insert o
  rw [remove_none hu]

theorem C3_update_untracked_amended_witness :
    Octree.init.update ⟨0, ⟨⟨1/4, 1/4, 1/4⟩, ⟨1/4, 1/4, 1/4⟩⟩⟩ =
      Octree.init.insert ⟨0, ⟨⟨1/4, 1/4, 1/4⟩, ⟨1/4, 1/4, 1/4⟩⟩⟩ :=
  C3_update_untracked_amended Octree.init
    ⟨0, ⟨⟨1/4, 1/4, 1/4⟩, ⟨1/4, 1/4, 1/4⟩⟩⟩ rfl

/-- C3 (counterexample): updating an untracked object on the fresh octree
leaves it *tracked* (its reverse-map entry points at the root), refuting the
claimed no-op. -/
theorem C3_update_untracked_counterexample :
    mapGet ((Octree.init.update
        ⟨0, ⟨⟨1/4, 1/4, 1/4⟩, ⟨1/4, 1/4, 1/4⟩⟩⟩).objectToNode) 0 = some 0 := by
  have h1 : Octree.init.update ⟨0, ⟨⟨1/4, 1/4, 1/4⟩, ⟨1/4, 1/4, 1/4⟩⟩⟩ =
      Octree.init.insert ⟨0, ⟨⟨1/4, 1/4, 1/4⟩, ⟨1/4, 1/4, 1/4⟩⟩⟩ := by
    show (Octree.init.remove _).insert _ = _
    rw [remove_none (show mapGet Octree.init.objectToNode
      (⟨0, ⟨⟨1/4, 1/4, 1/4⟩, ⟨1/4, 1/4, 1/4⟩⟩⟩ : Obj).oid = none from rfl)]
  have hcond : (Octree.init.root.largerThan ⟨0, ⟨⟨1/4, 1/4, 1/4⟩, ⟨1/4, 1/4, 1/4⟩⟩⟩ &&
      Octree.init.root.containsCenter ⟨0, ⟨⟨1/4, 1/4, 1/4⟩, ⟨1/4, 1/4, 1/4⟩⟩⟩) = true := by
    norm_num [Octree.init, ONode.largerThan, ONode.containsCenter, ONode.containsPoint,
      boxCenter, DEFAULT_ROOT_NODE_SIZE]
  have hg : growToFit ((Octree.init.root.depth - MIN_DEPTH).toNat) Octree.init
      ⟨0, ⟨⟨1/4, 1/4, 1/4⟩, ⟨1/4, 1/4, 1/4⟩⟩⟩ = (Octree.init, true) := by
    rw [growToFit_eq, if_pos hcond]
  have hni : nodeIns splitFuel (Octree.init, true).1.root
      ⟨0, ⟨⟨1/4, 1/4, 1/4⟩, ⟨1/4, 1/4, 1/4⟩⟩⟩
      ⟨(Octree.init, true).1.nextId, (Octree.init, true).1.objectToNode⟩ =
      (ONode.mk 0 ⟨0, 0, 0⟩ DEFAULT_ROOT_NODE_SIZE 0
        [⟨0, ⟨⟨1/4, 1/4, 1/4⟩, ⟨1/4, 1/4, 1/4⟩⟩⟩] 1 [], ⟨1, [(0, 0)]⟩) := by
    show nodeIns splitFuel (ONode.mk 0 ⟨0, 0, 0⟩ DEFAULT_ROOT_NODE_SIZE 0 [] 0 [])
      ⟨0, ⟨⟨1/4, 1/4, 1/4⟩, ⟨1/4, 1/4, 1/4⟩⟩⟩ ⟨1, []⟩ = _
    rw [nodeIns_leaf, show splitFuel = 40 + 1 from rfl, nodeSplit_succ,
      if_pos (Or.inl (by decide))]
    rfl
  rw [h1, insert_eq, if_neg (by decide), hg,
    if_pos (show ((Octree.init, true) : Octree × Bool).2 = true from rfl),
    if_pos (show ((Octree.init, true) : Octree × Bool).1.root.count = 0 from rfl),
    hni, shrink_objects_ne (by simp)]
  rfl


/-- Replacing one octant by a node with the same min corner, size and depth
preserves the geometric check. -/
theorem octsGeomB_set {c d : ONode} (hm : c.min = d.min) (hs : c.size = d.size)
    (hd : c.depth = d.depth) {pmin : Vec3} {h : ℚ} {pd : ℤ} :
    ∀ (l : List ONode) (i j : ℕ), octsGeomB pmin h pd l j = true →
      l[i]? = some d → octsGeomB pmin h pd (l.set i c) j = true := by
  intro l
  induction l with
  | nil =>
    intro i j h1 h2
    simp at h2
  | cons hd2 tl ih =>
    intro i j h1 h2
    unfold octsGeomB at h1
    simp only [Bool.and_eq_true, decide_eq_true_eq] at h1
    cases i with
    | zero =>
      rw [List.getElem?_cons_zero, Option.some_inj] at h2
      subst h2
      rw [List.set_cons_zero]
      unfold octsGeomB
      simp only [Bool.and_eq_true, decide_eq_true_eq]
      exact ⟨⟨⟨hm.trans h1.1.1.1, hs.trans h1.1.1.2⟩, hd.trans h1.1.2⟩, h1.2⟩
    | succ i2 =>
      rw [List.getElem?_cons_succ] at h2
      rw [List.set_cons_succ]
      unfold octsGeomB
      simp only [Bool.and_eq_true, decide_eq_true_eq]
      exact ⟨h1.1, ih i2 (j + 1) h1.2 h2⟩

/-! ### A concrete well-formed tree on which `shrink` drops below the default
root size.

Nine objects clustered in octant 0 of a default-size root: the root has
split (9 > 8), all objects live under child octant 0 (node id 15), which has
itself split into grandchildren holding 5 and 4 objects.  `shrink` promotes
octant 0 to be the new root, whose cube edge is half the default size. -/

def c7box : Box3 := ⟨⟨1/10, 1/10, 1/10⟩, ⟨2/5, 2/5, 2/5⟩⟩

def c7obj (j : ℕ) : Obj := ⟨j, c7box⟩

def c7objsA : List Obj := [c7obj 0, c7obj 1, c7obj 2, c7obj 3, c7obj 4]

def c7objsB : List Obj := [c7obj 5, c7obj 6, c7obj 7, c7obj 8]

def c7subBase : ONode :=
  .mk 15 (cellMin ⟨0, 0, 0⟩ (DEFAULT_ROOT_NODE_SIZE / 2) 0)
    (DEFAULT_ROOT_NODE_SIZE / 2) 1 [] 9 []

def c7gA : ONode :=
  .mk 20 (cellMin c7subBase.min (c7subBase.size / 2) 0) (c7subBase.size / 2) 2 c7objsA 5 []

def c7gB : ONode :=
  .mk 21 (cellMin c7subBase.min (c7subBase.size / 2) 1) (c7subBase.size / 2) 2 c7objsB 4 []

def c7sub : List ONode := ((c7subBase.createOctants 20).set 0 c7gA).set 1 c7gB

def c7cell0 : ONode := .mk 15 c7subBase.min c7subBase.size 1 [] 9 c7sub

def c7base : ONode := .mk 10 ⟨0, 0, 0⟩ DEFAULT_ROOT_NODE_SIZE 0 [] 9 []

def c7cells : List ONode := (c7base.createOctants 2).set 0 c7cell0

def c7root : ONode := .mk 10 ⟨0, 0, 0⟩ DEFAULT_ROOT_NODE_SIZE 0 [] 9 c7cells

def c7map : OMap :=
  [(0, 20), (1, 20), (2, 20), (3, 20), (4, 20), (5, 21), (6, 21), (7, 21), (8, 21)]

def c7tree : Octree := ⟨c7root, c7map, 30⟩

theorem c7sub_eq : c7sub = [c7gA, c7gB,
    octantCell c7subBase.min c7subBase.size c7subBase.depth (20 + 2) 2,
    octantCell c7subBase.min c7subBase.size c7subBase.depth (20 + 3) 3,
    octantCell c7subBase.min c7subBase.size c7subBase.depth (20 + 4) 4,
    octantCell c7subBase.min c7subBase.size c7subBase.depth (20 + 5) 5,
    octantCell c7subBase.min c7subBase.size c7subBase.depth (20 + 6) 6,
    octantCell c7subBase.min c7subBase.size c7subBase.depth (20 + 7) 7] := rfl

theorem c7cells_eq : c7cells = [c7cell0,
    octantCell c7base.min c7base.size c7base.depth (2 + 1) 1,
    octantCell c7base.min c7base.size c7base.depth (2 + 2) 2,
    octantCell c7base.min c7base.size c7base.depth (2 + 3) 3,
    octantCell c7base.min c7base.size c7base.depth (2 + 4) 4,
    octantCell c7base.min c7base.size c7base.depth (2 + 5) 5,
    octantCell c7base.min c7base.size c7base.depth (2 + 6) 6,
    octantCell c7base.min c7base.size c7base.depth (2 + 7) 7] := rfl

theorem c7_nodeWFb_gA : nodeWFb c7gA = true := by
  show nodeWFb (.mk 20 (cellMin c7subBase.min (c7subBase.size / 2) 0)
    (c7subBase.size / 2) 2 c7objsA 5 []) = true
  rw [nodeWFb_mk_iff]
  exact ⟨by decide, by decide, fun _ => Or.inl (by decide), fun habs => absurd rfl habs⟩

theorem c7_nodeWFb_gB : nodeWFb c7gB = true := by
  show nodeWFb (.mk 21 (cellMin c7subBase.min (c7subBase.size / 2) 1)
    (c7subBase.size / 2) 2 c7objsB 4 []) = true
  rw [nodeWFb_mk_iff]
  exact ⟨by decide, by decide, fun _ => Or.inl (by decide), fun habs => absurd rfl habs⟩

theorem c7_geom_sub :
    octsGeomB c7subBase.min (c7subBase.size / 2) 1 c7sub 0 = true := by
  show octsGeomB c7subBase.min (c7subBase.size / 2) c7subBase.depth c7sub 0 = true
  have hget0 : (c7subBase.createOctants 20)[0]? =
      some (octantCell c7subBase.min c7subBase.size c7subBase.depth (20 + 0) 0) := rfl
  have hget1 : ((c7subBase.createOctants 20).set 0 c7gA)[1]? =
      some (octantCell c7subBase.min c7subBase.size c7subBase.depth (20 + 1) 1) := rfl
  have hstep1 : octsGeomB c7subBase.min (c7subBase.size / 2) c7subBase.depth
      ((c7subBase.createOctants 20).set 0 c7gA) 0 = true := by
    refine octsGeomB_set ?_ ?_ ?_ _ 0 0 (octsGeomB_createOctants c7subBase 20) hget0 <;> rfl
  refine octsGeomB_set ?_ ?_ ?_ _ 1 0 hstep1 hget1 <;> rfl

theorem c7_nodeWFb_cell0 : nodeWFb c7cell0 = true := by
  show nodeWFb (.mk 15 c7subBase.min c7subBase.size 1 [] 9 c7sub) = true
  rw [nodeWFb_mk_iff]
  refine ⟨?_, by decide, ?_, fun _ => ⟨by decide, by decide, c7_geom_sub, ?_⟩⟩
  · have hmap : c7sub.map ONode.count = [5, 4, 0, 0, 0, 0, 0, 0] := by
      rw [c7sub_eq]
      rfl
    rw [hmap]
    decide
  · intro habs
    rw [c7sub_eq] at habs
    simp at habs
  · intro c hc
    rw [c7sub_eq] at hc
    simp only [List.mem_cons, List.not_mem_nil, or_false] at hc
    rcases hc with rfl | rfl | rfl | rfl | rfl | rfl | rfl | rfl
    · exact c7_nodeWFb_gA
    · exact c7_nodeWFb_gB
    all_goals exact nodeWFb_octantCell (by decide)

theorem c7_geom_cells :
    octsGeomB (⟨0, 0, 0⟩ : Vec3) (DEFAULT_ROOT_NODE_SIZE / 2) 0 c7cells 0 = true := by
  show octsGeomB c7base.min (c7base.size / 2) c7base.depth c7cells 0 = true
  have hget0 : (c7base.createOctants 2)[0]? =
      some (octantCell c7base.min c7base.size c7base.depth (2 + 0) 0) := rfl
  refine octsGeomB_set ?_ ?_ ?_ _ 0 0 (octsGeomB_createOctants c7base 2) hget0 <;> rfl

theorem c7_nodeWFb_root : nodeWFb c7root = true := by
  show nodeWFb (.mk 10 ⟨0, 0, 0⟩ DEFAULT_ROOT_NODE_SIZE 0 [] 9 c7cells) = true
  rw [nodeWFb_mk_iff]
  refine ⟨?_, by decide, ?_, fun _ => ⟨by decide, by decide, c7_geom_cells, ?_⟩⟩
  · have hmap : c7cells.map ONode.count = [9, 0, 0, 0, 0, 0, 0, 0] := by
      rw [c7cells_eq]
      rfl
    rw [hmap]
    decide
  · intro habs
    rw [c7cells_eq] at habs
    simp at habs
  · intro c hc
    rw [c7cells_eq] at hc
    simp only [List.mem_cons, List.not_mem_nil, or_false] at hc
    rcases hc with rfl | rfl | rfl | rfl | rfl | rfl | rfl | rfl
    · exact c7_nodeWFb_cell0
    all_goals exact nodeWFb_octantCell (by decide)

theorem c7_subtreeOids_gA : subtreeOids c7gA = [0, 1, 2, 3, 4] := by
  show subtreeOids (.mk 20 (cellMin c7subBase.min (c7subBase.size / 2) 0)
    (c7subBase.size / 2) 2 c7objsA 5 []) = _
  rw [subtreeOids_mk]
  rfl

theorem c7_subtreeOids_gB : subtreeOids c7gB = [5, 6, 7, 8] := by
  show subtreeOids (.mk 21 (cellMin c7subBase.min (c7subBase.size / 2) 1)
    (c7subBase.size / 2) 2 c7objsB 4 []) = _
  rw [subtreeOids_mk]
  rfl

theorem c7_subtreeOids_cell0 : subtreeOids c7cell0 = [0, 1, 2, 3, 4, 5, 6, 7, 8] := by
  show subtreeOids (.mk 15 c7subBase.min c7subBase.size 1 [] 9 c7sub) = _
  rw [subtreeOids_mk, c7sub_eq]
  simp only [List.map_cons, List.map_nil, c7_subtreeOids_gA, c7_subtreeOids_gB,
    subtreeOids_octantCell]
  rfl

theorem c7_subtreeOids_root : subtreeOids c7root = [0, 1, 2, 3, 4, 5, 6, 7, 8] := by
  show subtreeOids (.mk 10 ⟨0, 0, 0⟩ DEFAULT_ROOT_NODE_SIZE 0 [] 9 c7cells) = _
  rw [subtreeOids_mk, c7cells_eq]
  simp only [List.map_cons, List.map_nil, c7_subtreeOids_cell0, subtreeOids_octantCell]
  rfl

theorem c7_allNodes_gA : allNodes c7gA = [c7gA] := by
  show allNodes (.mk 20 (cellMin c7subBase.min (c7subBase.size / 2) 0)
    (c7subBase.size / 2) 2 c7objsA 5 []) = [c7gA]
  rw [allNodes_mk]
  rfl

theorem c7_allNodes_gB : allNodes c7gB = [c7gB] := by
  show allNodes (.mk 21 (cellMin c7subBase.min (c7subBase.size / 2) 1)
    (c7subBase.size / 2) 2 c7objsB 4 []) = [c7gB]
  rw [allNodes_mk]
  rfl

theorem c7_allNodes_cell0 : allNodes c7cell0 = c7cell0 :: (c7gA :: c7gB ::
    (c7sub.drop 2).map id) := by
  show allNodes (.mk 15 c7subBase.min c7subBase.size 1 [] 9 c7sub) = _
  rw [allNodes_mk, c7sub_eq]
  simp only [List.map_cons, List.map_nil, c7_allNodes_gA, c7_allNodes_gB, allNodes_octantCell]
  rfl

theorem c7_allNodes_root : allNodes c7root =
    c7root :: c7cell0 :: c7gA :: c7gB :: (c7sub.drop 2 ++ c7cells.drop 1) := by
  show allNodes (.mk 10 ⟨0, 0, 0⟩ DEFAULT_ROOT_NODE_SIZE 0 [] 9 c7cells) = _
  rw [allNodes_mk, c7cells_eq]
  simp only [List.map_cons, List.map_nil, c7_allNodes_cell0, allNodes_octantCell]
  rfl

theorem c7_allNids_root :
    allNids c7root = [10, 15, 20, 21, 22, 23, 24, 25, 26, 27, 3, 4, 5, 6, 7, 8, 9] := by
  show (allNodes c7root).map ONode.nid = _
  rw [c7_allNodes_root]
  rfl

theorem c7_treeWFb : treeWFb c7tree = true := by
  have hroot : c7tree.root = c7root := rfl
  rw [treeWFb]
  simp only [Bool.and_eq_true, decide_eq_true_eq]
  refine ⟨⟨⟨⟨⟨⟨⟨?_, ?_⟩, ?_⟩, ?_⟩, ?_⟩, ?_⟩, ?_⟩, ?_⟩
  · rw [hroot]
    exact c7_nodeWFb_root
  · decide
  · rw [hroot, c7_subtreeOids_root]
    decide
  · rw [hroot, c7_allNids_root]
    decide
  · rw [hroot, c7_allNids_root]
    decide
  · decide
  · rw [hroot, c7_allNodes_root]
    decide
  · rw [hroot, c7_allNodes_root]
    decide

theorem c7_shrink_size : (c7tree.shrink).root.size = DEFAULT_ROOT_NODE_SIZE / 2 := by
  have hg1 : ¬ (c7tree.root.size < DEFAULT_ROOT_NODE_SIZE ∨ ¬ c7tree.root.objects = []) := by
    have e1 : c7tree.root.size = DEFAULT_ROOT_NODE_SIZE := rfl
    have e2 : c7tree.root.objects = [] := rfl
    rw [e1, e2]
    simp
  have hg2 : ¬ (c7tree.root.count = 0) := by decide
  have hg3 : ¬ (c7tree.root.octants.isEmpty = true) := by decide
  have hfl : findLoneOctant c7tree.root.octants none = some (some c7cell0) := rfl
  rw [shrink_eq, if_neg hg1, if_neg hg2, if_neg hg3, hfl]
  show (Octree.shrink ⟨c7cell0, c7tree.objectToNode, c7tree.nextId⟩).root.size = _
  have hp : ((⟨c7cell0, c7tree.objectToNode, c7tree.nextId⟩ : Octree).root.size <
      DEFAULT_ROOT_NODE_SIZE ∨
      ¬ (⟨c7cell0, c7tree.objectToNode, c7tree.nextId⟩ : Octree).root.objects = []) := by
    left
    show DEFAULT_ROOT_NODE_SIZE / 2 < DEFAULT_ROOT_NODE_SIZE
    norm_num [DEFAULT_ROOT_NODE_SIZE]
  rw [shrink_eq, if_pos hp]
  rfl

/-- C7 (counterexample): a fully well-formed octree whose root is exactly the
default size, with empty direct object set, on which `shrink` promotes the
lone non-empty octant and returns a root *smaller* than
`DEFAULT_ROOT_NODE_SIZE` — the stop guard is the strict `size < default`, so
a default-size root can still shrink. -/
theorem C7_shrink_counterexample :
    treeWFb c7tree = true ∧
    c7tree.root.size = DEFAULT_ROOT_NODE_SIZE ∧
    (c7tree.shrink).root.size < DEFAULT_ROOT_NODE_SIZE := by
  refine ⟨c7_treeWFb, rfl, ?_⟩
  rw [c7_shrink_size]
  norm_num [DEFAULT_ROOT_NODE_SIZE]

/-- C7 (amended): `shrink` stops when the root is strictly *below* the
default size or holds direct objects; consequently, starting from a
structurally well-formed root of size at least half the default, the root
after `shrink` never drops below *half* of `DEFAULT_ROOT_NODE_SIZE` (one
final promotion below the default is possible, as the counterexample shows). -/
theorem C7_shrink_amended (t : Octree) (hwf : nodeWFb t.root = true)
    (hsz : DEFAULT_ROOT_NODE_SIZE / 2 ≤ t.root.size) :
    (t.root.size < DEFAULT_ROOT_NODE_SIZE ∨ ¬ t.root.objects = [] → t.shrink = t) ∧
    DEFAULT_ROOT_NODE_SIZE / 2 ≤ (t.shrink).root.size := by
  constructor
  · intro hstop
    rw [shrink_eq, if_pos hstop]
  · have H : ∀ (k : ℕ) (t : Octree), sizeOf t.root ≤ k → nodeWFb t.root = true →
        DEFAULT_ROOT_NODE_SIZE / 2 ≤ t.root.size →
        DEFAULT_ROOT_NODE_SIZE / 2 ≤ (t.shrink).root.size := by
      intro k
      induction k with
      | zero =>
        intro t hk hwf2 hsz2
        rw [shrink_eq]
        by_cases h1 : t.root.size < DEFAULT_ROOT_NODE_SIZE ∨ ¬ t.root.objects = []
        · rw [if_pos h1]
          exact hsz2
        · exfalso
          cases hroot : t.root with
          | mk i m s d objs c octs =>
            rw [hroot] at hk
            simp only [ONode.mk.sizeOf_spec] at hk
            omega
      | succ k ihk =>
        intro t hk hwf2 hsz2
        rw [shrink_eq]
        by_cases h1 : t.root.size < DEFAULT_ROOT_NODE_SIZE ∨ ¬ t.root.objects = []
        · rw [if_pos h1]
          exact hsz2
        · rw [if_neg h1]
          push_neg at h1
          obtain ⟨hge, hobj⟩ := h1
          by_cases h2 : t.root.count = 0
          · rw [if_pos h2]
            show DEFAULT_ROOT_NODE_SIZE / 2 ≤ DEFAULT_ROOT_NODE_SIZE
            norm_num [DEFAULT_ROOT_NODE_SIZE]
          · rw [if_neg h2]
            by_cases h3 : t.root.octants.isEmpty = true
            · rw [if_pos h3]
              exact hsz2
            · rw [if_neg h3]
              cases hfl : findLoneOctant t.root.octants none with
              | none => exact hsz2
              | some oc =>
                cases oc with
                | none => exact hsz2
                | some c =>
                  have hcmem : c ∈ t.root.octants := by
                    rcases findLoneOctant_mem hfl with hm | hm
                    · exact hm
                    · cases hm
                  have hcsize : c.size = t.root.size / 2 := by
                    cases hroot : t.root with
                    | mk i m s d objs cnt octs =>
                      have hwfr := hwf2
                      rw [hroot, nodeWFb_mk_iff] at hwfr
                      have hne : octs ≠ [] := by
                        intro he
                        rw [hroot] at h3
                        simp [he] at h3
                      have hgeo := (hwfr.2.2.2 hne).2.2.1
                      have hcm : c ∈ octs := by
                        rw [hroot] at hcmem
                        exact hcmem
                      have hcs := octsGeomB_size_mem hgeo hcm
                      simpa using hcs
                  have hcwf : nodeWFb c = true := nodeWFb_children hwf2 c hcmem
                  have hszc : DEFAULT_ROOT_NODE_SIZE / 2 ≤ c.size := by
                    rw [hcsize]
                    linarith
                  refine ihk ⟨c, t.objectToNode, t.nextId⟩ ?_ hcwf hszc
                  show sizeOf c ≤ k
                  have := ONode.sizeOf_mem_octants hcmem
                  omega
    exact H (sizeOf t.root) t le_rfl hwf hsz

theorem C7_shrink_amended_witness :
    (Octree.init.root.size < DEFAULT_ROOT_NODE_SIZE ∨
      ¬ Octree.init.root.objects = [] → Octree.init.shrink = Octree.init) ∧
    DEFAULT_ROOT_NODE_SIZE / 2 ≤ (Octree.init.shrink).root.size :=
  C7_shrink_amended Octree.init (reachable_treeWF Reachable.init).wf
    (show DEFAULT_ROOT_NODE_SIZE / 2 ≤ DEFAULT_ROOT_NODE_SIZE by
      norm_num [DEFAULT_ROOT_NODE_SIZE])

end Octo
